import Mathlib

/-!
# Best-first search over the campus graph (Dijkstra and A*)

A shallow embedding of `Part-2/dijkstra/dijkstra.cpp` and `Part-2/a_star/a_star.cpp`,
and of the two solvers built on `std::unordered_map`,
`Part-2/a_star/large_graph/astar_large_graph.cpp` (`astar`) and
`Part-3/small_graph/a_star_heuristics.cpp` (`aStar`).

Conventions of the embedding.

* `float` costs are exact in `a_star`, `dijkstra`, `astar` and `aStar`: a finite cost is
  a rational number, sums are not rounded and a finite sum never becomes `INFINITY`, the
  top element of `WithTop ℚ`.  Edge weights and heuristic values read from the tables
  are finite rationals.  These are the functions under exact arithmetic.
* the namespace `Bin32` embeds `a_star` and `dijkstra` a second time on the type `float`
  itself (`F32`: binary32, round to nearest, ties to even, overflow to an infinity), for
  the runs in which rounding or overflow decides; `generateHeuristics` computes on `F32`
  as well.
* `int` node ids are integers; `std::vector` accesses go through `vget` / `vset`, which
  read a default and skip the write when the index is out of range.  The source has no
  defined behaviour there: the statements about the outcome of a search assume that the
  arcs end inside the node vector (`ValidArcs`) and that start and goal are slots of it
  (`InRange`), as `addNode` guarantees for the names it records.
* `std::unordered_map` is an association list searched from the front (`List.lookup`).
* `std::priority_queue<pair<float,int>, ..., greater<>>` is a list of pairs; `top` is the
  least pair in the lexicographic order of `pair`, `pop` removes one copy of it.
* the `while` / `for` loops run on fuel and return `none` when the fuel is used up before
  the loop leaves through its own exit; `a_star` / `dijkstra` pass `searchFuel g` and
  `nodes.size() + 1`, which are shown to be enough.
* `stats.ms` (wall-clock time) is not part of the model.
* in the map-based solvers a call ends in an `Outcome`: a returned value, the exception
  `std::out_of_range` of a failed `at`, or used-up fuel; `m[k]` on a missing key reads
  the value-initialised default that `operator[]` inserts.
-/

namespace HW3

/-- A cost: a finite rational or `INFINITY` (`⊤`). -/
abbrev Cost := WithTop ℚ

/-- Record `struct Edge { int to; float w; bool directed; }`. -/
structure Edge where
  to_ : Int
  w : ℚ
  directed : Bool
deriving DecidableEq

/-- Record `struct Node { int id; string name; float x, y; }`. -/
structure Node where
  id : Int
  name : String
  x : ℚ
  y : ℚ
deriving DecidableEq

/-- Record `struct Graph`: adjacency map, name table and node vector. -/
structure Graph where
  adj : List (Int × List Edge)
  nameToId : List (String × Int)
  nodes : List Node
deriving DecidableEq

/-- Read `v[i]` of a `std::vector`; `d` when `i` is out of range. -/
def vget {α : Type} (v : List α) (i : Int) (d : α) : α :=
  if i < 0 then d else v.getD i.toNat d

/-- Write `v[i] = a` of a `std::vector`; no write when `i` is out of range. -/
def vset {α : Type} (v : List α) (i : Int) (a : α) : List α :=
  if i < 0 then v else v.set i.toNat a

/-- Insert or overwrite `m[k] = a` of a `std::unordered_map`. -/
def mapSet {κ α : Type} [DecidableEq κ] : List (κ × α) → κ → α → List (κ × α)
  | [], k, a => [(k, a)]
  | (k0, a0) :: rest, k, a =>
    if k0 = k then (k0, a) :: rest else (k0, a0) :: mapSet rest k a

/-- Body of `Graph::addNode`. -/
def Graph.addNode (g : Graph) (id : Int) (name : String) (x y : ℚ) : Graph :=
  let nodes1 :=
    if (g.nodes.length : Int) ≤ id then
      g.nodes ++ List.replicate ((id + 1).toNat - g.nodes.length) ⟨0, "", 0, 0⟩
    else g.nodes
  { g with nodes := vset nodes1 id ⟨id, name, x, y⟩,
           nameToId := mapSet g.nameToId name id }

/-- Statement `adj[u].push_back(e)`. -/
def adjPush (adj : List (Int × List Edge)) (u : Int) (e : Edge) : List (Int × List Edge) :=
  mapSet adj u ((adj.lookup u).getD [] ++ [e])

/-- Body of `Graph::addEdge`. -/
def Graph.addEdge (g : Graph) (u v : Int) (w : ℚ) (directed : Bool) : Graph :=
  let adj1 := adjPush g.adj u ⟨v, w, directed⟩
  let adj2 := if !directed then adjPush adj1 v ⟨u, w, directed⟩ else adj1
  { g with adj := adj2 }

/-- The empty graph (`Graph g;`). -/
def Graph.empty : Graph := ⟨[], [], []⟩

/-- Record `struct AStarStats` / `struct DijkstraStats` (without `ms`). -/
structure Stats where
  expansions : Nat
  maxFringe : Nat
  pathCost : Cost
deriving DecidableEq

/-- A freshly constructed statistics record. -/
def Stats.fresh : Stats := ⟨0, 0, ⊤⟩

/-- An entry of the frontier: `pair<float,int>`. -/
abbrev PQItem := Cost × Int

/-- Comparison `operator<` of `pair<float,int>`. -/
def pqLess (a b : PQItem) : Bool :=
  decide (a.1 < b.1) || (!decide (b.1 < a.1) && decide (a.2 < b.2))

/-- Least element of `m :: q` for `pqLess`. -/
def pqMin : PQItem → List PQItem → PQItem
  | m, [] => m
  | m, x :: xs => pqMin (if pqLess x m then x else m) xs

/-- Call `open.top()` on the min-heap. -/
def pqTop : List PQItem → Option PQItem
  | [] => none
  | x :: xs => some (pqMin x xs)

/-- Lambda `findId` of `a_star` / `dijkstra`. -/
def findId (g : Graph) (s : String) : Int :=
  match g.nameToId.lookup s with
  | none => -1
  | some i => i

/-- Lambda `h` of `a_star`: the table value of the node's name, `0` when absent. -/
def heur (g : Graph) (hmap : List (String × ℚ)) (v : Int) : ℚ :=
  if v < 0 then 0 else
  match g.nodes.get? v.toNat with
  | none => 0
  | some n =>
    match hmap.lookup n.name with
    | none => 0
    | some x => x

/-- Local state of one run of `a_star`. -/
structure AState where
  openQ : List PQItem
  gCost : List Cost
  fCost : List Cost
  parent : List Int
  closed : List Bool
  stats : Stats
deriving DecidableEq

/-- Body of the `for (const auto& e : it->second)` loop of `a_star`; the value pushed is
the one just stored in `fCost[e.to]`. -/
def aRelax (h : Int → ℚ) (u : Int) (s : AState) (e : Edge) : AState :=
  if vget s.closed e.to_ false then s
  else
    let tentative : Cost := vget s.gCost u ⊤ + (e.w : Cost)
    if tentative < vget s.gCost e.to_ ⊤ then
      let f : Cost := tentative + (h e.to_ : Cost)
      { s with gCost := vset s.gCost e.to_ tentative,
               parent := vset s.parent e.to_ u,
               fCost := vset s.fCost e.to_ f,
               openQ := (f, e.to_) :: s.openQ }
    else s

/-- One pass through the body of `while (!open.empty())` of `a_star`, from a state whose
frontier has top `top`; the flag is `true` when the pass leaves through `break`. -/
def aBody (g : Graph) (h : Int → ℚ) (goal : Int) (s : AState) (top : PQItem) :
    AState × Bool :=
  let stats1 : Stats := { s.stats with maxFringe := max s.stats.maxFringe s.openQ.length }
  let u := top.2
  let s1 : AState := { s with openQ := s.openQ.erase top, stats := stats1 }
  if vget s1.closed u false then (s1, false)
  else
    let s2 : AState :=
      { s1 with closed := vset s1.closed u true,
                stats := { stats1 with expansions := stats1.expansions + 1 } }
    if u = goal then (s2, true)
    else
      match g.adj.lookup u with
      | none => (s2, false)
      | some es => (es.foldl (aRelax h u) s2, false)

/-- The loop `while (!open.empty())` of `a_star`; `none` when `fuel` passes do not
reach the exit of the loop. -/
def aLoop (g : Graph) (h : Int → ℚ) (goal : Int) : Nat → AState → Option AState
  | 0, _ => none
  | fuel + 1, s =>
    match pqTop s.openQ with
    | none => some s
    | some top =>
      let r := aBody g h goal s top
      if r.2 then some r.1 else aLoop g h goal fuel r.1

/-- Loop `for (int v = goal; v != -1; v = parent[v])` collecting `path` (goal first);
`none` when `fuel` passes do not reach the exit of the loop. -/
def walkBack (parent : List Int) (start : Int) : Nat → Int → Option (List Int)
  | 0, _ => none
  | fuel + 1, v =>
    if v = -1 then some []
    else if v = start then some [v]
    else (walkBack parent start fuel (vget parent v (-1))).map (fun l => v :: l)

/-- Number of arcs stored in `adj`. -/
def arcCount (g : Graph) : Nat := (g.adj.map (fun p => p.2.length)).sum

/-- Passes granted to the search loop. -/
def searchFuel (g : Graph) : Nat := arcCount g + 2

/-- State of `a_star` when it enters the search loop; the key pushed is the value just
stored in `fCost[start]`. -/
def aInit (g : Graph) (h : Int → ℚ) (start : Int) (stats : Stats) : AState :=
  let N := g.nodes.length
  let gCost := vset (List.replicate N (⊤ : Cost)) start 0
  let fCost := vset (List.replicate N (⊤ : Cost)) start (h start : Cost)
  { openQ := [((h start : Cost), start)], gCost := gCost, fCost := fCost,
    parent := List.replicate N (-1), closed := List.replicate N false, stats := stats }

/-- The part of `a_star` after the search loop. -/
def aFinish (g : Graph) (start goal : Int) (s : AState) : Option (List Int × Stats) :=
  if vget s.parent goal (-1) = -1 ∧ start ≠ goal then some ([], s.stats)
  else
    match walkBack s.parent start (g.nodes.length + 1) goal with
    | none => none
    | some l => some (l.reverse, { s.stats with pathCost := vget s.gCost goal ⊤ })

/-- Function `a_star` of `a_star.cpp`: the returned path and the final `stats`. -/
def a_star (g : Graph) (startName goalName : String) (hmap : List (String × ℚ))
    (stats : Stats) : Option (List Int × Stats) :=
  let start := findId g startName
  let goal := findId g goalName
  if start < 0 ∨ goal < 0 then some ([], stats)
  else
    match aLoop g (heur g hmap) goal (searchFuel g) (aInit g (heur g hmap) start stats) with
    | none => none
    | some s => aFinish g start goal s

/-- Local state of one run of `dijkstra`. -/
structure DState where
  openQ : List PQItem
  dist : List Cost
  parent : List Int
  closed : List Bool
  stats : Stats
deriving DecidableEq

/-- Body of the `for (const auto& e : it->second)` loop of `dijkstra`. -/
def dRelax (u : Int) (s : DState) (e : Edge) : DState :=
  if vget s.closed e.to_ false then s
  else
    let alt : Cost := vget s.dist u ⊤ + (e.w : Cost)
    if alt < vget s.dist e.to_ ⊤ then
      { s with dist := vset s.dist e.to_ alt,
               parent := vset s.parent e.to_ u,
               openQ := (alt, e.to_) :: s.openQ }
    else s

/-- One pass through the body of `while (!open.empty())` of `dijkstra`. -/
def dBody (g : Graph) (goal : Int) (s : DState) (top : PQItem) : DState × Bool :=
  let stats1 : Stats := { s.stats with maxFringe := max s.stats.maxFringe s.openQ.length }
  let u := top.2
  let s1 : DState := { s with openQ := s.openQ.erase top, stats := stats1 }
  if vget s1.closed u false then (s1, false)
  else
    let s2 : DState :=
      { s1 with closed := vset s1.closed u true,
                stats := { stats1 with expansions := stats1.expansions + 1 } }
    if u = goal then (s2, true)
    else
      match g.adj.lookup u with
      | none => (s2, false)
      | some es => (es.foldl (dRelax u) s2, false)

/-- The loop `while (!open.empty())` of `dijkstra`; `none` when `fuel` passes do not
reach the exit of the loop. -/
def dLoop (g : Graph) (goal : Int) : Nat → DState → Option DState
  | 0, _ => none
  | fuel + 1, s =>
    match pqTop s.openQ with
    | none => some s
    | some top =>
      let r := dBody g goal s top
      if r.2 then some r.1 else dLoop g goal fuel r.1

/-- State of `dijkstra` when it enters the search loop. -/
def dInit (g : Graph) (start : Int) (stats : Stats) : DState :=
  let N := g.nodes.length
  { openQ := [((0 : Cost), start)], dist := vset (List.replicate N (⊤ : Cost)) start 0,
    parent := List.replicate N (-1), closed := List.replicate N false, stats := stats }

/-- The part of `dijkstra` after the search loop. -/
def dFinish (g : Graph) (start goal : Int) (s : DState) : Option (List Int × Stats) :=
  let stats1 : Stats := { s.stats with pathCost := vget s.dist goal ⊤ }
  if vget s.parent goal (-1) = -1 ∧ start ≠ goal then some ([], stats1)
  else
    match walkBack s.parent start (g.nodes.length + 1) goal with
    | none => none
    | some l => some (l.reverse, stats1)

/-- Function `dijkstra` of `dijkstra.cpp`: the returned path and the final `stats`. -/
def dijkstra (g : Graph) (startName goalName : String) (stats : Stats) :
    Option (List Int × Stats) :=
  let start := findId g startName
  let goal := findId g goalName
  if start < 0 ∨ goal < 0 then some ([], stats)
  else
    match dLoop g goal (searchFuel g) (dInit g start stats) with
    | none => none
    | some s => dFinish g start goal s

/-- The loop `for (size_t i = 0; i + 1 < path.size(); ++i)` of `path_cost`, entered with
the running sum `cost` and the part of the path from `path[i]` on: the weight of the
first arc `path[i] -> path[i+1]` is added, and `INFINITY` is returned as soon as a pair
has no arc. -/
def pathCostLoop (g : Graph) (cost : Cost) : List Int → Cost
  | u :: v :: rest =>
    match ((g.adj.lookup u).getD []).find? (fun e => decide (e.to_ = v)) with
    | none => ⊤
    | some e => pathCostLoop g (cost + (e.w : Cost)) (v :: rest)
  | _ => cost

/-- Function `path_cost` of `a_star.cpp` and of `dijkstra.cpp`. -/
def path_cost (g : Graph) (path : List Int) : Cost := pathCostLoop g 0 path

/-- The four-node graph of the scenarios: A=0, B=1, C=2, D=3. -/
def abcd : Graph :=
  ((((((((Graph.empty.addNode 0 "A" 0 0).addNode 1 "B" 0 0).addNode 2 "C" 0 0).addNode 3 "D" 0 0
    ).addEdge 0 1 1 false).addEdge 1 3 1 false).addEdge 0 2 5 false).addEdge 2 3 1 false)

/-! ## Specification vocabulary -/

/-- The arcs leaving `u`: what `g.adj.find(u)` yields, empty when `u` is not a key. -/
def arcsOf (g : Graph) (u : Int) : List Edge := (g.adj.lookup u).getD []

/-- Index `v` is a slot of a vector of size `N`. -/
def InRange (N : Nat) (v : Int) : Prop := 0 ≤ v ∧ v < (N : Int)

/-- Every stored arc ends at a slot of `nodes`. -/
def ValidArcs (g : Graph) : Prop :=
  ∀ p ∈ g.adj, ∀ e ∈ p.2, 0 ≤ e.to_ ∧ e.to_ < (g.nodes.length : Int)

/-- Every stored arc has a non-negative weight. -/
def NonNegWeights (g : Graph) : Prop := ∀ p ∈ g.adj, ∀ e ∈ p.2, 0 ≤ e.w

/-- Walks of the graph: `Walk g u v c` is a walk from `u` to `v` along arcs of `g` whose
weights add up to `c`. -/
inductive Walk (g : Graph) : Int → Int → ℚ → Prop
  | nil (u : Int) : Walk g u u 0
  | snoc {u v : Int} {c : ℚ} (e : Edge) : Walk g u v c → e ∈ arcsOf g v →
      Walk g u e.to_ (c + e.w)

/-- Node `v` is reachable from `u`. -/
def Reachable (g : Graph) (u v : Int) : Prop := ∃ c, Walk g u v c

/-- The heuristic is consistent: `h(u) ≤ w + h(v)` for every stored arc `u -> v` of
weight `w`. -/
def Consistent (g : Graph) (h : Int → ℚ) : Prop :=
  ∀ p ∈ g.adj, ∀ e ∈ p.2, h p.1 ≤ e.w + h e.to_

/-- The heuristic is admissible for `goal`: at every node it is non-negative and never
above the weight of a walk to the goal. -/
def Admissible (g : Graph) (h : Int → ℚ) (goal : Int) : Prop :=
  ∀ v, InRange g.nodes.length v → 0 ≤ h v ∧ ∀ c, Walk g v goal c → h v ≤ c

instance (g : Graph) : Decidable (ValidArcs g) := by
  unfold ValidArcs
  infer_instance

instance (g : Graph) : Decidable (NonNegWeights g) := by
  unfold NonNegWeights
  infer_instance

instance (g : Graph) (h : Int → ℚ) : Decidable (Consistent g h) := by
  unfold Consistent
  infer_instance

instance (N : Nat) (v : Int) : Decidable (InRange N v) := by
  unfold InRange
  infer_instance

/-- Consecutive nodes of the list are joined by an arc of the graph. -/
def IsArcPath (g : Graph) (l : List Int) : Prop :=
  List.Chain' (fun u v => ∃ e ∈ arcsOf g u, e.to_ = v) l


/-! ## Invariants of the search loop -/

/-- Value `gCost[v]` in state `s`. -/
def AState.g (s : AState) (v : Int) : Cost := vget s.gCost v ⊤

/-- Flag `closed[v]` in state `s`. -/
def AState.cl (s : AState) (v : Int) : Prop := vget s.closed v false = true

/-- Value `parent[v]` in state `s`. -/
def AState.par (s : AState) (v : Int) : Int := vget s.parent v (-1)

/-- The state of `dijkstra` that corresponds to a state of `a_star`. -/
def AState.toD (s : AState) : DState :=
  { openQ := s.openQ, dist := s.gCost, parent := s.parent, closed := s.closed,
    stats := s.stats }

/-- The list `l` is the chain of parent links from `v` back to `start` (`v` first); each
link is an arc of the graph that accounts for the difference of the `gCost` values. -/
inductive IsPPath (g : Graph) (s : AState) (start : Int) : Int → List Int → Prop
  | base : IsPPath g s start start [start]
  | step {v : Int} {l : List Int} (e : Edge) : v ≠ start → e ∈ arcsOf g (s.par v) →
      e.to_ = v → s.g v = s.g (s.par v) + (e.w : Cost) → IsPPath g s start (s.par v) l →
      IsPPath g s start v (v :: l)

/-- The arcs of a closed node `u` that the loop has gone through: all of them, except
for the node under expansion, whose processed arcs are `cur`. -/
def doneArcs (g : Graph) (cur : Option (Int × List Edge)) (u : Int) : List Edge :=
  match cur with
  | none => arcsOf g u
  | some (u0, done) => if u = u0 then done else arcsOf g u

/-- Invariant of the search loop of `a_star`, at the head of the loop (`cur = none`) and
inside the expansion of a node (`cur = some (u, done)`); `e0` is the value of
`stats.expansions` on entry. -/
structure Inv (g : Graph) (h : Int → ℚ) (start goal : Int) (e0 : Nat)
    (cur : Option (Int × List Edge)) (s : AState) : Prop where
  len_g : s.gCost.length = g.nodes.length
  len_p : s.parent.length = g.nodes.length
  len_c : s.closed.length = g.nodes.length
  open_ok : ∀ x ∈ s.openQ, InRange g.nodes.length x.2 ∧ s.g x.2 ≠ ⊤
  closed_fin : ∀ v, s.cl v → s.g v ≠ ⊤
  open_has : ∀ v, ¬ s.cl v → s.g v ≠ ⊤ → (s.g v + (h v : Cost), v) ∈ s.openQ
  start_ok : InRange g.nodes.length start ∧ s.g start = 0 ∧ s.par start = -1
  start_cl : s.cl start ∨ (cur = none ∧ s.openQ = [((h start : Cost), start)])
  goal_open : ¬ s.cl goal
  walk : ∀ (v : Int) (c : ℚ), s.g v = (c : Cost) → Walk g start v c
  chain : ∀ v, s.g v ≠ ⊤ → ∃ l, IsPPath g s start v l ∧ (∀ y ∈ l.tail, s.cl y) ∧
    l.Nodup ∧ ∀ y ∈ l, InRange g.nodes.length y
  order : ∃ ord : List Int, ord.Nodup ∧ (∀ v, v ∈ ord ↔ s.cl v) ∧
    s.stats.expansions = e0 + ord.length
  relaxed : ∀ u, s.cl u → ∀ e ∈ doneArcs g cur u, s.g e.to_ ≠ ⊤
  cur_cl : ∀ u done, cur = some (u, done) → s.cl u
  par_none : ∀ v, s.g v = ⊤ → s.par v = -1

/-- Invariant of the search loop of `a_star` under a consistent heuristic: closed nodes
carry the least walk weight. -/
structure InvO (g : Graph) (h : Int → ℚ) (start : Int)
    (cur : Option (Int × List Edge)) (s : AState) : Prop where
  opt : ∀ v, s.cl v → ∀ c : ℚ, Walk g start v c → s.g v ≤ (c : Cost)
  tri : ∀ u, s.cl u → ∀ e ∈ doneArcs g cur u, s.g e.to_ ≤ s.g u + (e.w : Cost)
  key_ge : ∀ x ∈ s.openQ, s.g x.2 + (h x.2 : Cost) ≤ x.1

/-- Number of arcs stored under keys that are not closed. -/
def openArcs (closed : List Bool) (adj : List (Int × List Edge)) : Nat :=
  (adj.map (fun p => if vget closed p.1 false then 0 else p.2.length)).sum

/-- Bound on the number of passes the search loop can still make. -/
def phi (g : Graph) (s : AState) : Nat := s.openQ.length + openArcs s.closed g.adj

/-- The state after `open.pop()` and the update of `stats.maxFringe`. -/
def popS (s : AState) (top : PQItem) : AState :=
  { s with openQ := s.openQ.erase top,
           stats := { s.stats with maxFringe := max s.stats.maxFringe s.openQ.length } }

/-- The state after `closed[u] = 1; stats.expansions++`. -/
def closeS (s : AState) (u : Int) : AState :=
  { s with closed := vset s.closed u true,
           stats := { s.stats with expansions := s.stats.expansions + 1 } }

/-- Property of the states of a run, on any graph: a node other than start without a
parent has infinite tentative cost, and `stats.pathCost` is not touched. -/
def Weak (start : Int) (p0 : Cost) (s : AState) : Prop :=
  (∀ v, v ≠ start → s.par v = -1 → s.g v = ⊤) ∧ s.stats.pathCost = p0 ∧
    s.gCost.length = s.parent.length

/-! ## Example graphs -/

/-- Four nodes S=0, A=1, B=2, G=3 with the directed arcs S->A (1), S->B (3), A->B (1),
B->G (10): the cheapest route to B goes through A. -/
def detour : Graph :=
  ((((((((Graph.empty.addNode 0 "S" 0 0).addNode 1 "A" 0 0).addNode 2 "B" 0 0).addNode 3 "G" 0 0
    ).addEdge 0 1 1 true).addEdge 0 2 3 true).addEdge 1 2 1 true).addEdge 2 3 10 true)

/-- Two nodes A=0, B=1 joined by two parallel directed arcs A->B, of weight 5 and then of
weight 1. -/
def twin : Graph :=
  ((((Graph.empty.addNode 0 "A" 0 0).addNode 1 "B" 0 0).addEdge 0 1 5 true).addEdge 0 1 1 true)

/-- Four nodes A..D as in `abcd`, with the directed self-loop A->A of weight 3 added. -/
def loopy : Graph := abcd.addEdge 0 0 3 true

/-! ## States of a run -/

/-- States at the head of the search loop of `a_star` that a run started in `s`
reaches: `s` itself, and the state left by a pass that does not leave through `break`. -/
inductive AHead (g : Graph) (h : Int → ℚ) (goal : Int) (s : AState) : AState → Prop
  | start : AHead g h goal s s
  | pass {s' : AState} {top : PQItem} : AHead g h goal s s' → pqTop s'.openQ = some top →
      (aBody g h goal s' top).2 = false → AHead g h goal s (aBody g h goal s' top).1

/-- States at the head of the search loop of `dijkstra` that a run started in `s`
reaches. -/
inductive DHead (g : Graph) (goal : Int) (s : DState) : DState → Prop
  | start : DHead g goal s s
  | pass {s' : DState} {top : PQItem} : DHead g goal s s' → pqTop s'.openQ = some top →
      (dBody g goal s' top).2 = false → DHead g goal s (dBody g goal s' top).1

/-- If node `v` is closed in state `s` of `a_star`, it is closed in `s'` with the same
`gCost[v]` and `parent[v]`. -/
def AFrozen (v : Int) (s s' : AState) : Prop :=
  s.cl v → s'.cl v ∧ s'.g v = s.g v ∧ s'.par v = s.par v

/-- If node `v` is closed in state `s` of `dijkstra`, it is closed in `s'` with the same
`dist[v]` and `parent[v]`. -/
def DFrozen (v : Int) (s s' : DState) : Prop :=
  vget s.closed v false = true →
    vget s'.closed v false = true ∧ vget s'.dist v ⊤ = vget s.dist v ⊤ ∧
      vget s'.parent v (-1) = vget s.parent v (-1)

instance (s : AState) (v : Int) : Decidable (s.cl v) := by
  unfold AState.cl
  infer_instance

/-! ## Sequences of insertions -/

/-- The calls `g.addNode(id, name, x, y)` made in the order of the list. -/
def addNodes (g : Graph) : List (Int × String × ℚ × ℚ) → Graph
  | [] => g
  | p :: rest => addNodes (g.addNode p.1 p.2.1 p.2.2.1 p.2.2.2) rest

/-- The value of `nodes.size()` after the calls of `addNodes` when all ids are
non-negative: the running maximum of the old size and `id + 1`. -/
def sizeAfter (n : Nat) (l : List (Int × String × ℚ × ℚ)) : Nat :=
  l.foldl (fun m p => max m (p.1 + 1).toNat) n

/-! ## The large-graph solver (`astar_large_graph.cpp`)

The maps `g`, `f`, `parent` and `H` are association lists; `m[k]` reads the stored value,
or the value-initialised default (`0`) that `operator[]` inserts for a missing key, and
`H.at(k)` raises `std::out_of_range` for a missing key. -/

/-- How a call ends: it returns a value, it raises `std::out_of_range` (a failed `at`),
or the fuel of the model is used up before the loop leaves through its own exit. -/
inductive Outcome (α : Type) where
  | ok (a : α)
  | outOfRange
  | noFuel
deriving DecidableEq

/-- Continue with `k` after a call that returned. -/
def Outcome.andThen {α β : Type} (o : Outcome α) (k : α → Outcome β) : Outcome β :=
  match o with
  | .ok a => k a
  | .outOfRange => .outOfRange
  | .noFuel => .noFuel

/-- Read `m[k]` of a `std::unordered_map`; `d` is the value-initialised default. -/
def mget {κ α : Type} [BEq κ] (m : List (κ × α)) (k : κ) (d : α) : α :=
  (m.lookup k).getD d

/-- Record `struct Edge { int to; double w; }` of `astar_large_graph.cpp`. -/
structure LEdge where
  to_ : Int
  w : ℚ
deriving DecidableEq

/-- The adjacency map `unordered_map<int, vector<Edge>>` of `astar_large_graph.cpp`. -/
abbrev LGraph := List (Int × List LEdge)

/-- Local state of one run of `astar`. -/
structure LState where
  openQ : List PQItem
  g : List (Int × Cost)
  f : List (Int × Cost)
  parent : List (Int × Int)
  closed : List Int
  expansions : Int
deriving DecidableEq

/-- Body of the loop `for (auto [v, w] : graph.at(u))` of `astar`. -/
def lRelax (H : List (Int × ℚ)) (u : Int) (s : LState) (e : LEdge) : Outcome LState :=
  let tentative : Cost := mget s.g u 0 + (e.w : Cost)
  if tentative < mget s.g e.to_ 0 then
    match H.lookup e.to_ with
    | none => .outOfRange
    | some hv =>
      .ok { s with g := mapSet s.g e.to_ tentative,
                   f := mapSet s.f e.to_ (tentative + (hv : Cost)),
                   parent := mapSet s.parent e.to_ u,
                   openQ := (tentative + (hv : Cost), e.to_) :: s.openQ }
  else .ok s

/-- The loop `for (auto [v, w] : graph.at(u))` of `astar`. -/
def lRelaxAll (H : List (Int × ℚ)) (u : Int) : LState → List LEdge → Outcome LState
  | s, [] => .ok s
  | s, e :: es => (lRelax H u s e).andThen (fun s' => lRelaxAll H u s' es)

/-- One pass through the body of `while (!open.empty())` of `astar`, up to the test
`u == goal`; the flag is `true` when the pass has popped and closed the goal. -/
def lBody (graph : LGraph) (H : List (Int × ℚ)) (goal : Int) (s : LState) (top : PQItem) :
    Outcome (LState × Bool) :=
  let u := top.2
  let s1 : LState := { s with openQ := s.openQ.erase top }
  if u ∈ s1.closed then .ok (s1, false)
  else
    let s2 : LState := { s1 with closed := u :: s1.closed, expansions := s1.expansions + 1 }
    if u = goal then .ok (s2, true)
    else
      match graph.lookup u with
      | none => .ok (s2, false)
      | some es => (lRelaxAll H u s2 es).andThen (fun s3 => .ok (s3, false))

/-- Loop `for (int v = goal; v != start; v = parent[v]) path.push_back(v);`. -/
def lWalkBack (parent : List (Int × Int)) (start : Int) : Nat → Int → Outcome (List Int)
  | 0, _ => .noFuel
  | fuel + 1, v =>
    if v = start then .ok []
    else (lWalkBack parent start fuel (mget parent v 0)).andThen (fun l => .ok (v :: l))

/-- The block of `astar` that builds the returned path once the goal is closed. -/
def lPath (parent : List (Int × Int)) (start goal : Int) : Outcome (List Int) :=
  (lWalkBack parent start (parent.length + 1) goal).andThen
    (fun l => .ok (l ++ [start]).reverse)

/-- The loop `while (!open.empty())` of `astar` with the two `return`s. -/
def lLoop (graph : LGraph) (H : List (Int × ℚ)) (start goal : Int) :
    Nat → LState → Outcome (List Int)
  | 0, _ => .noFuel
  | fuel + 1, s =>
    match pqTop s.openQ with
    | none => .ok []
    | some top =>
      (lBody graph H goal s top).andThen (fun r =>
        if r.2 then lPath r.1.parent start goal else lLoop graph H start goal fuel r.1)

/-- The state after at most `n` passes of the loop of `astar` (fewer when the frontier
empties or the goal is closed earlier). -/
def lSteps (graph : LGraph) (H : List (Int × ℚ)) (goal : Int) : Nat → LState → Outcome LState
  | 0, s => .ok s
  | n + 1, s =>
    match pqTop s.openQ with
    | none => .ok s
    | some top =>
      (lBody graph H goal s top).andThen (fun r =>
        if r.2 then .ok r.1 else lSteps graph H goal n r.1)

/-- State of `astar` when it enters the search loop; `hs` is `H.at(start)`. -/
def lInit (graph : LGraph) (start : Int) (hs : ℚ) : LState :=
  let g0 : List (Int × Cost) := graph.foldl (fun m p => mapSet m p.1 ⊤) []
  { openQ := [((hs : Cost), start)], g := mapSet g0 start 0, f := mapSet g0 start (hs : Cost),
    parent := [], closed := [], expansions := 0 }

/-- Passes granted to the loop of `astar`. -/
def lFuel (graph : LGraph) : Nat := (graph.map (fun p => p.2.length)).sum + 2

/-- Function `astar` of `astar_large_graph.cpp`. -/
def astar (graph : LGraph) (start goal : Int) (H : List (Int × ℚ)) : Outcome (List Int) :=
  match H.lookup start with
  | none => .outOfRange
  | some hs => lLoop graph H start goal (lFuel graph) (lInit graph start hs)

/-- Walks along the arcs of an adjacency map of `astar_large_graph.cpp`. -/
inductive LWalk (graph : LGraph) : Int → Int → Prop
  | nil (u : Int) : LWalk graph u u
  | snoc {u v : Int} (e : LEdge) : LWalk graph u v → e ∈ (graph.lookup v).getD [] →
      LWalk graph u e.to_

/-! ## The heuristic-comparison solver (`a_star_heuristics.cpp`) -/

/-- Record `struct Node { int id; string name; double x, y; string cluster; }`. -/
structure HNode where
  id : Int
  name : String
  x : ℚ
  y : ℚ
  cluster : String
deriving DecidableEq

/-- Record `struct Graph` of `a_star_heuristics.cpp`: an arc is a `pair<int,double>`. -/
structure HGraph where
  nodes : List HNode
  adj : List (Int × List (Int × ℚ))
deriving DecidableEq

/-- Local state of one run of `aStar`. -/
structure HState where
  openQ : List PQItem
  gScore : List (Int × Cost)
  fScore : List (Int × Cost)
  cameFrom : List (Int × Int)
  visited : List Int
  expanded : Int
deriving DecidableEq

/-- Read `g.nodes[v]`. -/
def hNode (g : HGraph) (v : Int) : HNode := vget g.nodes v ⟨0, "", 0, 0, ""⟩

/-- Body of the loop `for (auto [v, w] : g.adj.at(u))` of `aStar`. -/
def hRelax (g : HGraph) (heuristic : HNode → HNode → ℚ) (goal u : Int) (s : HState)
    (e : Int × ℚ) : HState :=
  let tentative : Cost := mget s.gScore u 0 + (e.2 : Cost)
  if tentative < mget s.gScore e.1 0 then
    let fv : Cost := tentative + (heuristic (hNode g e.1) (hNode g goal) : Cost)
    { s with cameFrom := mapSet s.cameFrom e.1 u,
             gScore := mapSet s.gScore e.1 tentative,
             fScore := mapSet s.fScore e.1 fv,
             openQ := (fv, e.1) :: s.openQ }
  else s

/-- One pass through the body of `while (!open.empty())` of `aStar`; the flag is `true`
when the pass leaves through `break`. -/
def hBody (g : HGraph) (heuristic : HNode → HNode → ℚ) (goal : Int) (s : HState)
    (top : PQItem) : Outcome (HState × Bool) :=
  let u := top.2
  let s1 : HState := { s with openQ := s.openQ.erase top }
  if u ∈ s1.visited then .ok (s1, false)
  else
    let s2 : HState := { s1 with visited := u :: s1.visited, expanded := s1.expanded + 1 }
    if u = goal then .ok (s2, true)
    else
      match g.adj.lookup u with
      | none => .outOfRange
      | some es => .ok (es.foldl (hRelax g heuristic goal u) s2, false)

/-- The loop `while (!open.empty())` of `aStar`. -/
def hLoop (g : HGraph) (heuristic : HNode → HNode → ℚ) (goal : Int) :
    Nat → HState → Outcome HState
  | 0, _ => .noFuel
  | fuel + 1, s =>
    match pqTop s.openQ with
    | none => .ok s
    | some top =>
      (hBody g heuristic goal s top).andThen (fun r =>
        if r.2 then .ok r.1 else hLoop g heuristic goal fuel r.1)

/-- The state after at most `n` passes of the loop of `aStar`. -/
def hSteps (g : HGraph) (heuristic : HNode → HNode → ℚ) (goal : Int) :
    Nat → HState → Outcome HState
  | 0, s => .ok s
  | n + 1, s =>
    match pqTop s.openQ with
    | none => .ok s
    | some top =>
      (hBody g heuristic goal s top).andThen (fun r =>
        if r.2 then .ok r.1 else hSteps g heuristic goal n r.1)

/-- Loop `while (cameFrom.find(cur) != cameFrom.end())` of `aStar`. -/
def hWalkBack (cameFrom : List (Int × Int)) : Nat → Int → Outcome (List Int)
  | 0, _ => .noFuel
  | fuel + 1, cur =>
    match cameFrom.lookup cur with
    | none => .ok []
    | some p => (hWalkBack cameFrom fuel p).andThen (fun l => .ok (cur :: l))

/-- The constant `1e18` that `aStar` uses as the initial score. -/
def hInf : Cost := ((10 ^ 18 : ℚ) : Cost)

/-- State of `aStar` when it enters the search loop. -/
def hInit (g : HGraph) (heuristic : HNode → HNode → ℚ) (start goal : Int) : HState :=
  let s0 : List (Int × Cost) := g.nodes.foldl (fun m n => mapSet m n.id hInf) []
  let f0 : Cost := (heuristic (hNode g start) (hNode g goal) : Cost)
  { openQ := [(f0, start)], gScore := mapSet s0 start 0, fScore := mapSet s0 start f0,
    cameFrom := [], visited := [], expanded := 0 }

/-- Passes granted to the loop of `aStar`. -/
def hFuel (g : HGraph) : Nat := (g.adj.map (fun p => p.2.length)).sum + 2

/-- Function `aStar` of `a_star_heuristics.cpp`: the returned pair of path and cost, and
the final value of `expanded`. -/
def aStar (g : HGraph) (start goal : Int) (heuristic : HNode → HNode → ℚ) :
    Outcome (List Int × Cost × Int) :=
  (hLoop g heuristic goal (hFuel g) (hInit g heuristic start goal)).andThen (fun s =>
    (hWalkBack s.cameFrom (s.cameFrom.length + 1) goal).andThen (fun l =>
      .ok ((l ++ [start]).reverse, mget s.gScore goal 0, s.expanded)))

/-- Walks along the arcs of a graph of `a_star_heuristics.cpp`. -/
inductive HWalk (g : HGraph) : Int → Int → Prop
  | nil (u : Int) : HWalk g u u
  | snoc {u v : Int} (e : Int × ℚ) : HWalk g u v → e ∈ (g.adj.lookup v).getD [] →
      HWalk g u e.1

/-! ## Example inputs of the map-based solvers -/

/-- Adjacency map with the arcs 0->1 (1), 0->2 (3), 1->2 (1), 2->3 (10), 3->0 (1). -/
def ldetour : LGraph :=
  [(0, [⟨1, 1⟩, ⟨2, 3⟩]), (1, [⟨2, 1⟩]), (2, [⟨3, 10⟩]), (3, [⟨0, 1⟩])]

/-- Adjacency map with the single arc 0->1 (1): node 1 is not a key. -/
def lsink : LGraph := [(0, [⟨1, 1⟩])]

/-- Adjacency map with the arcs 0->1 (1) and 1->0 (1). -/
def lpair : LGraph := [(0, [⟨1, 1⟩]), (1, [⟨0, 1⟩])]

/-- Graph of `a_star_heuristics.cpp` with nodes 0..3 and the arcs of `ldetour`. -/
def hdetour : HGraph :=
  { nodes := [⟨0, "S", 0, 0, "None"⟩, ⟨1, "A", 0, 0, "None"⟩, ⟨2, "B", 0, 0, "None"⟩,
              ⟨3, "G", 0, 0, "None"⟩],
    adj := [(0, [(1, 1), (2, 3)]), (1, [(2, 1)]), (2, [(3, 10)]), (3, [(0, 1)])] }

/-- Heuristic that gives 5 at node 1 and 0 elsewhere. -/
def hFive (a _b : HNode) : ℚ := if a.id = 1 then 5 else 0

/-- Graph of `a_star_heuristics.cpp` with nodes 0 and 1 and the arcs 0->0 (1) and
1->0 (1): node 1 is not reachable from node 0. -/
def hapart : HGraph :=
  { nodes := [⟨0, "S", 0, 0, "None"⟩, ⟨1, "G", 0, 0, "None"⟩],
    adj := [(0, [(0, 1)]), (1, [(0, 1)])] }

/-- The zero heuristic. -/
def hZero (_a _b : HNode) : ℚ := 0

/-- Apply `f` to the value of a call that returned. -/
def Outcome.map {α β : Type} (f : α → β) (o : Outcome α) : Outcome β :=
  o.andThen (fun a => .ok (f a))

/-- What the statements on closed nodes observe in a state of `astar`: whether `v` is
closed, `g[v]` and `parent[v]`. -/
def lView (v : Int) (s : LState) : Bool × Cost × Int :=
  (decide (v ∈ s.closed), mget s.g v 0, mget s.parent v 0)

/-- What the statements on closed nodes observe in a state of `aStar`: whether `v` is
visited, `gScore[v]` and `cameFrom[v]`. -/
def hView (v : Int) (s : HState) : Bool × Cost × Int :=
  (decide (v ∈ s.visited), mget s.gScore v 0, mget s.cameFrom v 0)


/-! ## Traces of the search loop -/

/-- The values of `open.size()` at the head of the successive passes of the loop of
`a_star` started in state `s`, one per pass (every pass pops one entry), first pass
first. -/
def aFringes (g : Graph) (h : Int → ℚ) (goal : Int) : Nat → AState → List Nat
  | 0, _ => []
  | fuel + 1, s =>
    match pqTop s.openQ with
    | none => []
    | some top =>
      let r := aBody g h goal s top
      s.openQ.length :: (if r.2 then [] else aFringes g h goal fuel r.1)

/-- The values of `open.size()` at the head of the passes of the loop of `a_star` that
expand a node: the passes whose popped node is not closed yet. -/
def aExpFringes (g : Graph) (h : Int → ℚ) (goal : Int) : Nat → AState → List Nat
  | 0, _ => []
  | fuel + 1, s =>
    match pqTop s.openQ with
    | none => []
    | some top =>
      let r := aBody g h goal s top
      let rest := if r.2 then [] else aExpFringes g h goal fuel r.1
      if vget s.closed top.2 false then rest else s.openQ.length :: rest

/-- The values of `open.size()` at the head of the successive passes of the loop of
`dijkstra` started in state `s`. -/
def dFringes (g : Graph) (goal : Int) : Nat → DState → List Nat
  | 0, _ => []
  | fuel + 1, s =>
    match pqTop s.openQ with
    | none => []
    | some top =>
      let r := dBody g goal s top
      s.openQ.length :: (if r.2 then [] else dFringes g goal fuel r.1)

/-- The values of `open.size()` at the head of the passes of the loop of `dijkstra` that
expand a node. -/
def dExpFringes (g : Graph) (goal : Int) : Nat → DState → List Nat
  | 0, _ => []
  | fuel + 1, s =>
    match pqTop s.openQ with
    | none => []
    | some top =>
      let r := dBody g goal s top
      let rest := if r.2 then [] else dExpFringes g goal fuel r.1
      if vget s.closed top.2 false then rest else s.openQ.length :: rest

/-- Largest element of a list of sizes, `0` for the empty list. -/
def maxOf (l : List Nat) : Nat := l.foldr max 0

/-- Six nodes S=0, X=1, A=2, B=3, C=4, D=5 with the directed arcs S->A (5), S->X (1),
X->A (1), A->B (10), A->C (10), A->D (10): node A enters the frontier twice. -/
def stale : Graph :=
  ((((((((((((Graph.empty.addNode 0 "S" 0 0).addNode 1 "X" 0 0).addNode 2 "A" 0 0
    ).addNode 3 "B" 0 0).addNode 4 "C" 0 0).addNode 5 "D" 0 0).addEdge 0 2 5 true
    ).addEdge 0 1 1 true).addEdge 1 2 1 true).addEdge 2 3 10 true).addEdge 2 4 10 true
    ).addEdge 2 5 10 true)

/-! ## Cost of a path, as a sum -/

/-- The first arc `u -> v` in the insertion order of the adjacency list of `u`. -/
def firstArc (g : Graph) (u v : Int) : Option Edge :=
  (arcsOf g u).find? (fun e => decide (e.to_ = v))

/-- The consecutive pairs `(path[i], path[i+1])` of a path. -/
def pairsOf (path : List Int) : List (Int × Int) := path.zip path.tail

/-- Weight of the first arc `p.1 -> p.2` (`0` when there is none). -/
def pairWeight (g : Graph) (p : Int × Int) : ℚ :=
  match firstArc g p.1 p.2 with
  | none => 0
  | some e => e.w

/-- The cost of a path as a sum over its consecutive pairs: `INFINITY` when a pair has
no arc, the sum of the weights of the first arcs otherwise. -/
def pathCostSum (g : Graph) : List Int → Cost
  | u :: v :: rest =>
    match firstArc g u v with
    | none => ⊤
    | some e => (e.w : Cost) + pathCostSum g (v :: rest)
  | _ => 0

/-- At most one arc is stored for each ordered pair of nodes. -/
def NoParallel (g : Graph) : Prop := ∀ p ∈ g.adj, (p.2.map (fun e => e.to_)).Nodup

instance (g : Graph) : Decidable (NoParallel g) := by
  unfold NoParallel
  infer_instance

/-- Lexicographic order of the pairs `(f, node id)`, the `operator<=` of
`pair<float,int>`. -/
def lexLe (a b : PQItem) : Prop := a.1 < b.1 ∨ (a.1 = b.1 ∧ a.2 ≤ b.2)

/-! ## Binary32 arithmetic

The functions `a_star` and `dijkstra` above add costs as exact rationals: they are the
source under exact arithmetic.  This section models the type `float` itself (IEEE 754
binary32, round to nearest, ties to even), for the runs in which rounding or overflow
decides. -/

/-- A value of type `float`: a finite number, `+INFINITY`, `-INFINITY` or NaN (the sign
of a zero is not kept). -/
inductive F32 where
  | fin (q : ℚ)
  | pinf
  | ninf
  | nan
deriving DecidableEq

/-- The power `2 ^ z` for an integer exponent. -/
def pow2 (z : Int) : ℚ := if 0 ≤ z then (2 : ℚ) ^ z.toNat else 1 / (2 : ℚ) ^ (-z).toNat

/-- The integer nearest to `x`, the even one when `x` lies halfway between two. -/
def roundEven (x : ℚ) : Int :=
  if x - (⌊x⌋ : ℚ) < 1 / 2 then ⌊x⌋
  else if 1 / 2 < x - (⌊x⌋ : ℚ) then ⌊x⌋ + 1
  else if ⌊x⌋ % 2 = 0 then ⌊x⌋ else ⌊x⌋ + 1

/-- The exponent `e` of the binade of a positive `a`: the least `e` from `-126` to `127`
with `a < 2 ^ (e + 1)`; `none` when `a` is `2 ^ 128` or more. -/
def binade (a : ℚ) : Option Int :=
  ((List.range 254).map (fun (k : Nat) => (k : Int) - 126)).find?
    (fun e => decide (a < pow2 (e + 1)))

/-- Round a positive `a` to 24 significant bits in its binade (spacing `2 ^ (e - 23)`);
`none` when the result is `2 ^ 128` or more. -/
def roundMag (a : ℚ) : Option ℚ :=
  match binade a with
  | none => none
  | some e =>
    if (roundEven (a / pow2 (e - 23)) : ℚ) * pow2 (e - 23) < pow2 128 then
      some ((roundEven (a / pow2 (e - 23)) : ℚ) * pow2 (e - 23))
    else none

/-- The `float` nearest to the number `x`; overflow gives an infinity. -/
def toF32 (x : ℚ) : F32 :=
  if x = 0 then .fin 0
  else if 0 < x then
    match roundMag x with
    | none => .pinf
    | some r => .fin r
  else
    match roundMag (-x) with
    | none => .ninf
    | some r => .fin (-r)

/-- Operator `a + b` on `float`. -/
def F32.add : F32 → F32 → F32
  | .nan, _ => .nan
  | _, .nan => .nan
  | .pinf, .ninf => .nan
  | .ninf, .pinf => .nan
  | .pinf, _ => .pinf
  | _, .pinf => .pinf
  | .ninf, _ => .ninf
  | _, .ninf => .ninf
  | .fin a, .fin b => toF32 (a + b)

/-- Operator `-a` on `float`. -/
def F32.neg : F32 → F32
  | .fin a => .fin (-a)
  | .pinf => .ninf
  | .ninf => .pinf
  | .nan => .nan

/-- Operator `a - b` on `float`. -/
def F32.sub (a b : F32) : F32 := F32.add a (F32.neg b)

/-- Sign of a `float` that is not NaN: `1`, `0` or `-1`. -/
def F32.sgn : F32 → Int
  | .fin a => if 0 < a then 1 else if a < 0 then -1 else 0
  | .pinf => 1
  | .ninf => -1
  | .nan => 0

/-- Operator `a * b` on `float`. -/
def F32.mul : F32 → F32 → F32
  | .nan, _ => .nan
  | _, .nan => .nan
  | .fin a, .fin b => toF32 (a * b)
  | a, b =>
    if F32.sgn a * F32.sgn b = 0 then .nan
    else if 0 < F32.sgn a * F32.sgn b then .pinf else .ninf

/-- Operator `a / b` on `float`. -/
def F32.div : F32 → F32 → F32
  | .nan, _ => .nan
  | _, .nan => .nan
  | .fin a, .fin b =>
    if b = 0 then (if a = 0 then .nan else if 0 < a then .pinf else .ninf)
    else toF32 (a / b)
  | .fin _, _ => .fin 0
  | a, .fin b => if 0 ≤ F32.sgn a * (if b < 0 then -1 else 1) then .pinf else .ninf
  | _, _ => .nan

/-- Operator `a < b` on `float`. -/
def F32.lt : F32 → F32 → Bool
  | .nan, _ => false
  | _, .nan => false
  | .fin a, .fin b => decide (a < b)
  | .ninf, .ninf => false
  | .ninf, _ => true
  | _, .ninf => false
  | .pinf, _ => false
  | _, .pinf => true

/-- Call `sqrt(a)` on `float`, for a library function `sqrt` on the non-negative
numbers. -/
def F32.sqrtWith (sqrt : ℚ → ℚ) : F32 → F32
  | .fin a => if a < 0 then .nan else toF32 (sqrt a)
  | .pinf => .pinf
  | .ninf => .nan
  | .nan => .nan

/-- The number `q` is a value of type `float`. -/
def isF32 (q : ℚ) : Prop := toF32 q = .fin q

instance (q : ℚ) : Decidable (isF32 q) := by
  unfold isF32
  infer_instance

/-- The value is a non-negative number or `+INFINITY`. -/
def F32.NonNeg : F32 → Prop
  | .fin a => 0 ≤ a
  | .pinf => True
  | _ => False

/-! ## Heuristic producers -/

/-- Function `euclideanHeuristic` of `a_star_heuristics.cpp`; `sqrt` is the library
function on the machine numbers. -/
def euclideanHeuristic (sqrt : ℚ → ℚ) (a b : HNode) : ℚ :=
  let dx := a.x - b.x
  let dy := a.y - b.y
  sqrt (dx * dx + dy * dy)

/-- Function `clusterHeuristic` of `a_star_heuristics.cpp`. -/
def clusterHeuristic (sqrt : ℚ → ℚ) (a b : HNode) : ℚ :=
  let base := euclideanHeuristic sqrt a b
  if a.cluster = b.cluster then base else (3 / 2) * base

/-- Conversion `static_cast<int>(x)` of a `float`: the fractional part is discarded;
`none` (the behaviour is undefined) when the result is not a value of the 32-bit `int`
or `x` is not finite. -/
def castInt : F32 → Option Int
  | .fin q =>
    if -(2 : Int) ^ 31 ≤ (if 0 ≤ q then ⌊q⌋ else ⌈q⌉) ∧
        (if 0 ≤ q then ⌊q⌋ else ⌈q⌉) < (2 : Int) ^ 31 then
      some (if 0 ≤ q then ⌊q⌋ else ⌈q⌉)
    else none
  | _ => none

/-- The value `sqrt(dx * dx + dy * dy) / 100.0f + 0.5f` that `generateHeuristics`
computes for index `i`, every operation on `float`; a position is the pair `(x, y)`. -/
def hValue (sqrt : ℚ → ℚ) (pos : List (ℚ × ℚ)) (goal : Int) (i : Int) : F32 :=
  let dx := F32.sub (.fin (vget pos i (0, 0)).1) (.fin (vget pos goal (0, 0)).1)
  let dy := F32.sub (.fin (vget pos i (0, 0)).2) (.fin (vget pos goal (0, 0)).2)
  F32.add
    (F32.div (F32.sqrtWith sqrt (F32.add (F32.mul dx dx) (F32.mul dy dy))) (.fin 100))
    (.fin (1 / 2))

/-- Function `generateHeuristics` of `small_graph.cpp`: `h` starts as `pos.size()`
zeros and the loop stores `h[i] = static_cast<int>(...)` for `i = 0, ...,
pos.size() - 1`; `none` when a conversion has undefined behaviour. -/
def generateHeuristics (sqrt : ℚ → ℚ) (pos : List (ℚ × ℚ)) (goal : Int) :
    Option (List Int) :=
  (List.range pos.length).foldl
    (fun (h : Option (List Int)) (i : Nat) =>
      match h, castInt (hValue sqrt pos goal (i : Int)) with
      | some v, some c => some (vset v (i : Int) c)
      | _, _ => none)
    (some (List.replicate pos.length 0))

/-- Newton iteration `r := (r + n / r) / 2` for the whole part of the square root of
`n`, run while the value decreases. -/
def sqrtLoop : Nat → Nat → Nat → Nat
  | 0, _, r => r
  | fuel + 1, n, r =>
    if (r + n / r) / 2 < r then sqrtLoop fuel n ((r + n / r) / 2) else r

/-- A square root on the machine numbers that rounds down to a whole number. -/
def floorSqrt (x : ℚ) : ℚ :=
  if ⌊x⌋.toNat = 0 then 0 else (sqrtLoop ⌊x⌋.toNat ⌊x⌋.toNat ⌊x⌋.toNat : ℚ)

/-- Graph of `a_star_heuristics.cpp` with nodes 0, 1, 2 and the arcs 0->1 (1) and
0->2 (5): the nodes 1 and 2 have no outgoing arc, so `adj` has the single key 0. -/
def hfork : HGraph :=
  { nodes := [⟨0, "S", 0, 0, "None"⟩, ⟨1, "A", 0, 0, "None"⟩, ⟨2, "G", 0, 0, "None"⟩],
    adj := [(0, [(1, 1), (2, 5)])] }

/-- The graph `hfork` with an empty adjacency list stored for the nodes 1 and 2. -/
def hforkFull : HGraph :=
  { nodes := hfork.nodes, adj := [(0, [(1, 1), (2, 5)]), (1, []), (2, [])] }

/-- Sum of the weights of the arcs between consecutive nodes of a path in a graph of
`a_star_heuristics.cpp`; `none` when a pair has no arc. -/
def hPathWeight (g : HGraph) : List Int → Option ℚ
  | u :: v :: rest =>
    match ((g.adj.lookup u).getD []).find? (fun e => decide (e.1 = v)) with
    | none => none
    | some e => (hPathWeight g (v :: rest)).map (fun c => e.2 + c)
  | _ => some 0

/-! ## The grid solver (`pathfollow.cpp`) -/

namespace PathFollow

/-- Record `struct Node { int r, c; bool blocked; std::vector<Node*> nbrs; }`; a `Node*`
is the index of the node in the array `grid`. -/
structure Node where
  r : Int
  c : Int
  blocked : Bool
  nbrs : List Nat
deriving DecidableEq

/-- The node a `Node*` points to. -/
def node (grid : List Node) (p : Nat) : Node := grid.getD p ⟨0, 0, false, []⟩

/-- Function `heuristic` of `pathfollow.cpp`; `sqrt` is the library function on the
machine numbers. -/
def heuristic (sqrt : ℚ → ℚ) (a b : Node) : ℚ :=
  let dx : ℚ := ((a.c - b.c : Int) : ℚ)
  let dy : ℚ := ((a.r - b.r : Int) : ℚ)
  sqrt (dx * dx + dy * dy)

/-- Local state of one run of `a_star`: the content of the heap `open` and the maps
`came`, `g`, `f`. -/
structure State where
  openQ : List Nat
  came : List (Nat × Nat)
  g : List (Nat × ℚ)
  f : List (Nat × ℚ)
deriving DecidableEq

/-- Body of the loop `for (auto* n : cur->nbrs)` of `a_star`. -/
def relax (sqrt : ℚ → ℚ) (grid : List Node) (goal cur : Nat) (s : State) (n : Nat) :
    State :=
  if (node grid n).blocked then s
  else
    let tentative : ℚ := mget s.g cur 0 + heuristic sqrt (node grid cur) (node grid n)
    if s.g.lookup n = none ∨ tentative < mget s.g n 0 then
      { s with came := mapSet s.came n cur,
               g := mapSet s.g n tentative,
               f := mapSet s.f n (tentative + heuristic sqrt (node grid n) (node grid goal)),
               openQ := n :: s.openQ }
    else s

/-- The loop `while (!open.empty())` of `a_star`; `top f q` is the entry that
`open.top()` returns when the heap holds the entries `q` and the comparator reads the
map `f`; `none` when `fuel` passes do not reach the exit of the loop. -/
def loop (sqrt : ℚ → ℚ) (top : List (Nat × ℚ) → List Nat → Nat) (grid : List Node)
    (goal : Nat) : Nat → State → Option State
  | 0, _ => none
  | fuel + 1, s =>
    if s.openQ = [] then some s
    else
      let cur := top s.f s.openQ
      let s1 : State := { s with openQ := s.openQ.erase cur }
      if cur = goal then some s1
      else loop sqrt top grid goal fuel ((node grid cur).nbrs.foldl (relax sqrt grid goal cur) s1)

/-- Loop `for (Node* cur = goal; cur; cur = came.count(cur) ? came[cur] : nullptr)`
collecting `path` (goal first). -/
def walk (came : List (Nat × Nat)) (start : Nat) : Nat → Nat → Option (List Nat)
  | 0, _ => none
  | fuel + 1, cur =>
    if cur = start then some [cur]
    else
      match came.lookup cur with
      | none => some [cur]
      | some p => (walk came start fuel p).map (fun l => cur :: l)

/-- Function `a_star` of `pathfollow.cpp`, with `fuel` passes granted to the search
loop. -/
def a_star (sqrt : ℚ → ℚ) (top : List (Nat × ℚ) → List Nat → Nat) (grid : List Node)
    (fuel : Nat) (start goal : Nat) : Option (List Nat) :=
  let s0 : State :=
    { openQ := [start], came := [], g := [(start, 0)],
      f := [(start, heuristic sqrt (node grid start) (node grid goal))] }
  match loop sqrt top grid goal fuel s0 with
  | none => none
  | some s =>
    if s.came.lookup goal = none then some []
    else (walk s.came start (s.came.length + 1) goal).map List.reverse

/-- An entry of least `f` among `q` (the earliest such entry of the list). -/
def leastF (f : List (Nat × ℚ)) : List Nat → Nat
  | [] => 0
  | [a] => a
  | a :: b :: rest =>
    let m := leastF f (b :: rest)
    if mget f m 0 < mget f a 0 then m else a

/-- Two cells side by side, `(0,0)` and `(0,1)`, each the neighbour of the other. -/
def pairGrid : List Node := [⟨0, 0, false, [1]⟩, ⟨0, 1, false, [0]⟩]

end PathFollow

/-! ## The solvers of Part 2 in binary32

The same functions `a_star` and `dijkstra` of `a_star.cpp` and `dijkstra.cpp` as above,
with `gCost`, `fCost`, `dist`, the keys of the frontier and `stats.pathCost` of type
`float`; the weights and the entries of the heuristic table stored in the graph are read
as the `float` values they are. -/

namespace Bin32

/-- Record `AStarStats` / `DijkstraStats` (without the timer). -/
structure Stats where
  expansions : Nat
  maxFringe : Nat
  pathCost : F32
deriving DecidableEq

/-- A freshly constructed record: `pathCost = INFINITY`. -/
def Stats.fresh : Stats := ⟨0, 0, .pinf⟩

/-- Entry `pair<float,int>` of the frontier. -/
abbrev PQItem := F32 × Int

/-- Comparison `operator<` of `pair<float,int>`. -/
def pqLess (a b : PQItem) : Bool :=
  F32.lt a.1 b.1 || (!F32.lt b.1 a.1 && decide (a.2 < b.2))

/-- Least element of `m :: q` for `pqLess`. -/
def pqMin : PQItem → List PQItem → PQItem
  | m, [] => m
  | m, x :: xs => pqMin (if pqLess x m then x else m) xs

/-- Call `open.top()` on the min-heap. -/
def pqTop : List PQItem → Option PQItem
  | [] => none
  | x :: xs => some (pqMin x xs)

/-- Lambda `h` of `a_star`. -/
def heur (g : Graph) (hmap : List (String × ℚ)) (v : Int) : F32 := .fin (HW3.heur g hmap v)

/-- Local state of one run of `a_star`. -/
structure AState where
  openQ : List PQItem
  gCost : List F32
  fCost : List F32
  parent : List Int
  closed : List Bool
  stats : Stats
deriving DecidableEq

/-- Body of the `for (const auto& e : it->second)` loop of `a_star`. -/
def aRelax (h : Int → F32) (u : Int) (s : AState) (e : Edge) : AState :=
  if vget s.closed e.to_ false then s
  else
    let tentative : F32 := F32.add (vget s.gCost u .pinf) (.fin e.w)
    if F32.lt tentative (vget s.gCost e.to_ .pinf) then
      let f : F32 := F32.add tentative (h e.to_)
      { s with gCost := vset s.gCost e.to_ tentative,
               parent := vset s.parent e.to_ u,
               fCost := vset s.fCost e.to_ f,
               openQ := (f, e.to_) :: s.openQ }
    else s

/-- One pass through the body of `while (!open.empty())` of `a_star`; the flag is `true`
when the pass leaves through `break`. -/
def aBody (g : Graph) (h : Int → F32) (goal : Int) (s : AState) (top : PQItem) :
    AState × Bool :=
  let stats1 : Stats := { s.stats with maxFringe := max s.stats.maxFringe s.openQ.length }
  let u := top.2
  let s1 : AState := { s with openQ := s.openQ.erase top, stats := stats1 }
  if vget s1.closed u false then (s1, false)
  else
    let s2 : AState :=
      { s1 with closed := vset s1.closed u true,
                stats := { stats1 with expansions := stats1.expansions + 1 } }
    if u = goal then (s2, true)
    else
      match g.adj.lookup u with
      | none => (s2, false)
      | some es => (es.foldl (aRelax h u) s2, false)

/-- The loop `while (!open.empty())` of `a_star`; `none` when `fuel` passes do not
reach the exit of the loop. -/
def aLoop (g : Graph) (h : Int → F32) (goal : Int) : Nat → AState → Option AState
  | 0, _ => none
  | fuel + 1, s =>
    match pqTop s.openQ with
    | none => some s
    | some top =>
      if (aBody g h goal s top).2 then some (aBody g h goal s top).1
      else aLoop g h goal fuel (aBody g h goal s top).1

/-- The state at the head of the loop of `a_star` after `n` passes (or at the exit, when
the loop leaves earlier). -/
def aSteps (g : Graph) (h : Int → F32) (goal : Int) : Nat → AState → AState
  | 0, s => s
  | n + 1, s =>
    match pqTop s.openQ with
    | none => s
    | some top =>
      if (aBody g h goal s top).2 then (aBody g h goal s top).1
      else aSteps g h goal n (aBody g h goal s top).1

/-- State of `a_star` when it enters the search loop. -/
def aInit (g : Graph) (h : Int → F32) (start : Int) (stats : Stats) : AState :=
  { openQ := [(h start, start)],
    gCost := vset (List.replicate g.nodes.length F32.pinf) start (.fin 0),
    fCost := vset (List.replicate g.nodes.length F32.pinf) start (h start),
    parent := List.replicate g.nodes.length (-1),
    closed := List.replicate g.nodes.length false, stats := stats }

/-- The part of `a_star` after the search loop. -/
def aFinish (g : Graph) (start goal : Int) (s : AState) : Option (List Int × Stats) :=
  if vget s.parent goal (-1) = -1 ∧ start ≠ goal then some ([], s.stats)
  else
    match walkBack s.parent start (g.nodes.length + 1) goal with
    | none => none
    | some l => some (l.reverse, { s.stats with pathCost := vget s.gCost goal .pinf })

/-- Function `a_star` of `a_star.cpp`: the returned path and the final `stats`. -/
def a_star (g : Graph) (startName goalName : String) (hmap : List (String × ℚ))
    (stats : Stats) : Option (List Int × Stats) :=
  if findId g startName < 0 ∨ findId g goalName < 0 then some ([], stats)
  else
    match aLoop g (heur g hmap) (findId g goalName) (searchFuel g)
        (aInit g (heur g hmap) (findId g startName) stats) with
    | none => none
    | some s => aFinish g (findId g startName) (findId g goalName) s

/-- Local state of one run of `dijkstra`. -/
structure DState where
  openQ : List PQItem
  dist : List F32
  parent : List Int
  closed : List Bool
  stats : Stats
deriving DecidableEq

/-- Body of the `for (const auto& e : it->second)` loop of `dijkstra`. -/
def dRelax (u : Int) (s : DState) (e : Edge) : DState :=
  if vget s.closed e.to_ false then s
  else
    let alt : F32 := F32.add (vget s.dist u .pinf) (.fin e.w)
    if F32.lt alt (vget s.dist e.to_ .pinf) then
      { s with dist := vset s.dist e.to_ alt,
               parent := vset s.parent e.to_ u,
               openQ := (alt, e.to_) :: s.openQ }
    else s

/-- One pass through the body of `while (!open.empty())` of `dijkstra`. -/
def dBody (g : Graph) (goal : Int) (s : DState) (top : PQItem) : DState × Bool :=
  let stats1 : Stats := { s.stats with maxFringe := max s.stats.maxFringe s.openQ.length }
  let u := top.2
  let s1 : DState := { s with openQ := s.openQ.erase top, stats := stats1 }
  if vget s1.closed u false then (s1, false)
  else
    let s2 : DState :=
      { s1 with closed := vset s1.closed u true,
                stats := { stats1 with expansions := stats1.expansions + 1 } }
    if u = goal then (s2, true)
    else
      match g.adj.lookup u with
      | none => (s2, false)
      | some es => (es.foldl (dRelax u) s2, false)

/-- The loop `while (!open.empty())` of `dijkstra`. -/
def dLoop (g : Graph) (goal : Int) : Nat → DState → Option DState
  | 0, _ => none
  | fuel + 1, s =>
    match pqTop s.openQ with
    | none => some s
    | some top =>
      if (dBody g goal s top).2 then some (dBody g goal s top).1
      else dLoop g goal fuel (dBody g goal s top).1

/-- State of `dijkstra` when it enters the search loop. -/
def dInit (g : Graph) (start : Int) (stats : Stats) : DState :=
  { openQ := [(F32.fin 0, start)],
    dist := vset (List.replicate g.nodes.length F32.pinf) start (.fin 0),
    parent := List.replicate g.nodes.length (-1),
    closed := List.replicate g.nodes.length false, stats := stats }

/-- The part of `dijkstra` after the search loop. -/
def dFinish (g : Graph) (start goal : Int) (s : DState) : Option (List Int × Stats) :=
  if vget s.parent goal (-1) = -1 ∧ start ≠ goal then
    some ([], { s.stats with pathCost := vget s.dist goal .pinf })
  else
    match walkBack s.parent start (g.nodes.length + 1) goal with
    | none => none
    | some l => some (l.reverse, { s.stats with pathCost := vget s.dist goal .pinf })

/-- Function `dijkstra` of `dijkstra.cpp`: the returned path and the final `stats`. -/
def dijkstra (g : Graph) (startName goalName : String) (stats : Stats) :
    Option (List Int × Stats) :=
  if findId g startName < 0 ∨ findId g goalName < 0 then some ([], stats)
  else
    match dLoop g (findId g goalName) (searchFuel g)
        (dInit g (findId g startName) stats) with
    | none => none
    | some s => dFinish g (findId g startName) (findId g goalName) s

end Bin32

/-- Four nodes S=0, V=1, U=2, G=3 with the directed arcs S->V (1), S->U (0.25),
U->V (0.25), V->G (16777218). -/
def tied : Graph :=
  ((((((((Graph.empty.addNode 0 "S" 0 0).addNode 1 "V" 0 0).addNode 2 "U" 0 0).addNode 3 "G" 0 0
    ).addEdge 0 1 1 true).addEdge 0 2 (1 / 4) true).addEdge 2 1 (1 / 4) true
    ).addEdge 1 3 16777218 true)

/-- Heuristic table of the graph `tied`: `2 ^ 24` at V and at U. -/
def tiedTable : List (String × ℚ) := [("V", 16777216), ("U", 16777216)]

/-! ## Vectors, maps and the frontier -/

theorem vget_vset_eq {α : Type} (v : List α) (i : Int) (a d : α)
    (h0 : 0 ≤ i) (h1 : i < (v.length : Int)) : vget (vset v i a) i d = a := by
  have hn : i.toNat < v.length := by omega
  have hi : ¬ i < 0 := by omega
  simp [vget, vset, hi, List.getD_eq_getElem?_getD, List.getElem?_set, hn]

theorem vget_vset_ne {α : Type} (v : List α) (i j : Int) (a d : α) (hij : i ≠ j) :
    vget (vset v i a) j d = vget v j d := by
  unfold vget vset
  by_cases hj : j < 0
  · simp [hj]
  · by_cases hi : i < 0
    · simp [hi]
    · have hne : i.toNat ≠ j.toNat := by omega
      simp [hj, hi, List.getD_eq_getElem?_getD, List.getElem?_set, hne]

theorem length_vset {α : Type} (v : List α) (i : Int) (a : α) :
    (vset v i a).length = v.length := by
  unfold vset
  split <;> simp

theorem vget_replicate {α : Type} (n : Nat) (a : α) (i : Int) :
    vget (List.replicate n a) i a = a := by
  unfold vget
  split
  · rfl
  · simp only [List.getD_eq_getElem?_getD, List.getElem?_replicate]
    split <;> rfl

theorem vget_of_not_inRange {α : Type} (v : List α) (i : Int) (d : α)
    (h : ¬ InRange v.length i) : vget v i d = d := by
  unfold vget
  split
  · rfl
  · have : v.length ≤ i.toNat := by
      unfold InRange at h
      omega
    simp [List.getD_eq_getElem?_getD, List.getElem?_eq_none this]

theorem inRange_of_vget_ne {α : Type} (v : List α) (i : Int) (d : α)
    (h : vget v i d ≠ d) : InRange v.length i := by
  by_contra hc
  exact h (vget_of_not_inRange v i d hc)

theorem lookup_mem {κ α : Type} [BEq κ] [LawfulBEq κ] (l : List (κ × α)) (k : κ) (a : α)
    (h : l.lookup k = some a) : (k, a) ∈ l := by
  induction l with
  | nil => simp at h
  | cons p rest ih =>
    obtain ⟨k0, a0⟩ := p
    by_cases hk : k = k0
    · subst hk
      simp [List.lookup] at h
      simp [h]
    · have hb : (k == k0) = false := by simpa using hk
      simp [List.lookup, hb] at h
      exact List.mem_cons_of_mem _ (ih h)

theorem arcsOf_mem (g : Graph) (u : Int) (e : Edge) (h : e ∈ arcsOf g u) :
    ∃ p ∈ g.adj, p.1 = u ∧ e ∈ p.2 := by
  unfold arcsOf at h
  cases hl : g.adj.lookup u with
  | none => simp [hl] at h
  | some es =>
    simp [hl] at h
    exact ⟨(u, es), lookup_mem _ _ _ hl, rfl, h⟩

theorem pqLess_fst (a b : PQItem) (h : pqLess a b = true) : a.1 ≤ b.1 := by
  unfold pqLess at h
  simp only [Bool.or_eq_true, Bool.and_eq_true, decide_eq_true_eq, Bool.not_eq_true',
    decide_eq_false_iff_not] at h
  rcases h with h | ⟨h, _⟩
  · exact le_of_lt h
  · exact not_lt.mp h

theorem pqLess_false_fst (a b : PQItem) (h : pqLess a b = false) : b.1 ≤ a.1 := by
  unfold pqLess at h
  simp only [Bool.or_eq_false_iff, decide_eq_false_iff_not] at h
  exact not_lt.mp h.1

theorem pqMin_mem (m : PQItem) (xs : List PQItem) : pqMin m xs ∈ m :: xs := by
  induction xs generalizing m with
  | nil => simp [pqMin]
  | cons x xs ih =>
    simp only [pqMin]
    have key := ih (if pqLess x m then x else m)
    rcases List.mem_cons.mp key with h | h
    · rw [h]
      split
      · exact List.mem_cons_of_mem _ (List.mem_cons_self _ _)
      · exact List.mem_cons_self _ _
    · exact List.mem_cons_of_mem _ (List.mem_cons_of_mem _ h)

theorem pqMin_fst_le (m : PQItem) (xs : List PQItem) :
    ∀ x ∈ m :: xs, (pqMin m xs).1 ≤ x.1 := by
  induction xs generalizing m with
  | nil => simp [pqMin]
  | cons x xs ih =>
    intro y hy
    simp only [pqMin]
    have key := ih (if pqLess x m then x else m)
    have hsel : (if pqLess x m then x else m).1 ≤ m.1 ∧ (if pqLess x m then x else m).1 ≤ x.1 := by
      cases hlt : pqLess x m
      · simp only [Bool.false_eq_true, ↓reduceIte, le_refl, true_and]
        exact pqLess_false_fst _ _ hlt
      · simp only [↓reduceIte, le_refl, and_true]
        exact pqLess_fst _ _ hlt
    have h0 := key _ (List.mem_cons_self _ _)
    simp only [List.mem_cons] at hy
    rcases hy with rfl | rfl | hy
    · exact le_trans h0 hsel.1
    · exact le_trans h0 hsel.2
    · exact key y (List.mem_cons_of_mem _ hy)

theorem pqTop_mem (q : List PQItem) (t : PQItem) (h : pqTop q = some t) : t ∈ q := by
  cases q with
  | nil => simp [pqTop] at h
  | cons x xs =>
    simp only [pqTop, Option.some.injEq] at h
    subst h
    exact pqMin_mem x xs

theorem pqTop_fst_le (q : List PQItem) (t : PQItem) (h : pqTop q = some t) :
    ∀ x ∈ q, t.1 ≤ x.1 := by
  cases q with
  | nil => simp [pqTop] at h
  | cons x xs =>
    simp only [pqTop, Option.some.injEq] at h
    subst h
    exact pqMin_fst_le x xs

theorem pqTop_eq_none (q : List PQItem) : pqTop q = none ↔ q = [] := by
  cases q <;> simp [pqTop]


/-! ## The passes of the loop, phase by phase -/

theorem aBody_eq (g : Graph) (h : Int → ℚ) (goal : Int) (s : AState) (top : PQItem) :
    aBody g h goal s top =
      if vget s.closed top.2 false = true then (popS s top, false)
      else if top.2 = goal then (closeS (popS s top) top.2, true)
      else ((arcsOf g top.2).foldl (aRelax h top.2) (closeS (popS s top) top.2), false) := by
  unfold aBody arcsOf popS closeS
  simp only
  split
  · rfl
  · split
    · rfl
    · cases g.adj.lookup top.2 <;> rfl

@[simp] theorem popS_g (s : AState) (top : PQItem) (v : Int) : (popS s top).g v = s.g v := rfl

@[simp] theorem popS_cl (s : AState) (top : PQItem) (v : Int) :
    (popS s top).cl v ↔ s.cl v := Iff.rfl

@[simp] theorem popS_par (s : AState) (top : PQItem) (v : Int) :
    (popS s top).par v = s.par v := rfl

@[simp] theorem closeS_g (s : AState) (u v : Int) : (closeS s u).g v = s.g v := rfl

@[simp] theorem closeS_par (s : AState) (u v : Int) : (closeS s u).par v = s.par v := rfl

theorem closeS_cl (s : AState) (u v : Int) (hu : InRange s.closed.length u) :
    (closeS s u).cl v ↔ v = u ∨ s.cl v := by
  unfold AState.cl closeS
  simp only
  by_cases hv : v = u
  · subst hv
    simp [vget_vset_eq _ _ _ _ hu.1 hu.2]
  · rw [vget_vset_ne _ _ _ _ _ (Ne.symm hv)]
    simp [hv]

theorem g_ne_top_inRange (s : AState) (v : Int) (h : s.g v ≠ ⊤) :
    InRange s.gCost.length v := inRange_of_vget_ne _ _ _ h

theorem cl_inRange (s : AState) (v : Int) (h : s.cl v) : InRange s.closed.length v := by
  apply inRange_of_vget_ne _ _ false
  unfold AState.cl at h
  simp [h]

theorem aRelax_skip (h : Int → ℚ) (u : Int) (s : AState) (e : Edge)
    (hs : s.cl e.to_ ∨ ¬ (s.g u + (e.w : Cost) < s.g e.to_)) : aRelax h u s e = s := by
  unfold aRelax
  rcases hs with hs | hs
  · unfold AState.cl at hs
    simp [hs]
  · unfold AState.g at hs
    split
    · rfl
    · simp [hs]

/-- The state produced by a relaxation that goes through. -/
theorem aRelax_fire (h : Int → ℚ) (u : Int) (s : AState) (e : Edge)
    (hc : ¬ s.cl e.to_) (hlt : s.g u + (e.w : Cost) < s.g e.to_) :
    aRelax h u s e =
      { s with gCost := vset s.gCost e.to_ (s.g u + (e.w : Cost)),
               parent := vset s.parent e.to_ u,
               fCost := vset s.fCost e.to_ (s.g u + (e.w : Cost) + (h e.to_ : Cost)),
               openQ := (s.g u + (e.w : Cost) + (h e.to_ : Cost), e.to_) :: s.openQ } := by
  unfold aRelax
  unfold AState.cl at hc
  unfold AState.g at hlt
  simp only [Bool.not_eq_true] at hc
  simp [hc, hlt, AState.g]

theorem aRelax_cl (h : Int → ℚ) (u : Int) (s : AState) (e : Edge) (v : Int) :
    (aRelax h u s e).cl v ↔ s.cl v := by
  unfold aRelax AState.cl
  split
  · rfl
  · simp only
    split <;> rfl

theorem aRelax_stats (h : Int → ℚ) (u : Int) (s : AState) (e : Edge) :
    (aRelax h u s e).stats = s.stats := by
  unfold aRelax
  split
  · rfl
  · simp only
    split <;> rfl

theorem aRelax_closed (h : Int → ℚ) (u : Int) (s : AState) (e : Edge) :
    (aRelax h u s e).closed = s.closed := by
  unfold aRelax
  split
  · rfl
  · simp only
    split <;> rfl

theorem aRelax_len_open (h : Int → ℚ) (u : Int) (s : AState) (e : Edge) :
    (aRelax h u s e).openQ.length ≤ s.openQ.length + 1 := by
  unfold aRelax
  split
  · simp
  · simp only
    split <;> simp

theorem IsPPath.head_mem {g : Graph} {s : AState} {start v : Int} {l : List Int}
    (hl : IsPPath g s start v l) : ∃ t, l = v :: t := by
  cases hl with
  | base => exact ⟨[], rfl⟩
  | step e _ _ _ _ _ => exact ⟨_, rfl⟩

theorem IsPPath.congr {g : Graph} {s s' : AState} {start v : Int} {l : List Int}
    (hl : IsPPath g s start v l)
    (hp : ∀ y ∈ l, s'.par y = s.par y ∧ s'.g y = s.g y) : IsPPath g s' start v l := by
  induction hl with
  | base => exact IsPPath.base
  | step e hne harc hto hg hrest ih =>
    rename_i v l
    have hv := hp v (List.mem_cons_self _ _)
    obtain ⟨t, ht⟩ := hrest.head_mem
    have hpm : s.par v ∈ l := by rw [ht]; exact List.mem_cons_self _ _
    have hpv := hp (s.par v) (List.mem_cons_of_mem _ hpm)
    have ih' := ih (fun y hy => hp y (List.mem_cons_of_mem _ hy))
    have e1 : s'.par v = s.par v := hv.1
    refine IsPPath.step e hne ?_ hto ?_ ?_
    · rw [e1]; exact harc
    · rw [e1, hv.2, hpv.2]; exact hg
    · rw [e1]; exact ih'


/-! ## A relaxation keeps the invariant -/

theorem aRelax_fire_g (h : Int → ℚ) (u : Int) (s : AState) (e : Edge)
    (hc : ¬ s.cl e.to_) (hlt : s.g u + (e.w : Cost) < s.g e.to_)
    (hr : InRange s.gCost.length e.to_) (x : Int) :
    (aRelax h u s e).g x = if x = e.to_ then s.g u + (e.w : Cost) else s.g x := by
  rw [aRelax_fire h u s e hc hlt]
  unfold AState.g
  simp only
  split
  · rename_i hx
    subst hx
    exact vget_vset_eq _ _ _ _ hr.1 hr.2
  · rename_i hx
    exact vget_vset_ne _ _ _ _ _ (Ne.symm hx)

theorem aRelax_fire_par (h : Int → ℚ) (u : Int) (s : AState) (e : Edge)
    (hc : ¬ s.cl e.to_) (hlt : s.g u + (e.w : Cost) < s.g e.to_)
    (hr : InRange s.parent.length e.to_) (x : Int) :
    (aRelax h u s e).par x = if x = e.to_ then u else s.par x := by
  rw [aRelax_fire h u s e hc hlt]
  unfold AState.par
  simp only
  split
  · rename_i hx
    subst hx
    exact vget_vset_eq _ _ _ _ hr.1 hr.2
  · rename_i hx
    exact vget_vset_ne _ _ _ _ _ (Ne.symm hx)

theorem aRelax_fire_open (h : Int → ℚ) (u : Int) (s : AState) (e : Edge)
    (hc : ¬ s.cl e.to_) (hlt : s.g u + (e.w : Cost) < s.g e.to_) :
    (aRelax h u s e).openQ =
      (s.g u + (e.w : Cost) + (h e.to_ : Cost), e.to_) :: s.openQ := by
  rw [aRelax_fire h u s e hc hlt]

theorem aRelax_len (h : Int → ℚ) (u : Int) (s : AState) (e : Edge) :
    (aRelax h u s e).gCost.length = s.gCost.length ∧
    (aRelax h u s e).parent.length = s.parent.length ∧
    (aRelax h u s e).closed.length = s.closed.length := by
  unfold aRelax
  split
  · exact ⟨rfl, rfl, rfl⟩
  · simp only
    split
    · exact ⟨length_vset _ _ _, length_vset _ _ _, rfl⟩
    · exact ⟨rfl, rfl, rfl⟩

theorem validArcs_arcsOf {g : Graph} (hv : ValidArcs g) {u : Int} {e : Edge}
    (he : e ∈ arcsOf g u) : InRange g.nodes.length e.to_ := by
  obtain ⟨p, hp, _, hep⟩ := arcsOf_mem g u e he
  exact hv p hp e hep

theorem doneArcs_snoc (g : Graph) (u : Int) (done : List Edge) (e e' : Edge) (u' : Int)
    (h : e' ∈ doneArcs g (some (u, done ++ [e])) u') :
    e' ∈ doneArcs g (some (u, done)) u' ∨ (u' = u ∧ e' = e) := by
  unfold doneArcs at h ⊢
  simp only at h ⊢
  by_cases hu : u' = u
  · simp only [hu, ↓reduceIte, List.mem_append, List.mem_singleton] at h ⊢
    rcases h with h | h
    · exact Or.inl h
    · exact Or.inr ⟨trivial, h⟩
  · simp only [hu, ↓reduceIte] at h ⊢
    exact Or.inl h

theorem Inv.start_closed {g : Graph} {h : Int → ℚ} {start goal : Int} {e0 : Nat}
    {c : Int × List Edge} {s : AState} (hI : Inv g h start goal e0 (some c) s) :
    s.cl start := by
  rcases hI.start_cl with h1 | ⟨h1, _⟩
  · exact h1
  · cases h1

theorem Inv.relax {g : Graph} {h : Int → ℚ} {start goal : Int} {e0 : Nat} {u : Int}
    {done : List Edge} {s : AState} {e : Edge} (hv : ValidArcs g)
    (hI : Inv g h start goal e0 (some (u, done)) s) (he : e ∈ arcsOf g u) :
    Inv g h start goal e0 (some (u, done ++ [e])) (aRelax h u s e) := by
  have hvr : InRange g.nodes.length e.to_ := validArcs_arcsOf hv he
  have hcu : s.cl u := hI.cur_cl u done rfl
  have hgu : s.g u ≠ ⊤ := hI.closed_fin u hcu
  obtain ⟨gu, hgu'⟩ := WithTop.ne_top_iff_exists.mp hgu
  have hst : s.cl start := hI.start_closed
  by_cases hfire : ¬ s.cl e.to_ ∧ s.g u + (e.w : Cost) < s.g e.to_
  · -- the relaxation goes through
    obtain ⟨hc, hlt⟩ := hfire
    have hG := aRelax_fire_g h u s e hc hlt (by rw [hI.len_g]; exact hvr)
    have hP := aRelax_fire_par h u s e hc hlt (by rw [hI.len_p]; exact hvr)
    have hQ := aRelax_fire_open h u s e hc hlt
    have hC := aRelax_cl h u s e
    have hL := aRelax_len h u s e
    have hnew : s.g u + (e.w : Cost) ≠ ⊤ := ne_top_of_lt hlt
    have hfin : ∀ x, s.g x ≠ ⊤ → (aRelax h u s e).g x ≠ ⊤ := by
      intro x hx
      rw [hG]
      split
      · exact hnew
      · exact hx
    have hsame : ∀ x, s.cl x → (aRelax h u s e).g x = s.g x ∧
        (aRelax h u s e).par x = s.par x := by
      intro x hx
      have hne : x ≠ e.to_ := fun hxe => hc (hxe ▸ hx)
      rw [hG, hP]
      simp [hne]
    refine
      { len_g := by rw [hL.1]; exact hI.len_g
        len_p := by rw [hL.2.1]; exact hI.len_p
        len_c := by rw [hL.2.2]; exact hI.len_c
        open_ok := ?_
        closed_fin := ?_
        open_has := ?_
        start_ok := ?_
        start_cl := Or.inl ((hC start).mpr hst)
        goal_open := fun hg => hI.goal_open ((hC goal).mp hg)
        walk := ?_
        chain := ?_
        order := ?_
        relaxed := ?_
        cur_cl := ?_
        par_none := ?_ }
    · intro x hx
      rw [hQ] at hx
      rcases List.mem_cons.mp hx with rfl | hx
      · refine ⟨hvr, ?_⟩
        simp only
        rw [hG]
        simp [hnew]
      · exact ⟨(hI.open_ok x hx).1, hfin _ (hI.open_ok x hx).2⟩
    · intro x hx
      have hx' := (hC x).mp hx
      rw [(hsame x hx').1]
      exact hI.closed_fin x hx'
    · intro x hx hgx
      rw [hQ]
      by_cases hxe : x = e.to_
      · subst hxe
        rw [hG]
        simp
      · rw [hG] at hgx ⊢
        simp only [hxe, ↓reduceIte] at hgx ⊢
        exact List.mem_cons_of_mem _ (hI.open_has x (fun hcx => hx ((hC x).mpr hcx)) hgx)
    · refine ⟨hI.start_ok.1, ?_, ?_⟩
      · rw [(hsame start hst).1]; exact hI.start_ok.2.1
      · rw [(hsame start hst).2]; exact hI.start_ok.2.2
    · intro x c hx
      rw [hG] at hx
      by_cases hxe : x = e.to_
      · subst hxe
        simp only [↓reduceIte] at hx
        rw [← hgu'] at hx
        have hc' : c = gu + e.w := by
          have : ((gu + e.w : ℚ) : Cost) = (c : Cost) := by
            rw [← hx]; push_cast; rfl
          exact (WithTop.coe_injective this).symm
        rw [hc']
        exact Walk.snoc e (hI.walk u gu hgu'.symm) he
      · simp only [hxe, ↓reduceIte] at hx
        exact hI.walk x c hx
    · intro x hx
      by_cases hxe : x = e.to_
      · subst hxe
        obtain ⟨l, hl, htl, hnd, hrg⟩ := hI.chain u hgu
        obtain ⟨t, ht⟩ := hl.head_mem
        have hall : ∀ y ∈ l, s.cl y := by
          intro y hy
          rw [ht] at hy
          rcases List.mem_cons.mp hy with rfl | hy
          · exact hcu
          · apply htl
            rw [ht]
            exact hy
        have hnotin : e.to_ ∉ l := fun hin => hc (hall _ hin)
        have hl' : IsPPath g (aRelax h u s e) start u l :=
          hl.congr (fun y hy => ⟨(hsame y (hall y hy)).2, (hsame y (hall y hy)).1⟩)
        have hpar : (aRelax h u s e).par e.to_ = u := by rw [hP]; simp
        refine ⟨e.to_ :: l, ?_, ?_, ?_, ?_⟩
        · refine IsPPath.step e (fun hes => hc (hes ▸ hst)) ?_ rfl ?_ ?_
          · rw [hpar]; exact he
          · rw [hpar, hG, (hsame u hcu).1]; simp
          · rw [hpar]; exact hl'
        · intro y hy
          exact (hC y).mpr (hall y hy)
        · exact List.nodup_cons.mpr ⟨hnotin, hnd⟩
        · intro y hy
          rcases List.mem_cons.mp hy with rfl | hy
          · exact hvr
          · exact hrg y hy
      · rw [hG] at hx
        simp only [hxe, ↓reduceIte] at hx
        obtain ⟨l, hl, htl, hnd, hrg⟩ := hI.chain x hx
        obtain ⟨t, ht⟩ := hl.head_mem
        have hkeep : ∀ y ∈ l, (aRelax h u s e).par y = s.par y ∧
            (aRelax h u s e).g y = s.g y := by
          intro y hy
          rw [ht] at hy
          rcases List.mem_cons.mp hy with rfl | hy
          · rw [hG, hP]; simp [hxe]
          · have := hsame y (htl y (by rw [ht]; exact hy))
            exact ⟨this.2, this.1⟩
        exact ⟨l, hl.congr hkeep, fun y hy => (hC y).mpr (htl y hy), hnd, hrg⟩
    · obtain ⟨ord, h1, h2, h3⟩ := hI.order
      refine ⟨ord, h1, fun x => (h2 x).trans (hC x).symm, ?_⟩
      rw [aRelax_stats]; exact h3
    · intro u' hu' e' he'
      have hu'' := (hC u').mp hu'
      rcases doneArcs_snoc g u done e e' u' he' with h1 | ⟨_, h1⟩
      · exact hfin _ (hI.relaxed u' hu'' e' h1)
      · subst h1
        rw [hG]; simp [hnew]
    · intro u' d' hcur
      cases hcur
      exact (hC u).mpr hcu
    · intro x hx
      rw [hG] at hx
      by_cases hxe : x = e.to_
      · simp only [hxe, ↓reduceIte] at hx
        exact absurd hx hnew
      · simp only [hxe, ↓reduceIte] at hx
        rw [hP]
        simp only [hxe, ↓reduceIte]
        exact hI.par_none x hx
  · -- nothing is written
    have hskip : aRelax h u s e = s := by
      apply aRelax_skip
      by_cases hc : s.cl e.to_
      · exact Or.inl hc
      · exact Or.inr (fun hlt => hfire ⟨hc, hlt⟩)
    rw [hskip]
    refine
      { len_g := hI.len_g, len_p := hI.len_p, len_c := hI.len_c, open_ok := hI.open_ok,
        closed_fin := hI.closed_fin, open_has := hI.open_has, start_ok := hI.start_ok,
        start_cl := Or.inl hst, goal_open := hI.goal_open, walk := hI.walk,
        chain := hI.chain, order := hI.order, relaxed := ?_, cur_cl := ?_,
        par_none := hI.par_none }
    · intro u' hu' e' he'
      rcases doneArcs_snoc g u done e e' u' he' with h1 | ⟨_, h1⟩
      · exact hI.relaxed u' hu' e' h1
      · subst h1
        by_cases hc : s.cl e'.to_
        · exact hI.closed_fin _ hc
        · have hnl : ¬ (s.g u + (e'.w : Cost) < s.g e'.to_) := fun hlt => hfire ⟨hc, hlt⟩
          intro htop
          apply hnl
          rw [htop, ← hgu']
          exact WithTop.coe_lt_top _
    · intro u' d' hcur
      cases hcur
      exact hcu


/-! ## A pass of the loop keeps the invariant -/

theorem Inv.fold {g : Graph} {h : Int → ℚ} {start goal : Int} {e0 : Nat} {u : Int}
    (hv : ValidArcs g) :
    ∀ (rest done : List Edge) (s : AState), Inv g h start goal e0 (some (u, done)) s →
      (∀ e ∈ rest, e ∈ arcsOf g u) →
      Inv g h start goal e0 (some (u, done ++ rest)) (rest.foldl (aRelax h u) s) := by
  intro rest
  induction rest with
  | nil =>
    intro done s hI _
    simpa using hI
  | cons e rest ih =>
    intro done s hI hmem
    have h1 := hI.relax hv (hmem e (List.mem_cons_self _ _))
    have h2 := ih (done ++ [e]) _ h1 (fun e' he' => hmem e' (List.mem_cons_of_mem _ he'))
    simpa using h2

theorem Inv.finish {g : Graph} {h : Int → ℚ} {start goal : Int} {e0 : Nat} {u : Int}
    {s : AState} (hI : Inv g h start goal e0 (some (u, arcsOf g u)) s) :
    Inv g h start goal e0 none s := by
  have hd : ∀ u', doneArcs g (some (u, arcsOf g u)) u' = doneArcs g none u' := by
    intro u'
    unfold doneArcs
    simp only
    split
    · rename_i hu; rw [hu]
    · rfl
  exact
    { len_g := hI.len_g, len_p := hI.len_p, len_c := hI.len_c, open_ok := hI.open_ok,
      closed_fin := hI.closed_fin, open_has := hI.open_has, start_ok := hI.start_ok,
      start_cl := Or.inl hI.start_closed, goal_open := hI.goal_open, walk := hI.walk,
      chain := hI.chain, order := hI.order,
      relaxed := fun u' hu' e' he' => hI.relaxed u' hu' e' (by rw [hd]; exact he'),
      cur_cl := fun _ _ hc => by cases hc
      par_none := hI.par_none }

theorem Inv.close {g : Graph} {h : Int → ℚ} {start goal : Int} {e0 : Nat} {s : AState}
    {top : PQItem} (hI : Inv g h start goal e0 none s) (ht : pqTop s.openQ = some top)
    (hncl : ¬ s.cl top.2) (hng : top.2 ≠ goal) :
    Inv g h start goal e0 (some (top.2, [])) (closeS (popS s top) top.2) := by
  have htm : top ∈ s.openQ := pqTop_mem _ _ ht
  have hur : InRange g.nodes.length top.2 := (hI.open_ok top htm).1
  have hC : ∀ v, (closeS (popS s top) top.2).cl v ↔ v = top.2 ∨ s.cl v := by
    intro v
    rw [closeS_cl _ _ _ (by show InRange s.closed.length top.2; rw [hI.len_c]; exact hur)]
    simp
  refine
    { len_g := hI.len_g
      len_p := hI.len_p
      len_c := by
        show (vset s.closed top.2 true).length = _
        rw [length_vset]; exact hI.len_c
      open_ok := fun x hx => hI.open_ok x (List.mem_of_mem_erase hx)
      closed_fin := ?_
      open_has := ?_
      start_ok := hI.start_ok
      start_cl := ?_
      goal_open := ?_
      walk := hI.walk
      chain := ?_
      order := ?_
      relaxed := ?_
      cur_cl := ?_
      par_none := hI.par_none }
  · intro v hv
    rcases (hC v).mp hv with rfl | hv
    · exact (hI.open_ok top htm).2
    · exact hI.closed_fin v hv
  · intro v hv hgv
    have hv1 : v ≠ top.2 := fun hh => hv ((hC v).mpr (Or.inl hh))
    have hv2 : ¬ s.cl v := fun hh => hv ((hC v).mpr (Or.inr hh))
    have hmem := hI.open_has v hv2 hgv
    show _ ∈ s.openQ.erase top
    refine (List.mem_erase_of_ne ?_).mpr hmem
    intro heq
    exact hv1 (by rw [← heq])
  · rcases hI.start_cl with h1 | ⟨_, h1⟩
    · exact Or.inl ((hC start).mpr (Or.inr h1))
    · rw [h1] at htm
      simp only [List.mem_singleton] at htm
      refine Or.inl ((hC start).mpr (Or.inl ?_))
      rw [htm]
  · intro hg
    rcases (hC goal).mp hg with hg | hg
    · exact hng hg.symm
    · exact hI.goal_open hg
  · intro v hv
    obtain ⟨l, hl, htl, hnd, hrg⟩ := hI.chain v hv
    exact ⟨l, hl.congr (fun y _ => ⟨rfl, rfl⟩), fun y hy => (hC y).mpr (Or.inr (htl y hy)),
      hnd, hrg⟩
  · obtain ⟨ord, h1, h2, h3⟩ := hI.order
    refine ⟨top.2 :: ord, List.nodup_cons.mpr ⟨fun hin => hncl ((h2 _).mp hin), h1⟩, ?_, ?_⟩
    · intro v
      rw [hC v, List.mem_cons, h2 v]
    · show s.stats.expansions + 1 = _
      rw [h3]; simp; omega
  · intro u' hu' e' he'
    unfold doneArcs at he'
    simp only at he'
    by_cases hu : u' = top.2
    · simp [hu] at he'
    · simp only [hu, ↓reduceIte] at he'
      rcases (hC u').mp hu' with h1 | h1
      · exact absurd h1 hu
      · exact hI.relaxed u' h1 e' he'
  · intro u' d' hcur
    cases hcur
    exact (hC top.2).mpr (Or.inl rfl)

theorem Inv.discard {g : Graph} {h : Int → ℚ} {start goal : Int} {e0 : Nat} {s : AState}
    {top : PQItem} (hI : Inv g h start goal e0 none s) (ht : pqTop s.openQ = some top)
    (hcl : s.cl top.2) : Inv g h start goal e0 none (popS s top) := by
  have htm : top ∈ s.openQ := pqTop_mem _ _ ht
  refine
    { len_g := hI.len_g, len_p := hI.len_p, len_c := hI.len_c
      open_ok := fun x hx => hI.open_ok x (List.mem_of_mem_erase hx)
      closed_fin := hI.closed_fin
      open_has := ?_
      start_ok := hI.start_ok
      start_cl := ?_
      goal_open := hI.goal_open
      walk := hI.walk
      chain := ?_
      order := hI.order
      relaxed := hI.relaxed
      cur_cl := fun _ _ hc => by cases hc
      par_none := hI.par_none }
  · intro v hv hgv
    have hmem := hI.open_has v hv hgv
    show _ ∈ s.openQ.erase top
    refine (List.mem_erase_of_ne ?_).mpr hmem
    intro heq
    apply hv
    have : v = top.2 := by rw [← heq]
    rw [this]; exact hcl
  · rcases hI.start_cl with h1 | ⟨_, h1⟩
    · exact Or.inl h1
    · rw [h1] at htm
      simp only [List.mem_singleton] at htm
      refine Or.inl ?_
      have : s.cl top.2 := hcl
      rw [htm] at this
      exact this
  · intro v hv
    obtain ⟨l, hl, htl, hnd, hrg⟩ := hI.chain v hv
    exact ⟨l, hl.congr (fun y _ => ⟨rfl, rfl⟩), htl, hnd, hrg⟩

/-- A pass of the loop that does not leave through `break` keeps the invariant. -/
theorem Inv.pass {g : Graph} {h : Int → ℚ} {start goal : Int} {e0 : Nat} {s : AState}
    {top : PQItem} (hv : ValidArcs g) (hI : Inv g h start goal e0 none s)
    (ht : pqTop s.openQ = some top) (hb : (aBody g h goal s top).2 = false) :
    Inv g h start goal e0 none (aBody g h goal s top).1 := by
  rw [aBody_eq] at hb ⊢
  by_cases hcl : vget s.closed top.2 false = true
  · simp only [hcl, ↓reduceIte]
    exact hI.discard ht hcl
  · by_cases hg : top.2 = goal
    · rw [if_neg hcl, if_pos hg] at hb
      cases hb
    · simp only [hcl, hg, ↓reduceIte]
      have h1 := hI.close ht hcl hg
      have h2 := Inv.fold hv (arcsOf g top.2) [] _ h1 (fun e he => he)
      exact Inv.finish (by simpa using h2)

theorem aInit_g (g : Graph) (h : Int → ℚ) (start : Int) (stats : Stats)
    (hs : InRange g.nodes.length start) (v : Int) :
    (aInit g h start stats).g v = if v = start then 0 else ⊤ := by
  unfold AState.g aInit
  simp only
  split
  · rename_i hv
    subst hv
    exact vget_vset_eq _ _ _ _ hs.1 (by simpa using hs.2)
  · rename_i hv
    rw [vget_vset_ne _ _ _ _ _ (Ne.symm hv)]
    exact vget_replicate _ _ _

theorem aInit_cl (g : Graph) (h : Int → ℚ) (start : Int) (stats : Stats) (v : Int) :
    ¬ (aInit g h start stats).cl v := by
  unfold AState.cl aInit
  simp only
  rw [vget_replicate]
  simp

theorem aInit_par (g : Graph) (h : Int → ℚ) (start : Int) (stats : Stats) (v : Int) :
    (aInit g h start stats).par v = -1 := by
  unfold AState.par aInit
  simp only
  exact vget_replicate _ _ _

theorem Inv.init (g : Graph) (h : Int → ℚ) (start goal : Int) (stats : Stats)
    (hs : InRange g.nodes.length start) :
    Inv g h start goal stats.expansions none (aInit g h start stats) := by
  have hG := aInit_g g h start stats hs
  have hC := aInit_cl g h start stats
  refine
    { len_g := by simp [aInit, length_vset]
      len_p := by simp [aInit]
      len_c := by simp [aInit]
      open_ok := ?_
      closed_fin := fun v hv => absurd hv (hC v)
      open_has := ?_
      start_ok := ⟨hs, by rw [hG]; simp, aInit_par g h start stats start⟩
      start_cl := Or.inr ⟨rfl, rfl⟩
      goal_open := hC goal
      walk := ?_
      chain := ?_
      order := ⟨[], List.nodup_nil, fun v => by simpa using hC v, by simp [aInit]⟩
      relaxed := fun u hu => absurd hu (hC u)
      cur_cl := fun _ _ hc => by cases hc
      par_none := fun v _ => aInit_par g h start stats v }
  · intro x hx
    have : x = ((h start : Cost), start) := by simpa [aInit] using hx
    subst this
    refine ⟨hs, ?_⟩
    simp only
    rw [hG]; simp
  · intro v _ hgv
    rw [hG] at hgv ⊢
    by_cases hvs : v = start
    · subst hvs
      simp [aInit]
    · simp [hvs] at hgv
  · intro v c hvc
    rw [hG] at hvc
    by_cases hvs : v = start
    · subst hvs
      simp only [↓reduceIte] at hvc
      have : c = 0 := by
        have h0 : ((0 : ℚ) : Cost) = (c : Cost) := by rw [← hvc]; rfl
        exact (WithTop.coe_injective h0).symm
      rw [this]
      exact Walk.nil v
    · simp [hvs] at hvc
  · intro v hgv
    rw [hG] at hgv
    by_cases hvs : v = start
    · subst hvs
      exact ⟨[v], IsPPath.base, by simp, by simp, by simpa using hs⟩
    · simp [hvs] at hgv


/-! ## The loop leaves through its own exit -/

theorem fold_closed (h : Int → ℚ) (u : Int) (es : List Edge) (s : AState) :
    (es.foldl (aRelax h u) s).closed = s.closed := by
  induction es generalizing s with
  | nil => rfl
  | cons e es ih =>
    simp only [List.foldl_cons]
    rw [ih, aRelax_closed]

theorem fold_stats (h : Int → ℚ) (u : Int) (es : List Edge) (s : AState) :
    (es.foldl (aRelax h u) s).stats = s.stats := by
  induction es generalizing s with
  | nil => rfl
  | cons e es ih =>
    simp only [List.foldl_cons]
    rw [ih, aRelax_stats]

theorem fold_len_open (h : Int → ℚ) (u : Int) (es : List Edge) (s : AState) :
    (es.foldl (aRelax h u) s).openQ.length ≤ s.openQ.length + es.length := by
  induction es generalizing s with
  | nil => simp
  | cons e es ih =>
    simp only [List.foldl_cons, List.length_cons]
    have h1 := ih (aRelax h u s e)
    have h2 := aRelax_len_open h u s e
    omega

theorem openArcs_mono (closed closed' : List Bool) (adj : List (Int × List Edge))
    (hm : ∀ v, vget closed v false = true → vget closed' v false = true) :
    openArcs closed' adj ≤ openArcs closed adj := by
  induction adj with
  | nil => simp [openArcs]
  | cons p rest ih =>
    unfold openArcs at ih ⊢
    simp only [List.map_cons, List.sum_cons]
    by_cases hc : vget closed p.1 false = true
    · simp only [hc, hm _ hc, ↓reduceIte]
      omega
    · by_cases hc' : vget closed' p.1 false = true
      · simp only [hc, hc', ↓reduceIte]
        omega
      · simp only [hc, hc', ↓reduceIte]
        omega

theorem openArcs_close (closed : List Bool) (adj : List (Int × List Edge)) (u : Int)
    (hu : InRange closed.length u) (hc : ¬ vget closed u false = true) :
    openArcs (vset closed u true) adj + ((adj.lookup u).getD []).length ≤
      openArcs closed adj := by
  have hset : vget (vset closed u true) u false = true := vget_vset_eq _ _ _ _ hu.1 hu.2
  have hmono : ∀ v, vget closed v false = true → vget (vset closed u true) v false = true := by
    intro v hv
    by_cases hvu : v = u
    · rw [hvu]; exact hset
    · rw [vget_vset_ne _ _ _ _ _ (Ne.symm hvu)]; exact hv
  induction adj with
  | nil => simp [openArcs]
  | cons p rest ih =>
    obtain ⟨k, es⟩ := p
    by_cases hk : u = k
    · subst hk
      have hm := openArcs_mono closed (vset closed u true) rest hmono
      unfold openArcs at hm ⊢
      have hcf : vget closed u false = false := by simpa using hc
      simp only [List.map_cons, List.sum_cons, hset, ↓reduceIte, hcf, List.lookup,
        beq_self_eq_true, Option.getD_some, Bool.false_eq_true]
      omega
    · have hb : (u == k) = false := by simpa using hk
      unfold openArcs at ih ⊢
      simp only [List.map_cons, List.sum_cons, List.lookup, hb]
      have hkk : vget (vset closed u true) k false = vget closed k false :=
        vget_vset_ne _ _ _ _ _ hk
      rw [hkk]
      omega

theorem phi_pass {g : Graph} {h : Int → ℚ} {start goal : Int} {e0 : Nat} {s : AState}
    {top : PQItem} (hI : Inv g h start goal e0 none s)
    (ht : pqTop s.openQ = some top) (hb : (aBody g h goal s top).2 = false) :
    phi g (aBody g h goal s top).1 < phi g s := by
  have htm : top ∈ s.openQ := pqTop_mem _ _ ht
  have hlen : (s.openQ.erase top).length + 1 = s.openQ.length := by
    rw [List.length_erase_of_mem htm]
    have : 0 < s.openQ.length := List.length_pos_of_mem htm
    omega
  rw [aBody_eq] at hb ⊢
  by_cases hcl : vget s.closed top.2 false = true
  · rw [if_pos hcl]
    unfold phi popS
    simp only
    omega
  · by_cases hg : top.2 = goal
    · rw [if_neg hcl, if_pos hg] at hb
      cases hb
    · rw [if_neg hcl, if_neg hg]
      unfold phi
      dsimp only
      rw [fold_closed]
      have h1 := fold_len_open h top.2 (arcsOf g top.2) (closeS (popS s top) top.2)
      have hur : InRange s.closed.length top.2 := by
        rw [hI.len_c]; exact (hI.open_ok top htm).1
      have h2 : openArcs (vset s.closed top.2 true) g.adj + (arcsOf g top.2).length ≤
          openArcs s.closed g.adj := openArcs_close s.closed g.adj top.2 hur hcl
      have h3 : (closeS (popS s top) top.2).openQ = s.openQ.erase top := rfl
      have h4 : (closeS (popS s top) top.2).closed = vset s.closed top.2 true := rfl
      rw [h3] at h1
      rw [h4]
      omega

/-- With fuel above `phi`, the loop leaves through its own exit: either the frontier is
empty, or the goal has just been popped and closed.  `J` is any further property kept
by the passes of the loop. -/
theorem aLoop_exit {g : Graph} {h : Int → ℚ} {start goal : Int} {e0 : Nat}
    {J : AState → Prop} (hv : ValidArcs g)
    (hJ : ∀ s top, Inv g h start goal e0 none s → J s → pqTop s.openQ = some top →
      (aBody g h goal s top).2 = false → J (aBody g h goal s top).1) :
    ∀ (fuel : Nat) (s : AState), Inv g h start goal e0 none s → J s → phi g s < fuel →
      ∃ s', aLoop g h goal fuel s = some s' ∧
        ((Inv g h start goal e0 none s' ∧ J s' ∧ s'.openQ = []) ∨
         (∃ s1 top, Inv g h start goal e0 none s1 ∧ J s1 ∧ pqTop s1.openQ = some top ∧
            ¬ s1.cl top.2 ∧ top.2 = goal ∧ s' = closeS (popS s1 top) top.2)) := by
  intro fuel
  induction fuel with
  | zero => intro s _ _ hlt; omega
  | succ fuel ih =>
    intro s hI hJs hlt
    unfold aLoop
    cases ht : pqTop s.openQ with
    | none =>
      exact ⟨s, rfl, Or.inl ⟨hI, hJs, (pqTop_eq_none _).mp ht⟩⟩
    | some top =>
      simp only
      cases hb : (aBody g h goal s top).2 with
      | true =>
        simp only [↓reduceIte]
        refine ⟨_, rfl, Or.inr ⟨s, top, hI, hJs, ht, ?_⟩⟩
        rw [aBody_eq] at hb ⊢
        by_cases hcl : vget s.closed top.2 false = true
        · rw [if_pos hcl] at hb
          cases hb
        · by_cases hg : top.2 = goal
          · rw [if_neg hcl, if_pos hg]
            exact ⟨hcl, hg, rfl⟩
          · rw [if_neg hcl, if_neg hg] at hb
            cases hb
      | false =>
        simp only [Bool.false_eq_true, ↓reduceIte]
        have hphi := phi_pass hI ht hb
        exact ih _ (hI.pass hv ht hb) (hJ s top hI hJs ht hb) (by omega)

theorem phi_init (g : Graph) (h : Int → ℚ) (start : Int) (stats : Stats) :
    phi g (aInit g h start stats) < searchFuel g := by
  unfold phi searchFuel arcCount openArcs aInit
  simp only [List.length_singleton]
  have : ∀ p : Int × List Edge,
      (if vget (List.replicate g.nodes.length false) p.1 false = true then 0
        else p.2.length) = p.2.length := by
    intro p
    rw [vget_replicate]
    simp
  simp only [this]
  omega


/-! ## The path read off the parent links -/

theorem walkBack_of_isPPath {g : Graph} {s : AState} {start v : Int} {l : List Int}
    (hl : IsPPath g s start v l) (hr : ∀ y ∈ l, InRange g.nodes.length y) :
    ∀ fuel, l.length ≤ fuel → walkBack s.parent start fuel v = some l := by
  induction hl with
  | base =>
    intro fuel hf
    cases fuel with
    | zero => simp at hf
    | succ fuel =>
      have h0 := (hr start (List.mem_singleton.mpr rfl)).1
      have hne : start ≠ -1 := by omega
      simp [walkBack, hne]
  | step e hne harc hto hg hrest ih =>
    rename_i v l
    intro fuel hf
    cases fuel with
    | zero => simp at hf
    | succ fuel =>
      have h0 := (hr v (List.mem_cons_self _ _)).1
      have hv1 : v ≠ -1 := by omega
      have hrec := ih (fun y hy => hr y (List.mem_cons_of_mem _ hy)) fuel
        (by simpa using hf)
      unfold AState.par at hrec
      simp [walkBack, hv1, hne, hrec]

theorem IsPPath.getLast {g : Graph} {s : AState} {start v : Int} {l : List Int}
    (hl : IsPPath g s start v l) : l.getLast? = some start := by
  induction hl with
  | base => rfl
  | step e hne harc hto hg hrest ih =>
    obtain ⟨t, ht⟩ := hrest.head_mem
    rw [ht] at ih ⊢
    rw [List.getLast?_cons_cons]
    exact ih

theorem IsPPath.head {g : Graph} {s : AState} {start v : Int} {l : List Int}
    (hl : IsPPath g s start v l) : l.head? = some v := by
  obtain ⟨t, ht⟩ := hl.head_mem
  rw [ht]; rfl

theorem IsPPath.arcs {g : Graph} {s : AState} {start v : Int} {l : List Int}
    (hl : IsPPath g s start v l) :
    List.Chain' (fun a b => ∃ e ∈ arcsOf g b, e.to_ = a) l := by
  induction hl with
  | base => exact List.chain'_singleton _
  | step e hne harc hto hg hrest ih =>
    obtain ⟨t, ht⟩ := hrest.head_mem
    rw [ht] at ih ⊢
    exact List.chain'_cons.mpr ⟨⟨e, harc, hto⟩, ih⟩

theorem IsPPath.isArcPath {g : Graph} {s : AState} {start v : Int} {l : List Int}
    (hl : IsPPath g s start v l) : IsArcPath g l.reverse := by
  unfold IsArcPath
  rw [List.chain'_reverse]
  exact hl.arcs

theorem IsPPath.par_ne {g : Graph} {s : AState} {start v : Int} {l : List Int}
    (hl : IsPPath g s start v l) (hr : ∀ y ∈ l, InRange g.nodes.length y)
    (hne : v ≠ start) : s.par v ≠ -1 := by
  cases hl with
  | base => exact absurd rfl hne
  | step e _ _ _ _ hrest =>
    obtain ⟨t, ht⟩ := hrest.head_mem
    have := (hr (s.par v) (by rw [ht]; simp)).1
    omega

theorem length_le_of_inRange (N : Nat) (l : List Int) (hnd : l.Nodup)
    (hr : ∀ y ∈ l, InRange N y) : l.length ≤ N := by
  have hinj : ∀ a ∈ l, ∀ b ∈ l, a.toNat = b.toNat → a = b := by
    intro a ha b hb hab
    have h1 := (hr a ha).1
    have h2 := (hr b hb).1
    omega
  have hnd' : (l.map Int.toNat).Nodup := (List.nodup_map_iff_inj_on hnd).mpr hinj
  have hsub : (l.map Int.toNat).toFinset ⊆ Finset.range N := by
    intro x hx
    simp only [List.mem_toFinset, List.mem_map] at hx
    obtain ⟨a, ha, rfl⟩ := hx
    have := hr a ha
    unfold InRange at this
    simp only [Finset.mem_range]
    omega
  have hcard := Finset.card_le_card hsub
  rw [List.toFinset_card_of_nodup hnd', Finset.card_range, List.length_map] at hcard
  exact hcard

/-! ## What the loop has established when it stops -/

theorem Inv.closed_reachable {g : Graph} {h : Int → ℚ} {start goal : Int} {e0 : Nat}
    {cur : Option (Int × List Edge)} {s : AState} (hI : Inv g h start goal e0 cur s)
    (v : Int) (hv : s.g v ≠ ⊤) : Reachable g start v := by
  obtain ⟨c, hc⟩ := WithTop.ne_top_iff_exists.mp hv
  exact ⟨c, hI.walk v c hc.symm⟩

/-- When the frontier is empty, the closed nodes are the nodes reachable from start. -/
theorem Inv.exhausted {g : Graph} {h : Int → ℚ} {start goal : Int} {e0 : Nat}
    {s : AState} (hI : Inv g h start goal e0 none s) (hq : s.openQ = []) (v : Int) :
    s.cl v ↔ Reachable g start v := by
  constructor
  · intro hv
    exact hI.closed_reachable v (hI.closed_fin v hv)
  · rintro ⟨c, hw⟩
    induction hw with
    | nil =>
      rcases hI.start_cl with h1 | ⟨_, h1⟩
      · exact h1
      · rw [hq] at h1; cases h1
    | snoc e hw he ih =>
      have hfin := hI.relaxed _ ih e he
      by_contra hcl
      have := hI.open_has _ hcl hfin
      rw [hq] at this
      cases this

theorem Inv.unreached {g : Graph} {h : Int → ℚ} {start goal : Int} {e0 : Nat}
    {cur : Option (Int × List Edge)} {s : AState} (hI : Inv g h start goal e0 cur s)
    (v : Int) (hv : ¬ Reachable g start v) : s.g v = ⊤ ∧ s.par v = -1 := by
  have hg : s.g v = ⊤ := by
    by_contra hne
    exact hv (hI.closed_reachable v hne)
  exact ⟨hg, hI.par_none v hg⟩

/-- The value of `stats.expansions` is the number of closed nodes. -/
theorem Inv.count {g : Graph} {h : Int → ℚ} {start goal : Int} {e0 : Nat}
    {cur : Option (Int × List Edge)} {s : AState} (hI : Inv g h start goal e0 cur s) :
    s.stats.expansions = e0 + Set.ncard {v : Int | s.cl v} := by
  obtain ⟨ord, h1, h2, h3⟩ := hI.order
  have hset : {v : Int | s.cl v} = ↑ord.toFinset := by
    ext v
    simp [h2 v]
  rw [hset, Set.ncard_coe_Finset, List.toFinset_card_of_nodup h1]
  exact h3

/-- The state left by the pass that pops the goal: `aFinish` returns the chain of parent
links from start to goal together with `gCost[goal]`. -/
theorem Inv.found {g : Graph} {h : Int → ℚ} {start goal : Int} {e0 : Nat} {s : AState}
    {top : PQItem} (hI : Inv g h start goal e0 none s) (ht : pqTop s.openQ = some top)
    (hg : top.2 = goal) :
    s.g goal ≠ ⊤ ∧
    ∃ path, aFinish g start goal (closeS (popS s top) top.2) =
        some (path, { (closeS (popS s top) top.2).stats with pathCost := s.g goal }) ∧
      path.head? = some start ∧ path.getLast? = some goal ∧ IsArcPath g path ∧
      path.Nodup ∧ path.length ≤ g.nodes.length := by
  have htm : top ∈ s.openQ := pqTop_mem _ _ ht
  have hfin : s.g goal ≠ ⊤ := by rw [← hg]; exact (hI.open_ok top htm).2
  refine ⟨hfin, ?_⟩
  obtain ⟨l, hl, _, hnd, hrg⟩ := hI.chain goal hfin
  have hlen := length_le_of_inRange _ l hnd hrg
  refine ⟨l.reverse, ?_, ?_, ?_, hl.isArcPath, List.nodup_reverse.mpr hnd, by simpa using hlen⟩
  · unfold aFinish
    have hpar : vget (closeS (popS s top) top.2).parent goal (-1) = s.par goal := rfl
    have hcond : ¬ (vget (closeS (popS s top) top.2).parent goal (-1) = -1 ∧ start ≠ goal) := by
      rintro ⟨h1, h2⟩
      rw [hpar] at h1
      exact hl.par_ne hrg (Ne.symm h2) h1
    rw [if_neg hcond]
    have hwb : walkBack (closeS (popS s top) top.2).parent start (g.nodes.length + 1) goal =
        some l := walkBack_of_isPPath hl hrg _ (by omega)
    rw [hwb]
    rfl
  · rw [List.head?_reverse]; exact hl.getLast
  · rw [List.getLast?_reverse]; exact hl.head


/-! ## `dijkstra` is `a_star` with the zero heuristic -/

theorem dRelax_toD (h : Int → ℚ) (h0 : ∀ v, h v = 0) (u : Int) (s : AState) (e : Edge) :
    (aRelax h u s e).toD = dRelax u s.toD e := by
  unfold aRelax dRelax AState.toD
  simp only [h0, WithTop.coe_zero, add_zero]
  split
  · rfl
  · split <;> rfl

theorem dFold_toD (h : Int → ℚ) (h0 : ∀ v, h v = 0) (u : Int) (es : List Edge)
    (s : AState) : (es.foldl (aRelax h u) s).toD = es.foldl (dRelax u) s.toD := by
  induction es generalizing s with
  | nil => rfl
  | cons e es ih =>
    simp only [List.foldl_cons]
    rw [ih, dRelax_toD h h0]

theorem dBody_toD (g : Graph) (h : Int → ℚ) (h0 : ∀ v, h v = 0) (goal : Int) (s : AState)
    (top : PQItem) :
    (dBody g goal s.toD top) = ((aBody g h goal s top).1.toD, (aBody g h goal s top).2) := by
  unfold dBody aBody
  simp only [AState.toD]
  split
  · rfl
  · split
    · rfl
    · cases g.adj.lookup top.2 with
      | none => rfl
      | some es =>
        simp only
        have := dFold_toD h h0 top.2 es
          { s with openQ := s.openQ.erase top,
                   closed := vset s.closed top.2 true,
                   stats := { expansions := s.stats.expansions + 1,
                              maxFringe := max s.stats.maxFringe s.openQ.length,
                              pathCost := s.stats.pathCost } }
        simp only [AState.toD] at this
        rw [← this]

theorem dLoop_toD (g : Graph) (h : Int → ℚ) (h0 : ∀ v, h v = 0) (goal : Int) :
    ∀ (fuel : Nat) (s : AState),
      dLoop g goal fuel s.toD = (aLoop g h goal fuel s).map AState.toD := by
  intro fuel
  induction fuel with
  | zero => intro s; rfl
  | succ fuel ih =>
    intro s
    unfold dLoop aLoop
    have hq : s.toD.openQ = s.openQ := rfl
    rw [hq]
    cases pqTop s.openQ with
    | none => rfl
    | some top =>
      simp only
      rw [dBody_toD g h h0 goal s top]
      simp only
      cases (aBody g h goal s top).2 with
      | true => rfl
      | false =>
        simp only [Bool.false_eq_true, ↓reduceIte]
        exact ih _

theorem dInit_toD (g : Graph) (h : Int → ℚ) (h0 : ∀ v, h v = 0) (start : Int)
    (stats : Stats) : dInit g start stats = (aInit g h start stats).toD := by
  unfold dInit aInit AState.toD
  simp [h0]

/-- Function `dijkstra` expressed with the loop of `a_star` under a heuristic that is
zero everywhere. -/
theorem dijkstra_eq (g : Graph) (h : Int → ℚ) (h0 : ∀ v, h v = 0)
    (startName goalName : String) (stats : Stats) :
    dijkstra g startName goalName stats =
      if findId g startName < 0 ∨ findId g goalName < 0 then some ([], stats)
      else
        match aLoop g h (findId g goalName) (searchFuel g)
            (aInit g h (findId g startName) stats) with
        | none => none
        | some s => dFinish g (findId g startName) (findId g goalName) s.toD := by
  unfold dijkstra
  simp only
  split
  · rfl
  · rw [dInit_toD g h h0, dLoop_toD g h h0]
    cases aLoop g h (findId g goalName) (searchFuel g) (aInit g h (findId g startName) stats)
      <;> rfl

/-! ## Facts of the loop that hold on every graph -/

theorem Weak.relax_weak {start : Int} {p0 : Cost} {h : Int → ℚ} {u : Int} {s : AState}
    {e : Edge} (hW : Weak start p0 s) : Weak start p0 (aRelax h u s e) := by
  by_cases hfire : ¬ s.cl e.to_ ∧ s.g u + (e.w : Cost) < s.g e.to_
  · obtain ⟨hc, hlt⟩ := hfire
    have hgu : s.g u ≠ ⊤ := by
      intro htop
      rw [htop] at hlt
      simp at hlt
    have hu0 : u ≠ -1 := by
      have := (g_ne_top_inRange s u hgu).1
      omega
    rw [aRelax_fire h u s e hc hlt]
    refine ⟨?_, ?_, ?_⟩
    · intro v hv hpar
      unfold AState.par at hpar
      unfold AState.g
      simp only at hpar ⊢
      by_cases hve : v = e.to_
      · subst hve
        by_cases hr : InRange s.parent.length e.to_
        · rw [vget_vset_eq _ _ _ _ hr.1 hr.2] at hpar
          exact absurd hpar hu0
        · apply vget_of_not_inRange
          rw [length_vset, hW.2.2]
          exact hr
      · rw [vget_vset_ne _ _ _ _ _ (Ne.symm hve)] at hpar ⊢
        exact hW.1 v hv hpar
    · exact hW.2.1
    · simp only [length_vset]
      exact hW.2.2
  · have hskip : aRelax h u s e = s := by
      apply aRelax_skip
      by_cases hc : s.cl e.to_
      · exact Or.inl hc
      · exact Or.inr (fun hlt => hfire ⟨hc, hlt⟩)
    rw [hskip]
    exact hW

theorem Weak.fold_weak {start : Int} {p0 : Cost} {h : Int → ℚ} {u : Int} (es : List Edge) :
    ∀ s : AState, Weak start p0 s → Weak start p0 (es.foldl (aRelax h u) s) := by
  induction es with
  | nil => intro s hW; exact hW
  | cons e es ih => intro s hW; exact ih _ hW.relax_weak

theorem Weak.pass_weak {g : Graph} {h : Int → ℚ} {start goal : Int} {p0 : Cost} {s : AState}
    (top : PQItem) (hW : Weak start p0 s) : Weak start p0 (aBody g h goal s top).1 := by
  have h1 : Weak start p0 (popS s top) := hW
  have h2 : Weak start p0 (closeS (popS s top) top.2) := hW
  rw [aBody_eq]
  split
  · exact h1
  · split
    · exact h2
    · exact Weak.fold_weak _ _ h2

theorem Weak.loop {g : Graph} {h : Int → ℚ} {start goal : Int} {p0 : Cost} :
    ∀ (fuel : Nat) (s s' : AState), Weak start p0 s → aLoop g h goal fuel s = some s' →
      Weak start p0 s' := by
  intro fuel
  induction fuel with
  | zero => intro s s' _ hl; simp [aLoop] at hl
  | succ fuel ih =>
    intro s s' hW hl
    unfold aLoop at hl
    cases ht : pqTop s.openQ with
    | none =>
      rw [ht] at hl
      simp only [Option.some.injEq] at hl
      rw [← hl]; exact hW
    | some top =>
      rw [ht] at hl
      simp only at hl
      cases hb : (aBody g h goal s top).2 with
      | true =>
        rw [hb] at hl
        simp only [↓reduceIte, Option.some.injEq] at hl
        rw [← hl]; exact hW.pass_weak top
      | false =>
        rw [hb] at hl
        simp only [Bool.false_eq_true, ↓reduceIte] at hl
        exact ih _ _ (hW.pass_weak top) hl

theorem Weak.init_weak (g : Graph) (h : Int → ℚ) (start : Int) (stats : Stats) :
    Weak start stats.pathCost (aInit g h start stats) := by
  refine ⟨?_, rfl, by simp [aInit, length_vset]⟩
  intro v hv _
  unfold AState.g aInit
  simp only
  rw [vget_vset_ne _ _ _ _ _ (Ne.symm hv)]
  exact vget_replicate _ _ _

/-- With a heuristic that is zero everywhere and fresh `pathCost`, the two epilogues
agree. -/
theorem finish_agree (g : Graph) (start goal : Int) (s : AState)
    (hW : Weak start ⊤ s) :
    dFinish g start goal s.toD = aFinish g start goal s := by
  unfold dFinish aFinish
  have hp : s.toD.parent = s.parent := rfl
  have hd : s.toD.dist = s.gCost := rfl
  have hs : s.toD.stats = s.stats := rfl
  simp only [hp, hd, hs]
  split
  · rename_i hc
    have hg : vget s.gCost goal ⊤ = ⊤ := hW.1 goal (Ne.symm hc.2) hc.1
    rw [hg, ← hW.2.1]
  · rfl


/-! ## Consistent heuristics: closed nodes carry the least walk weight -/

theorem consistent_arcsOf {g : Graph} {h : Int → ℚ} (hc : Consistent g h) {u : Int}
    {e : Edge} (he : e ∈ arcsOf g u) : h u ≤ e.w + h e.to_ := by
  obtain ⟨p, hp, hpu, hep⟩ := arcsOf_mem g u e he
  have := hc p hp e hep
  rw [hpu] at this
  exact this

theorem InvO.relax_opt {g : Graph} {h : Int → ℚ} {start goal : Int} {e0 : Nat} {u : Int}
    {done : List Edge} {s : AState} {e : Edge} (hv : ValidArcs g)
    (hI : Inv g h start goal e0 (some (u, done)) s) (hO : InvO g h start (some (u, done)) s)
    (he : e ∈ arcsOf g u) : InvO g h start (some (u, done ++ [e])) (aRelax h u s e) := by
  have hvr : InRange g.nodes.length e.to_ := validArcs_arcsOf hv he
  have hcu : s.cl u := hI.cur_cl u done rfl
  have hgu : s.g u ≠ ⊤ := hI.closed_fin u hcu
  obtain ⟨gu, hgu'⟩ := WithTop.ne_top_iff_exists.mp hgu
  by_cases hfire : ¬ s.cl e.to_ ∧ s.g u + (e.w : Cost) < s.g e.to_
  · obtain ⟨hc, hlt⟩ := hfire
    have hG := aRelax_fire_g h u s e hc hlt (by rw [hI.len_g]; exact hvr)
    have hQ := aRelax_fire_open h u s e hc hlt
    have hC := aRelax_cl h u s e
    have hle : ∀ x, (aRelax h u s e).g x ≤ s.g x := by
      intro x
      rw [hG]
      split
      · rename_i hx; rw [hx]; exact le_of_lt hlt
      · exact le_refl _
    have hsame : ∀ x, s.cl x → (aRelax h u s e).g x = s.g x := by
      intro x hx
      have hne : x ≠ e.to_ := fun hxe => hc (hxe ▸ hx)
      rw [hG]
      simp [hne]
    refine ⟨?_, ?_, ?_⟩
    · intro v hcv c hw
      have hcv' := (hC v).mp hcv
      rw [hsame v hcv']
      exact hO.opt v hcv' c hw
    · intro u' hu' e' he'
      have hu'' := (hC u').mp hu'
      rw [hsame u' hu'']
      rcases doneArcs_snoc g u done e e' u' he' with h1 | ⟨h1, h2⟩
      · exact le_trans (hle _) (hO.tri u' hu'' e' h1)
      · subst h1 h2
        rw [hG]; simp
    · intro x hx
      rw [hQ] at hx
      rcases List.mem_cons.mp hx with rfl | hx
      · simp only
        rw [hG]; simp
      · exact le_trans (add_le_add_right (hle _) _) (hO.key_ge x hx)
  · have hskip : aRelax h u s e = s := by
      apply aRelax_skip
      by_cases hc : s.cl e.to_
      · exact Or.inl hc
      · exact Or.inr (fun hlt => hfire ⟨hc, hlt⟩)
    rw [hskip]
    refine ⟨hO.opt, ?_, hO.key_ge⟩
    intro u' hu' e' he'
    rcases doneArcs_snoc g u done e e' u' he' with h1 | ⟨h1, h2⟩
    · exact hO.tri u' hu' e' h1
    · subst h1 h2
      by_cases hc : s.cl e'.to_
      · have hw : Walk g start e'.to_ (gu + e'.w) := Walk.snoc e' (hI.walk u' gu hgu'.symm) he
        have := hO.opt _ hc _ hw
        rw [← hgu']
        exact_mod_cast this
      · exact not_lt.mp (fun hlt => hfire ⟨hc, hlt⟩)

theorem InvO.fold_opt {g : Graph} {h : Int → ℚ} {start goal : Int} {e0 : Nat} {u : Int}
    (hv : ValidArcs g) :
    ∀ (rest done : List Edge) (s : AState), Inv g h start goal e0 (some (u, done)) s →
      InvO g h start (some (u, done)) s → (∀ e ∈ rest, e ∈ arcsOf g u) →
      InvO g h start (some (u, done ++ rest)) (rest.foldl (aRelax h u) s) := by
  intro rest
  induction rest with
  | nil =>
    intro done s _ hO _
    simpa using hO
  | cons e rest ih =>
    intro done s hI hO hmem
    have he := hmem e (List.mem_cons_self _ _)
    have h2 := ih (done ++ [e]) _ (hI.relax hv he) (hO.relax_opt hv hI he)
      (fun e' he' => hmem e' (List.mem_cons_of_mem _ he'))
    simpa using h2

theorem InvO.finish_opt {g : Graph} {h : Int → ℚ} {start : Int} {u : Int}
    {s : AState} (hO : InvO g h start (some (u, arcsOf g u)) s) : InvO g h start none s := by
  have hd : ∀ u', doneArcs g (some (u, arcsOf g u)) u' = doneArcs g none u' := by
    intro u'
    unfold doneArcs
    simp only
    split
    · rename_i hu; rw [hu]
    · rfl
  exact ⟨hO.opt, fun u' hu' e' he' => hO.tri u' hu' e' (by rw [hd]; exact he'), hO.key_ge⟩

/-- Every walk from start either ends at a closed node whose cost it does not beat, or
passes an open node whose key it does not beat. -/
theorem walk_bound {g : Graph} {h : Int → ℚ} {start goal : Int} {e0 : Nat} {s : AState}
    (hc : Consistent g h) (hI : Inv g h start goal e0 none s) (hO : InvO g h start none s)
    {v : Int} {c : ℚ} (hw : Walk g start v c) :
    (∃ y gy, ¬ s.cl y ∧ s.g y = ((gy : ℚ) : Cost) ∧ gy + h y ≤ c + h v) ∨
    (∃ gv, s.cl v ∧ s.g v = ((gv : ℚ) : Cost) ∧ gv ≤ c) := by
  induction hw with
  | nil =>
    by_cases hcl : s.cl start
    · exact Or.inr ⟨0, hcl, hI.start_ok.2.1, le_refl _⟩
    · exact Or.inl ⟨start, 0, hcl, hI.start_ok.2.1, le_refl _⟩
  | snoc e hw he ih =>
    rename_i u c
    have hcons := consistent_arcsOf hc he
    rcases ih with ⟨y, gy, hy1, hy2, hy3⟩ | ⟨gu, hu1, hu2, hu3⟩
    · exact Or.inl ⟨y, gy, hy1, hy2, by linarith⟩
    · have htri := hO.tri u hu1 e he
      rw [hu2] at htri
      have htri' : s.g e.to_ ≤ ((gu + e.w : ℚ) : Cost) := by exact_mod_cast htri
      obtain ⟨gv, hgv, hle⟩ := WithTop.le_coe_iff.mp htri'
      by_cases hcl : s.cl e.to_
      · exact Or.inr ⟨gv, hcl, hgv, by linarith⟩
      · exact Or.inl ⟨e.to_, gv, hcl, hgv, by linarith⟩

/-- The node popped for expansion carries the least walk weight. -/
theorem pop_optimal {g : Graph} {h : Int → ℚ} {start goal : Int} {e0 : Nat} {s : AState}
    {top : PQItem} (hc : Consistent g h) (hI : Inv g h start goal e0 none s)
    (hO : InvO g h start none s) (ht : pqTop s.openQ = some top) (hncl : ¬ s.cl top.2)
    (c : ℚ) (hw : Walk g start top.2 c) : s.g top.2 ≤ (c : Cost) := by
  have htm : top ∈ s.openQ := pqTop_mem _ _ ht
  obtain ⟨gu, hgu⟩ := WithTop.ne_top_iff_exists.mp (hI.open_ok top htm).2
  rcases walk_bound hc hI hO hw with ⟨y, gy, hy1, hy2, hy3⟩ | ⟨_, hcl, _⟩
  · have hmem := hI.open_has y hy1 (by rw [hy2]; exact WithTop.coe_ne_top)
    have h1 := pqTop_fst_le _ _ ht _ hmem
    have h2 := hO.key_ge top htm
    have h3 := le_trans h2 h1
    simp only at h3
    rw [hy2, ← hgu] at h3
    have h4 : gu + h top.2 ≤ gy + h y := by exact_mod_cast h3
    rw [← hgu]
    exact_mod_cast (by linarith : gu ≤ c)
  · exact absurd hcl hncl

theorem InvO.close_opt {g : Graph} {h : Int → ℚ} {start goal : Int} {e0 : Nat} {s : AState}
    {top : PQItem} (hc : Consistent g h) (hI : Inv g h start goal e0 none s)
    (hO : InvO g h start none s) (ht : pqTop s.openQ = some top) (hncl : ¬ s.cl top.2) :
    InvO g h start (some (top.2, [])) (closeS (popS s top) top.2) := by
  have htm : top ∈ s.openQ := pqTop_mem _ _ ht
  have hur : InRange g.nodes.length top.2 := (hI.open_ok top htm).1
  have hC : ∀ v, (closeS (popS s top) top.2).cl v ↔ v = top.2 ∨ s.cl v := by
    intro v
    rw [closeS_cl _ _ _ (by show InRange s.closed.length top.2; rw [hI.len_c]; exact hur)]
    simp
  refine ⟨?_, ?_, fun x hx => hO.key_ge x (List.mem_of_mem_erase hx)⟩
  · intro v hv c hw
    rcases (hC v).mp hv with rfl | hv
    · exact pop_optimal hc hI hO ht hncl c hw
    · exact hO.opt v hv c hw
  · intro u' hu' e' he'
    unfold doneArcs at he'
    simp only at he'
    by_cases hu : u' = top.2
    · simp [hu] at he'
    · simp only [hu, ↓reduceIte] at he'
      rcases (hC u').mp hu' with h1 | h1
      · exact absurd h1 hu
      · exact hO.tri u' h1 e' he'

theorem InvO.pass_opt {g : Graph} {h : Int → ℚ} {start goal : Int} {e0 : Nat} {s : AState}
    {top : PQItem} (hv : ValidArcs g) (hc : Consistent g h)
    (hI : Inv g h start goal e0 none s) (hO : InvO g h start none s)
    (ht : pqTop s.openQ = some top) (hb : (aBody g h goal s top).2 = false) :
    InvO g h start none (aBody g h goal s top).1 := by
  rw [aBody_eq] at hb ⊢
  by_cases hcl : vget s.closed top.2 false = true
  · rw [if_pos hcl]
    exact ⟨hO.opt, hO.tri, fun x hx => hO.key_ge x (List.mem_of_mem_erase hx)⟩
  · by_cases hg : top.2 = goal
    · rw [if_neg hcl, if_pos hg] at hb
      cases hb
    · rw [if_neg hcl, if_neg hg]
      have h1 := hI.close ht hcl hg
      have h2 := hO.close_opt hc hI ht hcl
      have h3 := InvO.fold_opt hv (arcsOf g top.2) [] _ h1 h2 (fun e he => he)
      exact InvO.finish_opt (by simpa using h3)

theorem InvO.init_opt (g : Graph) (h : Int → ℚ) (start : Int) (stats : Stats)
    (hs : InRange g.nodes.length start) : InvO g h start none (aInit g h start stats) := by
  have hC := aInit_cl g h start stats
  refine ⟨fun v hv => absurd hv (hC v), fun u hu => absurd hu (hC u), ?_⟩
  intro x hx
  have : x = ((h start : Cost), start) := by simpa [aInit] using hx
  subst this
  simp only
  rw [aInit_g g h start stats hs]
  simp


/-! ## Outcome of a whole run -/

theorem dFinish_eq (g : Graph) (start goal : Int) (s : AState) :
    dFinish g start goal s.toD =
      if vget s.parent goal (-1) = -1 ∧ start ≠ goal then
        some ([], { s.stats with pathCost := s.g goal })
      else aFinish g start goal s := by
  unfold dFinish aFinish
  have hp : s.toD.parent = s.parent := rfl
  have hd : s.toD.dist = s.gCost := rfl
  have hs : s.toD.stats = s.stats := rfl
  simp only [hp, hd, hs]
  split <;> rfl

theorem Inv.found_d {g : Graph} {h : Int → ℚ} {start goal : Int} {e0 : Nat} {s : AState}
    {top : PQItem} (hI : Inv g h start goal e0 none s) (ht : pqTop s.openQ = some top)
    (hg : top.2 = goal) :
    dFinish g start goal (closeS (popS s top) top.2).toD =
      aFinish g start goal (closeS (popS s top) top.2) := by
  have htm : top ∈ s.openQ := pqTop_mem _ _ ht
  have hfin : s.g goal ≠ ⊤ := by rw [← hg]; exact (hI.open_ok top htm).2
  obtain ⟨l, hl, _, _, hrg⟩ := hI.chain goal hfin
  rw [dFinish_eq]
  have hpar : vget (closeS (popS s top) top.2).parent goal (-1) = s.par goal := rfl
  have hcond : ¬ (vget (closeS (popS s top) top.2).parent goal (-1) = -1 ∧ start ≠ goal) := by
    rintro ⟨h1, h2⟩
    rw [hpar] at h1
    exact hl.par_ne hrg (Ne.symm h2) h1
  rw [if_neg hcond]

/-- Outcome of the search loop started by `a_star` on a graph with valid arcs, from a
start inside the node vector: the loop leaves through its own exit, either with an empty
frontier after closing exactly the nodes reachable from start (the goal is not among
them), or through `break` in the pass that pops the goal. -/
theorem search_core (g : Graph) (h : Int → ℚ) (start goal : Int) (stats : Stats)
    (J : AState → Prop) (hv : ValidArcs g) (hs : InRange g.nodes.length start)
    (hJ : ∀ s top, Inv g h start goal stats.expansions none s → J s →
      pqTop s.openQ = some top → (aBody g h goal s top).2 = false →
      J (aBody g h goal s top).1)
    (hJ0 : J (aInit g h start stats)) :
    ∃ s', aLoop g h goal (searchFuel g) (aInit g h start stats) = some s' ∧
      s'.stats.pathCost = stats.pathCost ∧
      ((¬ Reachable g start goal ∧ s'.par goal = -1 ∧ s'.g goal = ⊤ ∧ start ≠ goal ∧
          s'.stats.expansions = stats.expansions + Set.ncard {v | Reachable g start v}) ∨
       (Reachable g start goal ∧
          ∃ s1 top, Inv g h start goal stats.expansions none s1 ∧ J s1 ∧
            pqTop s1.openQ = some top ∧ ¬ s1.cl top.2 ∧ top.2 = goal ∧
            s' = closeS (popS s1 top) top.2)) := by
  obtain ⟨s', hrun, hpost⟩ := aLoop_exit hv hJ (searchFuel g) (aInit g h start stats)
    (Inv.init g h start goal stats hs) hJ0 (phi_init g h start stats)
  have hW := Weak.loop _ _ _ (Weak.init_weak g h start stats) hrun
  refine ⟨s', hrun, hW.2.1, ?_⟩
  rcases hpost with ⟨hI, _, hq⟩ | ⟨s1, top, hI, hJ1, ht, hncl, hg, hs'⟩
  · left
    have hnr : ¬ Reachable g start goal := fun hr => hI.goal_open ((hI.exhausted hq goal).mpr hr)
    have hu := hI.unreached goal hnr
    refine ⟨hnr, hu.2, hu.1, ?_, ?_⟩
    · intro heq
      exact hnr (heq ▸ ⟨0, Walk.nil start⟩)
    · rw [hI.count]
      have hset : {v : Int | s'.cl v} = {v | Reachable g start v} := by
        ext v
        exact hI.exhausted hq v
      rw [hset]
  · right
    have htm : top ∈ s1.openQ := pqTop_mem _ _ ht
    refine ⟨?_, s1, top, hI, hJ1, ht, hncl, hg, hs'⟩
    rw [← hg]
    exact hI.closed_reachable _ (hI.open_ok top htm).2

theorem a_star_unfold (g : Graph) (startName goalName : String) (hmap : List (String × ℚ))
    (stats : Stats) (hs : 0 ≤ findId g startName) (hg : 0 ≤ findId g goalName) :
    a_star g startName goalName hmap stats =
      match aLoop g (heur g hmap) (findId g goalName) (searchFuel g)
          (aInit g (heur g hmap) (findId g startName) stats) with
      | none => none
      | some s => aFinish g (findId g startName) (findId g goalName) s := by
  have hn : ¬ (findId g startName < 0 ∨ findId g goalName < 0) := by omega
  unfold a_star
  exact if_neg hn

theorem dijkstra_unfold (g : Graph) (startName goalName : String)
    (stats : Stats) (hs : 0 ≤ findId g startName) (hg : 0 ≤ findId g goalName) :
    dijkstra g startName goalName stats =
      match aLoop g (fun _ => 0) (findId g goalName) (searchFuel g)
          (aInit g (fun _ => 0) (findId g startName) stats) with
      | none => none
      | some s => dFinish g (findId g startName) (findId g goalName) s.toD := by
  have hn : ¬ (findId g startName < 0 ∨ findId g goalName < 0) := by omega
  rw [dijkstra_eq g (fun _ => 0) (fun _ => rfl)]
  exact if_neg hn

/-- Result of `a_star` when the goal is not reachable. -/
theorem a_star_unreachable (g : Graph) (startName goalName : String)
    (hmap : List (String × ℚ)) (stats : Stats) (hv : ValidArcs g)
    (hs : InRange g.nodes.length (findId g startName)) (hg : 0 ≤ findId g goalName)
    (hnr : ¬ Reachable g (findId g startName) (findId g goalName)) :
    ∃ st, a_star g startName goalName hmap stats = some ([], st) ∧
      st.pathCost = stats.pathCost ∧
      st.expansions = stats.expansions +
        Set.ncard {v | Reachable g (findId g startName) v} := by
  obtain ⟨s', hrun, hpc, hcase⟩ := search_core g (heur g hmap) (findId g startName)
    (findId g goalName) stats (fun _ => True) hv hs
    (fun _ _ _ _ _ _ => trivial) trivial
  rcases hcase with ⟨_, hpar, _, hne, hexp⟩ | ⟨hr, _⟩
  · refine ⟨s'.stats, ?_, hpc, hexp⟩
    rw [a_star_unfold g _ _ _ _ hs.1 hg, hrun]
    simp only
    unfold aFinish
    rw [if_pos ⟨hpar, hne⟩]
  · exact absurd hr hnr

/-- Result of `dijkstra` when the goal is not reachable. -/
theorem dijkstra_unreachable (g : Graph) (startName goalName : String)
    (stats : Stats) (hv : ValidArcs g)
    (hs : InRange g.nodes.length (findId g startName)) (hg : 0 ≤ findId g goalName)
    (hnr : ¬ Reachable g (findId g startName) (findId g goalName)) :
    ∃ st, dijkstra g startName goalName stats = some ([], st) ∧
      st.pathCost = ⊤ ∧
      st.expansions = stats.expansions +
        Set.ncard {v | Reachable g (findId g startName) v} := by
  obtain ⟨s', hrun, hpc, hcase⟩ := search_core g (fun _ => 0) (findId g startName)
    (findId g goalName) stats (fun _ => True) hv hs
    (fun _ _ _ _ _ _ => trivial) trivial
  rcases hcase with ⟨_, hpar, hgt, hne, hexp⟩ | ⟨hr, _⟩
  · refine ⟨{ s'.stats with pathCost := ⊤ }, ?_, rfl, hexp⟩
    rw [dijkstra_unfold g _ _ _ hs.1 hg, hrun]
    simp only
    rw [dFinish_eq, if_pos ⟨hpar, hne⟩, hgt]
  · exact absurd hr hnr

/-- Result of `a_star` when the goal is reachable: a path along arcs from start to goal,
and the weight of a walk as `pathCost`; under a consistent heuristic no walk is
cheaper. -/
theorem a_star_reachable (g : Graph) (startName goalName : String)
    (hmap : List (String × ℚ)) (stats : Stats) (hv : ValidArcs g)
    (hs : InRange g.nodes.length (findId g startName)) (hg : 0 ≤ findId g goalName)
    (hr : Reachable g (findId g startName) (findId g goalName)) :
    ∃ path st c, a_star g startName goalName hmap stats = some (path, st) ∧
      path.head? = some (findId g startName) ∧ path.getLast? = some (findId g goalName) ∧
      IsArcPath g path ∧ path.Nodup ∧ path.length ≤ g.nodes.length ∧
      st.pathCost = ((c : ℚ) : Cost) ∧
      Walk g (findId g startName) (findId g goalName) c ∧
      (Consistent g (heur g hmap) →
        ∀ c', Walk g (findId g startName) (findId g goalName) c' → c ≤ c') := by
  by_cases hc : Consistent g (heur g hmap)
  · obtain ⟨s', hrun, _, hcase⟩ := search_core g (heur g hmap) (findId g startName)
      (findId g goalName) stats
      (fun s => InvO g (heur g hmap) (findId g startName) none s) hv hs
      (fun s top hI hO ht hb => InvO.pass_opt hv hc hI hO ht hb)
      (InvO.init_opt g _ _ stats hs)
    rcases hcase with ⟨hnr, _⟩ | ⟨_, s1, top, hI, hO, ht, hncl, hgoal, hs'⟩
    · exact absurd hr hnr
    · obtain ⟨hfin, path, hfinish, h1, h2, h3, h4, h5⟩ := hI.found ht hgoal
      obtain ⟨c, hcq⟩ := WithTop.ne_top_iff_exists.mp hfin
      refine ⟨path, { (closeS (popS s1 top) top.2).stats with
        pathCost := s1.g (findId g goalName) }, c, ?_, h1, h2, h3, h4, h5, hcq.symm, hI.walk _ c hcq.symm, ?_⟩
      · rw [a_star_unfold g _ _ _ _ hs.1 hg, hrun]
        simp only
        rw [hs', hfinish]
      · intro _ c' hw
        have := pop_optimal hc hI hO ht hncl c' (by rw [hgoal]; exact hw)
        rw [hgoal, ← hcq] at this
        exact_mod_cast this
  · obtain ⟨s', hrun, _, hcase⟩ := search_core g (heur g hmap) (findId g startName)
      (findId g goalName) stats (fun _ => True) hv hs
      (fun _ _ _ _ _ _ => trivial) trivial
    rcases hcase with ⟨hnr, _⟩ | ⟨_, s1, top, hI, _, ht, hncl, hgoal, hs'⟩
    · exact absurd hr hnr
    · obtain ⟨hfin, path, hfinish, h1, h2, h3, h4, h5⟩ := hI.found ht hgoal
      obtain ⟨c, hcq⟩ := WithTop.ne_top_iff_exists.mp hfin
      refine ⟨path, { (closeS (popS s1 top) top.2).stats with
        pathCost := s1.g (findId g goalName) }, c, ?_, h1, h2, h3, h4, h5, hcq.symm, hI.walk _ c hcq.symm,
        fun hc' => absurd hc' hc⟩
      rw [a_star_unfold g _ _ _ _ hs.1 hg, hrun]
      simp only
      rw [hs', hfinish]

theorem nonNeg_consistent {g : Graph} (hw : NonNegWeights g) :
    Consistent g (fun _ => 0) := by
  intro p hp e he
  have := hw p hp e he
  simp only [add_zero]
  exact this

/-- Result of `dijkstra` when the goal is reachable: a path along arcs from start to
goal, and the weight of a walk as `pathCost`; with non-negative weights no walk is
cheaper. -/
theorem dijkstra_reachable (g : Graph) (startName goalName : String)
    (stats : Stats) (hv : ValidArcs g)
    (hs : InRange g.nodes.length (findId g startName)) (hg : 0 ≤ findId g goalName)
    (hr : Reachable g (findId g startName) (findId g goalName)) :
    ∃ path st c, dijkstra g startName goalName stats = some (path, st) ∧
      path.head? = some (findId g startName) ∧ path.getLast? = some (findId g goalName) ∧
      IsArcPath g path ∧ path.Nodup ∧ path.length ≤ g.nodes.length ∧
      st.pathCost = ((c : ℚ) : Cost) ∧
      Walk g (findId g startName) (findId g goalName) c ∧
      (NonNegWeights g →
        ∀ c', Walk g (findId g startName) (findId g goalName) c' → c ≤ c') := by
  by_cases hw : NonNegWeights g
  · have hc := nonNeg_consistent hw
    obtain ⟨s', hrun, _, hcase⟩ := search_core g (fun _ => 0) (findId g startName)
      (findId g goalName) stats
      (fun s => InvO g (fun _ => 0) (findId g startName) none s) hv hs
      (fun s top hI hO ht hb => InvO.pass_opt hv hc hI hO ht hb)
      (InvO.init_opt g _ _ stats hs)
    rcases hcase with ⟨hnr, _⟩ | ⟨_, s1, top, hI, hO, ht, hncl, hgoal, hs'⟩
    · exact absurd hr hnr
    · obtain ⟨hfin, path, hfinish, h1, h2, h3, h4, h5⟩ := hI.found ht hgoal
      obtain ⟨c, hcq⟩ := WithTop.ne_top_iff_exists.mp hfin
      refine ⟨path, { (closeS (popS s1 top) top.2).stats with
        pathCost := s1.g (findId g goalName) }, c, ?_, h1, h2, h3, h4, h5, hcq.symm, hI.walk _ c hcq.symm, ?_⟩
      · rw [dijkstra_unfold g _ _ _ hs.1 hg, hrun]
        simp only
        rw [hs', hI.found_d ht hgoal, hfinish]
      · intro _ c' hw'
        have := pop_optimal hc hI hO ht hncl c' (by rw [hgoal]; exact hw')
        rw [hgoal, ← hcq] at this
        exact_mod_cast this
  · obtain ⟨s', hrun, _, hcase⟩ := search_core g (fun _ => 0) (findId g startName)
      (findId g goalName) stats (fun _ => True) hv hs
      (fun _ _ _ _ _ _ => trivial) trivial
    rcases hcase with ⟨hnr, _⟩ | ⟨_, s1, top, hI, _, ht, hncl, hgoal, hs'⟩
    · exact absurd hr hnr
    · obtain ⟨hfin, path, hfinish, h1, h2, h3, h4, h5⟩ := hI.found ht hgoal
      obtain ⟨c, hcq⟩ := WithTop.ne_top_iff_exists.mp hfin
      refine ⟨path, { (closeS (popS s1 top) top.2).stats with
        pathCost := s1.g (findId g goalName) }, c, ?_, h1, h2, h3, h4, h5, hcq.symm, hI.walk _ c hcq.symm,
        fun hc' => absurd hc' hw⟩
      rw [dijkstra_unfold g _ _ _ hs.1 hg, hrun]
      simp only
      rw [hs', hI.found_d ht hgoal, hfinish]


/-! ## Facts used by the statements below -/

theorem consistent_walk {g : Graph} {h : Int → ℚ} (hc : Consistent g h) {u v : Int} {c : ℚ}
    (hw : Walk g u v c) : h u ≤ c + h v := by
  induction hw with
  | nil => simp
  | snoc e hw he ih =>
    have := consistent_arcsOf hc he
    linarith

theorem walk_of_no_arcs {g : Graph} {u v : Int} {c : ℚ} (hu : arcsOf g u = [])
    (hw : Walk g u v c) : v = u := by
  induction hw with
  | nil => rfl
  | snoc e hw he ih =>
    rw [ih, hu] at he
    cases he

theorem heur_zero (g : Graph) (hmap : List (String × ℚ))
    (hm : ∀ n ∈ g.nodes, hmap.lookup n.name = none) : heur g hmap = fun _ => 0 := by
  funext v
  unfold heur
  split
  · rfl
  · cases hn : g.nodes.get? v.toNat with
    | none => rfl
    | some n =>
      simp only
      rw [hm n (List.get?_mem hn)]

/-- The first pass of the loop when start and goal coincide. -/
theorem aLoop_same (g : Graph) (h : Int → ℚ) (start : Int) (stats : Stats) (fuel : Nat) :
    aLoop g h start (fuel + 1) (aInit g h start stats) =
      some (closeS (popS (aInit g h start stats) ((h start : Cost), start)) start) := by
  unfold aLoop
  have ht : pqTop (aInit g h start stats).openQ = some ((h start : Cost), start) := rfl
  rw [ht]
  simp only
  rw [aBody_eq]
  have hcl : ¬ vget (aInit g h start stats).closed start false = true :=
    aInit_cl g h start stats start
  rw [if_neg hcl, if_pos rfl]
  rfl

theorem walkBack_same (parent : List Int) (start : Int) (fuel : Nat) (h0 : 0 ≤ start) :
    walkBack parent start (fuel + 1) start = some [start] := by
  have hne : start ≠ -1 := by omega
  simp [walkBack, hne]

theorem aFinish_same (g : Graph) (h : Int → ℚ) (start : Int)
    (hs : InRange g.nodes.length start) :
    aFinish g start start
        (closeS (popS (aInit g h start Stats.fresh) ((h start : Cost), start)) start) =
      some ([start], ⟨1, 1, 0⟩) := by
  unfold aFinish
  rw [if_neg (fun hc => hc.2 rfl), walkBack_same _ _ _ hs.1]
  have hg : vget (closeS (popS (aInit g h start Stats.fresh) ((h start : Cost), start))
      start).gCost start ⊤ = 0 := by
    have := aInit_g g h start Stats.fresh hs start
    simp only [↓reduceIte] at this
    exact this
  rw [hg]
  rfl

/-- On a graph with valid arcs and for a known start and goal, `a_star` returns. -/
theorem a_star_defined (g : Graph) (startName goalName : String)
    (hmap : List (String × ℚ)) (stats : Stats) (hv : ValidArcs g)
    (hs : InRange g.nodes.length (findId g startName)) (hg : 0 ≤ findId g goalName) :
    ∃ r, a_star g startName goalName hmap stats = some r := by
  by_cases hr : Reachable g (findId g startName) (findId g goalName)
  · obtain ⟨path, st, _, h1, _⟩ :=
      a_star_reachable g startName goalName hmap stats hv hs hg hr
    exact ⟨_, h1⟩
  · obtain ⟨st, h1, _⟩ := a_star_unreachable g startName goalName hmap stats hv hs hg hr
    exact ⟨_, h1⟩

/-! ## Main statements -/

/-- C1: on a graph with valid arc endpoints and non-negative weights, for known start
and goal with the goal reachable, `dijkstra` returns a non-empty path and sets
`stats.pathCost` to the least total weight of a walk from start to goal. -/
theorem C1_dijkstra_optimal (g : Graph) (startName goalName : String) (stats : Stats)
    (hv : ValidArcs g) (hw : NonNegWeights g)
    (hs : InRange g.nodes.length (findId g startName))
    (hg : InRange g.nodes.length (findId g goalName))
    (hr : Reachable g (findId g startName) (findId g goalName)) :
    ∃ path st c, dijkstra g startName goalName stats = some (path, st) ∧ path ≠ [] ∧
      st.pathCost = ((c : ℚ) : Cost) ∧
      Walk g (findId g startName) (findId g goalName) c ∧
      ∀ c', Walk g (findId g startName) (findId g goalName) c' → c ≤ c' := by
  obtain ⟨path, st, c, h1, h2, _, _, _, _, h3, h4, h5⟩ :=
    dijkstra_reachable g startName goalName stats hv hs hg.1 hr
  refine ⟨path, st, c, h1, ?_, h3, h4, h5 hw⟩
  intro hnil
  rw [hnil] at h2
  cases h2

/-- C2: on a graph with valid arc endpoints, for known start and goal with the goal
reachable and a heuristic table that is consistent (non-negativity, the value at the
goal and admissibility are not needed), `a_star` returns a non-empty path and sets
`stats.pathCost` to the least total weight of a walk from start to goal. -/
theorem C2_a_star_optimal (g : Graph) (startName goalName : String)
    (hmap : List (String × ℚ)) (stats : Stats) (hv : ValidArcs g)
    (hs : InRange g.nodes.length (findId g startName))
    (hg : InRange g.nodes.length (findId g goalName))
    (hr : Reachable g (findId g startName) (findId g goalName))
    (hc : Consistent g (heur g hmap)) :
    ∃ path st c, a_star g startName goalName hmap stats = some (path, st) ∧ path ≠ [] ∧
      st.pathCost = ((c : ℚ) : Cost) ∧
      Walk g (findId g startName) (findId g goalName) c ∧
      ∀ c', Walk g (findId g startName) (findId g goalName) c' → c ≤ c' := by
  obtain ⟨path, st, c, h1, h2, _, _, _, _, h3, h4, h5⟩ :=
    a_star_reachable g startName goalName hmap stats hv hs hg.1 hr
  refine ⟨path, st, c, h1, ?_, h3, h4, h5 hc⟩
  intro hnil
  rw [hnil] at h2
  cases h2

/-- C3 (as stated, refuted): on the graph `detour` (valid arcs, non-negative weights,
known start S and goal G) the table with the single entry h(A) = 5 is admissible for
the goal G, yet `a_star` reports cost 13 from S to G while `dijkstra` reports 12. -/
theorem C3_admissible_not_enough :
    ValidArcs detour ∧ NonNegWeights detour ∧
    InRange detour.nodes.length (findId detour "S") ∧
    InRange detour.nodes.length (findId detour "G") ∧
    Admissible detour (heur detour [("A", 5)]) (findId detour "G") ∧
    (a_star detour "S" "G" [("A", 5)] Stats.fresh).map (fun r => r.2.pathCost) =
      some ((13 : ℚ) : Cost) ∧
    (dijkstra detour "S" "G" Stats.fresh).map (fun r => r.2.pathCost) =
      some ((12 : ℚ) : Cost) ∧
    (a_star detour "S" "G" [("A", 5)] Stats.fresh).map (fun r => r.2.pathCost) ≠
      (dijkstra detour "S" "G" Stats.fresh).map (fun r => r.2.pathCost) := by
  refine ⟨by decide!, by decide!, by decide!, by decide!, ?_, by decide!, by decide!,
    by decide!⟩
  have hpi : Consistent detour (heur detour [("S", 12), ("A", 11), ("B", 10)]) := by
    decide!
  have hN : detour.nodes.length = 4 := by decide!
  intro v hv
  unfold InRange at hv
  rw [hN] at hv
  have hcases : v = 0 ∨ v = 1 ∨ v = 2 ∨ v = 3 := by omega
  have hle : 0 ≤ heur detour [("A", 5)] v ∧
      heur detour [("A", 5)] v ≤ heur detour [("S", 12), ("A", 11), ("B", 10)] v := by
    rcases hcases with rfl | rfl | rfl | rfl <;> decide!
  refine ⟨hle.1, fun c hw => ?_⟩
  have h1 := consistent_walk hpi hw
  have h2 : heur detour [("S", 12), ("A", 11), ("B", 10)] (findId detour "G") = 0 := by
    decide!
  rw [h2] at h1
  linarith [hle.2]

/-- C3 (amended): in exact arithmetic, on a graph with valid arc endpoints and
non-negative weights, for known start and goal and a heuristic table that is admissible
and consistent, `a_star` and `dijkstra`, both run with fresh stats, report the same
`stats.pathCost`. -/
theorem C3_same_cost_consistent (g : Graph) (startName goalName : String)
    (hmap : List (String × ℚ)) (hv : ValidArcs g) (hw : NonNegWeights g)
    (hs : InRange g.nodes.length (findId g startName))
    (hg : InRange g.nodes.length (findId g goalName))
    (_hadm : Admissible g (heur g hmap) (findId g goalName))
    (hc : Consistent g (heur g hmap)) :
    ∃ pa sa pd sd, a_star g startName goalName hmap Stats.fresh = some (pa, sa) ∧
      dijkstra g startName goalName Stats.fresh = some (pd, sd) ∧
      sa.pathCost = sd.pathCost := by
  by_cases hr : Reachable g (findId g startName) (findId g goalName)
  · obtain ⟨pa, sa, ca, a1, _, _, _, _, _, a3, a4, a5⟩ :=
      a_star_reachable g startName goalName hmap Stats.fresh hv hs hg.1 hr
    obtain ⟨pd, sd, cd, d1, _, _, _, _, _, d3, d4, d5⟩ :=
      dijkstra_reachable g startName goalName Stats.fresh hv hs hg.1 hr
    refine ⟨pa, sa, pd, sd, a1, d1, ?_⟩
    have h1 := a5 hc cd d4
    have h2 := d5 hw ca a4
    rw [a3, d3, le_antisymm h1 h2]
  · obtain ⟨sa, a1, a2, _⟩ :=
      a_star_unreachable g startName goalName hmap Stats.fresh hv hs hg.1 hr
    obtain ⟨sd, d1, d2, _⟩ := dijkstra_unreachable g startName goalName Stats.fresh hv hs hg.1 hr
    exact ⟨[], sa, [], sd, a1, d1, by rw [a2, d2]; rfl⟩

/-- C4 (failing input): on the graph `twin`, whose two parallel arcs A->B weigh 5 and 1,
`a_star` (with the empty table) and `dijkstra` return the path `[A, B]` with
`stats.pathCost = 1`, while `path_cost` of that path is 5. -/
theorem C4_parallel_arcs :
    ValidArcs twin ∧ NonNegWeights twin ∧
    (a_star twin "A" "B" [] Stats.fresh).map (fun r => (r.1, r.2.pathCost)) =
      some ([0, 1], ((1 : ℚ) : Cost)) ∧
    (dijkstra twin "A" "B" Stats.fresh).map (fun r => (r.1, r.2.pathCost)) =
      some ([0, 1], ((1 : ℚ) : Cost)) ∧
    path_cost twin [0, 1] = ((5 : ℚ) : Cost) ∧
    path_cost twin [0, 1] ≠ ((1 : ℚ) : Cost) := by
  decide!

/-- C6: on the A,B,C,D graph built by `addNode` / `addEdge` (all edges undirected),
`dijkstra` from A to D returns the path `[A, B, D]` with `stats.pathCost = 2`. -/
theorem C6_dijkstra_abcd :
    dijkstra abcd "A" "D" Stats.fresh = some ([0, 1, 3], ⟨3, 2, ((2 : ℚ) : Cost)⟩) := by
  decide!

/-- C7: for a name whose id is a slot of the node vector, `a_star` and `dijkstra` called
with start equal to goal and fresh stats return the one-node path, with
`stats.pathCost = 0` and `stats.expansions = 1`, on every graph and for every heuristic
table. -/
theorem C7_start_is_goal (g : Graph) (name : String) (hmap : List (String × ℚ))
    (hk : InRange g.nodes.length (findId g name)) :
    a_star g name name hmap Stats.fresh = some ([findId g name], ⟨1, 1, 0⟩) ∧
    dijkstra g name name Stats.fresh = some ([findId g name], ⟨1, 1, 0⟩) := by
  constructor
  · rw [a_star_unfold g _ _ _ _ hk.1 hk.1]
    unfold searchFuel
    rw [aLoop_same]
    exact aFinish_same g _ _ hk
  · rw [dijkstra_unfold g _ _ _ hk.1 hk.1]
    unfold searchFuel
    rw [aLoop_same]
    simp only
    rw [dFinish_eq, if_neg (fun hc => hc.2 rfl)]
    exact aFinish_same g _ _ hk

/-- C9: when the start name or the goal name is not a key of `nameToId`, `a_star` and
`dijkstra` return the empty path and the stats they were given, unchanged. -/
theorem C9_unknown_name (g : Graph) (startName goalName : String)
    (hmap : List (String × ℚ)) (stats : Stats)
    (hu : g.nameToId.lookup startName = none ∨ g.nameToId.lookup goalName = none) :
    a_star g startName goalName hmap stats = some ([], stats) ∧
    dijkstra g startName goalName stats = some ([], stats) := by
  have hneg : findId g startName < 0 ∨ findId g goalName < 0 := by
    rcases hu with h | h
    · left; unfold findId; rw [h]; decide
    · right; unfold findId; rw [h]; decide
  constructor
  · unfold a_star
    simp only
    rw [if_pos hneg]
  · unfold dijkstra
    simp only
    rw [if_pos hneg]

/-- C10: when the heuristic table has no entry for any node name of the graph, `a_star`
called with fresh stats returns exactly what `dijkstra` returns (path, expansions,
maxFringe and pathCost); on a graph with valid arc endpoints and for known start and
goal this common result is defined. -/
theorem C10_missing_entries (g : Graph) (startName goalName : String)
    (hmap : List (String × ℚ)) (hm : ∀ n ∈ g.nodes, hmap.lookup n.name = none) :
    a_star g startName goalName hmap Stats.fresh = dijkstra g startName goalName Stats.fresh ∧
    (ValidArcs g → InRange g.nodes.length (findId g startName) →
      InRange g.nodes.length (findId g goalName) →
      ∃ r, dijkstra g startName goalName Stats.fresh = some r) := by
  have heq : a_star g startName goalName hmap Stats.fresh =
      dijkstra g startName goalName Stats.fresh := by
    by_cases hneg : findId g startName < 0 ∨ findId g goalName < 0
    · unfold a_star dijkstra
      simp only
      rw [if_pos hneg, if_pos hneg]
    · have hs : 0 ≤ findId g startName := by omega
      have hg : 0 ≤ findId g goalName := by omega
      rw [a_star_unfold g _ _ _ _ hs hg, dijkstra_unfold g _ _ _ hs hg, heur_zero g hmap hm]
      cases hrun : aLoop g (fun _ => 0) (findId g goalName) (searchFuel g)
          (aInit g (fun _ => 0) (findId g startName) Stats.fresh) with
      | none => rfl
      | some s' =>
        simp only
        have hW := Weak.loop _ _ _ (Weak.init_weak g (fun _ => 0) (findId g startName) Stats.fresh)
          hrun
        exact (finish_agree g _ _ s' hW).symm
  refine ⟨heq, fun hv hs hg => ?_⟩
  rw [← heq]
  exact a_star_defined g startName goalName hmap Stats.fresh hv hs hg.1


/-! ## Concrete instances -/

theorem abcd_reach : Reachable abcd (findId abcd "A") (findId abcd "D") := by
  have hA : findId abcd "A" = 0 := by decide!
  have hD : findId abcd "D" = 3 := by decide!
  rw [hA, hD]
  exact ⟨_, Walk.snoc ⟨3, 1, false⟩ (Walk.snoc ⟨1, 1, false⟩ (Walk.nil 0) (by decide!))
    (by decide!)⟩

theorem abcd_admissible :
    Admissible abcd (heur abcd [("A", 2), ("B", 1), ("C", 1)]) (findId abcd "D") := by
  have hc : Consistent abcd (heur abcd [("A", 2), ("B", 1), ("C", 1)]) := by decide!
  have hN : abcd.nodes.length = 4 := by decide!
  intro v hv
  unfold InRange at hv
  rw [hN] at hv
  have hcases : v = 0 ∨ v = 1 ∨ v = 2 ∨ v = 3 := by omega
  have h0 : 0 ≤ heur abcd [("A", 2), ("B", 1), ("C", 1)] v := by
    rcases hcases with rfl | rfl | rfl | rfl <;> decide!
  refine ⟨h0, fun c hw => ?_⟩
  have h1 := consistent_walk hc hw
  have h2 : heur abcd [("A", 2), ("B", 1), ("C", 1)] (findId abcd "D") = 0 := by decide!
  rw [h2] at h1
  linarith

theorem detour_unreach : ¬ Reachable detour (findId detour "G") (findId detour "S") := by
  rintro ⟨c, hw⟩
  have hG : findId detour "G" = 3 := by decide!
  have hS : findId detour "S" = 0 := by decide!
  rw [hG, hS] at hw
  have := walk_of_no_arcs (by decide!) hw
  omega

/-- Instance of C1: `dijkstra` on the A,B,C,D graph from A to D. -/
theorem C1_witness :
    ValidArcs abcd ∧ NonNegWeights abcd ∧
    InRange abcd.nodes.length (findId abcd "A") ∧
    InRange abcd.nodes.length (findId abcd "D") ∧
    Reachable abcd (findId abcd "A") (findId abcd "D") ∧
    ∃ path st c, dijkstra abcd "A" "D" Stats.fresh = some (path, st) ∧ path ≠ [] ∧
      st.pathCost = ((c : ℚ) : Cost) ∧
      Walk abcd (findId abcd "A") (findId abcd "D") c ∧
      ∀ c', Walk abcd (findId abcd "A") (findId abcd "D") c' → c ≤ c' :=
  ⟨by decide!, by decide!, by decide!, by decide!, abcd_reach,
    C1_dijkstra_optimal abcd "A" "D" Stats.fresh (by decide!) (by decide!) (by decide!)
      (by decide!) abcd_reach⟩

/-- Instance of C2: `a_star` on the A,B,C,D graph from A to D with the table of the true
remaining costs. -/
theorem C2_witness :
    ValidArcs abcd ∧
    InRange abcd.nodes.length (findId abcd "A") ∧
    InRange abcd.nodes.length (findId abcd "D") ∧
    Reachable abcd (findId abcd "A") (findId abcd "D") ∧
    Consistent abcd (heur abcd [("A", 2), ("B", 1), ("C", 1)]) ∧
    ∃ path st c, a_star abcd "A" "D" [("A", 2), ("B", 1), ("C", 1)] Stats.fresh =
        some (path, st) ∧ path ≠ [] ∧
      st.pathCost = ((c : ℚ) : Cost) ∧
      Walk abcd (findId abcd "A") (findId abcd "D") c ∧
      ∀ c', Walk abcd (findId abcd "A") (findId abcd "D") c' → c ≤ c' :=
  ⟨by decide!, by decide!, by decide!, abcd_reach, by decide!,
    C2_a_star_optimal abcd "A" "D" [("A", 2), ("B", 1), ("C", 1)] Stats.fresh (by decide!)
      (by decide!) (by decide!) abcd_reach (by decide!)⟩

/-- Instance of the amended C3: the A,B,C,D graph from A to D with the table of the true
remaining costs. -/
theorem C3_witness :
    ValidArcs abcd ∧ NonNegWeights abcd ∧
    InRange abcd.nodes.length (findId abcd "A") ∧
    InRange abcd.nodes.length (findId abcd "D") ∧
    Admissible abcd (heur abcd [("A", 2), ("B", 1), ("C", 1)]) (findId abcd "D") ∧
    Consistent abcd (heur abcd [("A", 2), ("B", 1), ("C", 1)]) ∧
    ∃ pa sa pd sd, a_star abcd "A" "D" [("A", 2), ("B", 1), ("C", 1)] Stats.fresh =
        some (pa, sa) ∧
      dijkstra abcd "A" "D" Stats.fresh = some (pd, sd) ∧ sa.pathCost = sd.pathCost :=
  ⟨by decide!, by decide!, by decide!, by decide!, abcd_admissible, by decide!,
    C3_same_cost_consistent abcd "A" "D" [("A", 2), ("B", 1), ("C", 1)] (by decide!)
      (by decide!) (by decide!) (by decide!) abcd_admissible (by decide!)⟩

/-- Instance of C7: start and goal both A on the A,B,C,D graph. -/
theorem C7_witness :
    InRange abcd.nodes.length (findId abcd "A") ∧
    (a_star abcd "A" "A" [("C", 100)] Stats.fresh = some ([findId abcd "A"], ⟨1, 1, 0⟩) ∧
     dijkstra abcd "A" "A" Stats.fresh = some ([findId abcd "A"], ⟨1, 1, 0⟩)) :=
  ⟨by decide!, C7_start_is_goal abcd "A" [("C", 100)] (by decide!)⟩

/-- Instance of C9: the start name "Z" is not a node of the A,B,C,D graph. -/
theorem C9_witness :
    (abcd.nameToId.lookup "Z" = none ∨ abcd.nameToId.lookup "D" = none) ∧
    (a_star abcd "Z" "D" [("C", 100)] ⟨7, 8, 9⟩ = some ([], ⟨7, 8, 9⟩) ∧
     dijkstra abcd "Z" "D" ⟨7, 8, 9⟩ = some ([], ⟨7, 8, 9⟩)) :=
  ⟨Or.inl (by decide!),
    C9_unknown_name abcd "Z" "D" [("C", 100)] ⟨7, 8, 9⟩ (Or.inl (by decide!))⟩

/-- Instance of C10: the A,B,C,D graph from A to D with the empty heuristic table. -/
theorem C10_witness :
    (∀ n ∈ abcd.nodes, ([] : List (String × ℚ)).lookup n.name = none) ∧
    a_star abcd "A" "D" [] Stats.fresh = dijkstra abcd "A" "D" Stats.fresh ∧
    ∃ r, dijkstra abcd "A" "D" Stats.fresh = some r :=
  ⟨fun _ _ => rfl, (C10_missing_entries abcd "A" "D" [] (fun _ _ => rfl)).1,
    (C10_missing_entries abcd "A" "D" [] (fun _ _ => rfl)).2 (by decide!) (by decide!)
      (by decide!)⟩


/-! ## Closed nodes are final -/

theorem AFrozen.rfl_ (v : Int) (s : AState) : AFrozen v s s := fun hc => ⟨hc, rfl, rfl⟩

theorem AFrozen.trans_ {v : Int} {s1 s2 s3 : AState} (h12 : AFrozen v s1 s2)
    (h23 : AFrozen v s2 s3) : AFrozen v s1 s3 := by
  intro hc
  obtain ⟨c2, g2, p2⟩ := h12 hc
  obtain ⟨c3, g3, p3⟩ := h23 c2
  exact ⟨c3, g3.trans g2, p3.trans p2⟩

theorem aRelax_frozen (h : Int → ℚ) (u v : Int) (s : AState) (e : Edge) :
    AFrozen v s (aRelax h u s e) := by
  intro hc
  refine ⟨(aRelax_cl h u s e v).mpr hc, ?_⟩
  by_cases hfire : ¬ s.cl e.to_ ∧ s.g u + (e.w : Cost) < s.g e.to_
  · have hne : e.to_ ≠ v := fun heq => hfire.1 (heq ▸ hc)
    rw [aRelax_fire h u s e hfire.1 hfire.2]
    unfold AState.g AState.par
    simp only
    exact ⟨vget_vset_ne _ _ _ _ _ hne, vget_vset_ne _ _ _ _ _ hne⟩
  · have hskip : aRelax h u s e = s := by
      apply aRelax_skip
      by_cases hc' : s.cl e.to_
      · exact Or.inl hc'
      · exact Or.inr (fun hlt => hfire ⟨hc', hlt⟩)
    rw [hskip]
    exact ⟨rfl, rfl⟩

theorem aFold_frozen (h : Int → ℚ) (u v : Int) (es : List Edge) (s : AState) :
    AFrozen v s (es.foldl (aRelax h u) s) := by
  induction es generalizing s with
  | nil => exact AFrozen.rfl_ v s
  | cons e es ih => exact (aRelax_frozen h u v s e).trans_ (ih _)

theorem vget_vset_true (closed : List Bool) (u v : Int)
    (hc : vget closed v false = true) : vget (vset closed u true) v false = true := by
  by_cases huv : u = v
  · have hr := inRange_of_vget_ne closed v false (by simp [hc])
    rw [huv]
    exact vget_vset_eq _ _ _ _ hr.1 hr.2
  · rw [vget_vset_ne _ _ _ _ _ huv]
    exact hc

theorem aBody_frozen (g : Graph) (h : Int → ℚ) (goal v : Int) (s : AState) (top : PQItem) :
    AFrozen v s (aBody g h goal s top).1 := by
  have h1 : AFrozen v s (closeS (popS s top) top.2) :=
    fun hc => ⟨vget_vset_true _ _ _ hc, rfl, rfl⟩
  rw [aBody_eq]
  split
  · exact fun hc => ⟨hc, rfl, rfl⟩
  · split
    · exact h1
    · exact h1.trans_ (aFold_frozen h top.2 v _ _)

theorem aHead_frozen {g : Graph} {h : Int → ℚ} {goal : Int} {s s' : AState} (v : Int)
    (hh : AHead g h goal s s') : AFrozen v s s' := by
  induction hh with
  | start => exact AFrozen.rfl_ v s
  | pass _ _ _ ih => exact ih.trans_ (aBody_frozen g h goal v _ _)

theorem aLoop_frozen (g : Graph) (h : Int → ℚ) (goal v : Int) :
    ∀ (fuel : Nat) (s s' : AState), aLoop g h goal fuel s = some s' → AFrozen v s s' := by
  intro fuel
  induction fuel with
  | zero => intro s s' hl; simp [aLoop] at hl
  | succ fuel ih =>
    intro s s' hl
    unfold aLoop at hl
    cases ht : pqTop s.openQ with
    | none =>
      rw [ht] at hl
      simp only [Option.some.injEq] at hl
      rw [← hl]; exact AFrozen.rfl_ v s
    | some top =>
      rw [ht] at hl
      simp only at hl
      cases hb : (aBody g h goal s top).2 with
      | true =>
        rw [hb] at hl
        simp only [↓reduceIte, Option.some.injEq] at hl
        rw [← hl]; exact aBody_frozen g h goal v s top
      | false =>
        rw [hb] at hl
        simp only [Bool.false_eq_true, ↓reduceIte] at hl
        exact (aBody_frozen g h goal v s top).trans_ (ih _ _ hl)

theorem DFrozen.rfl_d (v : Int) (s : DState) : DFrozen v s s := fun hc => ⟨hc, rfl, rfl⟩

theorem DFrozen.trans_d {v : Int} {s1 s2 s3 : DState} (h12 : DFrozen v s1 s2)
    (h23 : DFrozen v s2 s3) : DFrozen v s1 s3 := by
  intro hc
  obtain ⟨c2, g2, p2⟩ := h12 hc
  obtain ⟨c3, g3, p3⟩ := h23 c2
  exact ⟨c3, g3.trans g2, p3.trans p2⟩

theorem dRelax_frozen (u v : Int) (s : DState) (e : Edge) :
    DFrozen v s (dRelax u s e) := by
  intro hc
  unfold dRelax
  split
  · exact ⟨hc, rfl, rfl⟩
  · rename_i hncl
    have hne : e.to_ ≠ v := by
      intro heq
      rw [heq] at hncl
      exact hncl hc
    simp only
    split
    · exact ⟨hc, vget_vset_ne _ _ _ _ _ hne, vget_vset_ne _ _ _ _ _ hne⟩
    · exact ⟨hc, rfl, rfl⟩

theorem dFold_frozen (u v : Int) (es : List Edge) (s : DState) :
    DFrozen v s (es.foldl (dRelax u) s) := by
  induction es generalizing s with
  | nil => exact DFrozen.rfl_d v s
  | cons e es ih => exact (dRelax_frozen u v s e).trans_d (ih _)

theorem dBody_frozen (g : Graph) (goal v : Int) (s : DState) (top : PQItem) :
    DFrozen v s (dBody g goal s top).1 := by
  unfold dBody
  simp only
  split
  · exact fun hc => ⟨hc, rfl, rfl⟩
  · have h1 : DFrozen v s
        { s with openQ := s.openQ.erase top,
                 closed := vset s.closed top.2 true,
                 stats := { expansions := s.stats.expansions + 1,
                            maxFringe := max s.stats.maxFringe s.openQ.length,
                            pathCost := s.stats.pathCost } } :=
      fun hc => ⟨vget_vset_true _ _ _ hc, rfl, rfl⟩
    split
    · exact h1
    · cases g.adj.lookup top.2 with
      | none => exact h1
      | some es => exact h1.trans_d (dFold_frozen top.2 v es _)

theorem dHead_frozen {g : Graph} {goal : Int} {s s' : DState} (v : Int)
    (hh : DHead g goal s s') : DFrozen v s s' := by
  induction hh with
  | start => exact DFrozen.rfl_d v s
  | pass _ _ _ ih => exact ih.trans_d (dBody_frozen g goal v _ _)

theorem dLoop_frozen (g : Graph) (goal v : Int) :
    ∀ (fuel : Nat) (s s' : DState), dLoop g goal fuel s = some s' → DFrozen v s s' := by
  intro fuel
  induction fuel with
  | zero => intro s s' hl; simp [dLoop] at hl
  | succ fuel ih =>
    intro s s' hl
    unfold dLoop at hl
    cases ht : pqTop s.openQ with
    | none =>
      rw [ht] at hl
      simp only [Option.some.injEq] at hl
      rw [← hl]; exact DFrozen.rfl_d v s
    | some top =>
      rw [ht] at hl
      simp only at hl
      cases hb : (dBody g goal s top).2 with
      | true =>
        rw [hb] at hl
        simp only [↓reduceIte, Option.some.injEq] at hl
        rw [← hl]; exact dBody_frozen g goal v s top
      | false =>
        rw [hb] at hl
        simp only [Bool.false_eq_true, ↓reduceIte] at hl
        exact (dBody_frozen g goal v s top).trans_d (ih _ _ hl)

/-- C11: in `a_star` and in `dijkstra`, on every graph and for every heuristic, a node
that is closed keeps its closed flag, its tentative cost (`gCost` / `dist`) and its
parent through every relaxation, every pass of the search loop, every later state at
the head of the loop and up to the state in which the loop stops. -/
theorem C11_closed_final (g : Graph) (h : Int → ℚ) (goal v : Int) :
    (∀ u s e, AFrozen v s (aRelax h u s e)) ∧
    (∀ s top, AFrozen v s (aBody g h goal s top).1) ∧
    (∀ s s', AHead g h goal s s' → AFrozen v s s') ∧
    (∀ fuel s s', aLoop g h goal fuel s = some s' → AFrozen v s s') ∧
    (∀ u s e, DFrozen v s (dRelax u s e)) ∧
    (∀ s top, DFrozen v s (dBody g goal s top).1) ∧
    (∀ s s', DHead g goal s s' → DFrozen v s s') ∧
    (∀ fuel s s', dLoop g goal fuel s = some s' → DFrozen v s s') :=
  ⟨fun u s e => aRelax_frozen h u v s e, fun s top => aBody_frozen g h goal v s top,
    fun _ _ hh => aHead_frozen v hh, aLoop_frozen g h goal v,
    fun u s e => dRelax_frozen u v s e, fun s top => dBody_frozen g goal v s top,
    fun _ _ hh => dHead_frozen v hh, dLoop_frozen g goal v⟩


/-! ## The invariants hold at every head of the loop -/

theorem aHead_inv {g : Graph} {h : Int → ℚ} {start goal : Int} {stats : Stats}
    {s : AState} (hv : ValidArcs g) (hs : InRange g.nodes.length start)
    (hh : AHead g h goal (aInit g h start stats) s) :
    Inv g h start goal stats.expansions none s := by
  induction hh with
  | start => exact Inv.init g h start goal stats hs
  | pass _ ht hb ih => exact ih.pass hv ht hb

theorem aHead_invO {g : Graph} {h : Int → ℚ} {start goal : Int} {stats : Stats}
    {s : AState} (hv : ValidArcs g) (hs : InRange g.nodes.length start)
    (hc : Consistent g h) (hh : AHead g h goal (aInit g h start stats) s) :
    InvO g h start none s := by
  induction hh with
  | start => exact InvO.init_opt g h start stats hs
  | pass hprev ht hb ih => exact InvO.pass_opt hv hc (aHead_inv hv hs hprev) ih ht hb

/-- The run of the loop ends at a head state with an empty frontier or in the pass that
leaves a head state through `break`. -/
theorem aLoop_head (g : Graph) (h : Int → ℚ) (goal : Int) :
    ∀ (fuel : Nat) (s0 s s' : AState), AHead g h goal s0 s →
      aLoop g h goal fuel s = some s' →
      (AHead g h goal s0 s' ∧ s'.openQ = []) ∨
      (∃ s1 top, AHead g h goal s0 s1 ∧ pqTop s1.openQ = some top ∧
        (aBody g h goal s1 top).2 = true ∧ s' = (aBody g h goal s1 top).1) := by
  intro fuel
  induction fuel with
  | zero => intro s0 s s' _ hl; simp [aLoop] at hl
  | succ fuel ih =>
    intro s0 s s' hh hl
    unfold aLoop at hl
    cases ht : pqTop s.openQ with
    | none =>
      rw [ht] at hl
      simp only [Option.some.injEq] at hl
      rw [← hl]
      exact Or.inl ⟨hh, (pqTop_eq_none _).mp ht⟩
    | some top =>
      rw [ht] at hl
      simp only at hl
      cases hb : (aBody g h goal s top).2 with
      | true =>
        rw [hb] at hl
        simp only [↓reduceIte, Option.some.injEq] at hl
        exact Or.inr ⟨s, top, hh, ht, hb, hl.symm⟩
      | false =>
        rw [hb] at hl
        simp only [Bool.false_eq_true, ↓reduceIte] at hl
        exact ih s0 _ s' (AHead.pass hh ht hb) hl

/-- C13 (amended): in exact arithmetic, with valid arcs and a consistent heuristic `h`
(for `a_star`, the function read off the table), when the loop started by `a_star`
expands the node `u` popped at a head
state `s` and meets, after the arcs `done`, an arc `e` of `u` whose target is closed,
then `gCost[e.to] <= gCost[u] + e.w`: the skipped relaxation would not improve. -/
theorem C13_closed_skip_safe (g : Graph) (h : Int → ℚ) (start goal : Int) (stats : Stats)
    (hv : ValidArcs g) (hs : InRange g.nodes.length start) (hc : Consistent g h)
    (s : AState) (top : PQItem) (hh : AHead g h goal (aInit g h start stats) s)
    (ht : pqTop s.openQ = some top) (hncl : ¬ s.cl top.2) (hng : top.2 ≠ goal)
    (done rest : List Edge) (e : Edge) (harcs : arcsOf g top.2 = done ++ e :: rest)
    (hcl : (done.foldl (aRelax h top.2) (closeS (popS s top) top.2)).cl e.to_) :
    (done.foldl (aRelax h top.2) (closeS (popS s top) top.2)).g e.to_ ≤
      (done.foldl (aRelax h top.2) (closeS (popS s top) top.2)).g top.2 + (e.w : Cost) := by
  have hI := aHead_inv hv hs hh
  have hO := aHead_invO hv hs hc hh
  have hmem : ∀ e' ∈ done, e' ∈ arcsOf g top.2 := by
    intro e' he'
    rw [harcs]
    exact List.mem_append_left _ he'
  have he : e ∈ arcsOf g top.2 := by
    rw [harcs]
    exact List.mem_append_right _ (List.mem_cons_self _ _)
  have hI2 := Inv.fold hv done [] _ (hI.close ht hncl hng) hmem
  have hO2 := InvO.fold_opt hv done [] _ (hI.close ht hncl hng)
    (hO.close_opt hc hI ht hncl) hmem
  have hcu := hI2.cur_cl top.2 ([] ++ done) rfl
  obtain ⟨gu, hgu⟩ := WithTop.ne_top_iff_exists.mp (hI2.closed_fin top.2 hcu)
  have hw : Walk g start e.to_ (gu + e.w) := Walk.snoc e (hI2.walk top.2 gu hgu.symm) he
  have := hO2.opt _ hcl _ hw
  rw [← hgu]
  exact_mod_cast this

/-- Instance of C13: on the A,B,C,D graph with the table of the true remaining costs,
the second pass expands B and meets the arc B->A whose target A is closed. -/
theorem C13_witness :
    ValidArcs abcd ∧ InRange abcd.nodes.length 0 ∧
    Consistent abcd (heur abcd [("A", 2), ("B", 1), ("C", 1)]) ∧
    pqTop (aBody abcd (heur abcd [("A", 2), ("B", 1), ("C", 1)]) 3
      (aInit abcd (heur abcd [("A", 2), ("B", 1), ("C", 1)]) 0 Stats.fresh)
      (((2 : ℚ) : Cost), 0)).1.openQ = some (((2 : ℚ) : Cost), 1) ∧
    arcsOf abcd 1 = [] ++ (⟨0, 1, false⟩ : Edge) :: [⟨3, 1, false⟩] ∧
    (([] : List Edge).foldl (aRelax (heur abcd [("A", 2), ("B", 1), ("C", 1)]) 1)
      (closeS (popS (aBody abcd (heur abcd [("A", 2), ("B", 1), ("C", 1)]) 3
        (aInit abcd (heur abcd [("A", 2), ("B", 1), ("C", 1)]) 0 Stats.fresh)
        (((2 : ℚ) : Cost), 0)).1 (((2 : ℚ) : Cost), 1)) 1)).cl 0 ∧
    (([] : List Edge).foldl (aRelax (heur abcd [("A", 2), ("B", 1), ("C", 1)]) 1)
      (closeS (popS (aBody abcd (heur abcd [("A", 2), ("B", 1), ("C", 1)]) 3
        (aInit abcd (heur abcd [("A", 2), ("B", 1), ("C", 1)]) 0 Stats.fresh)
        (((2 : ℚ) : Cost), 0)).1 (((2 : ℚ) : Cost), 1)) 1)).g 0 ≤
    (([] : List Edge).foldl (aRelax (heur abcd [("A", 2), ("B", 1), ("C", 1)]) 1)
      (closeS (popS (aBody abcd (heur abcd [("A", 2), ("B", 1), ("C", 1)]) 3
        (aInit abcd (heur abcd [("A", 2), ("B", 1), ("C", 1)]) 0 Stats.fresh)
        (((2 : ℚ) : Cost), 0)).1 (((2 : ℚ) : Cost), 1)) 1)).g 1 +
      (((1 : ℚ)) : Cost) :=
  ⟨by decide!, by decide!, by decide!, by decide!, by decide!, by decide!,
    C13_closed_skip_safe abcd (heur abcd [("A", 2), ("B", 1), ("C", 1)]) 0 3 Stats.fresh
      (by decide!) (by decide!) (by decide!) _ (((2 : ℚ) : Cost), 1)
      (AHead.pass AHead.start (by decide!) (by decide!)) (by decide!) (by decide!)
      (by decide!) [] [⟨3, 1, false⟩] ⟨0, 1, false⟩ (by decide!) (by decide!)⟩

theorem nodup_chain_ne (l : List Int) (h : l.Nodup) : List.Chain' (fun a b => a ≠ b) l :=
  List.Pairwise.chain' h

/-- C14: on a graph with valid arcs (self-loops allowed), for known start and goal and
any heuristic table, the path returned by `a_star` and by `dijkstra` has no repeated
node, so consecutive nodes differ (no self-loop is traversed), it has at most
`nodes.size()` elements, and unless empty it begins at start: the walk along the parent
links reaches start within `nodes.size()` steps. -/
theorem C14_no_repeated_node (g : Graph) (startName goalName : String)
    (hmap : List (String × ℚ)) (stats : Stats) (hv : ValidArcs g)
    (hs : InRange g.nodes.length (findId g startName))
    (hg : InRange g.nodes.length (findId g goalName)) :
    (∃ path st, a_star g startName goalName hmap stats = some (path, st) ∧ path.Nodup ∧
      List.Chain' (fun a b => a ≠ b) path ∧ path.length ≤ g.nodes.length ∧
      (path = [] ∨ path.head? = some (findId g startName))) ∧
    (∃ path st, dijkstra g startName goalName stats = some (path, st) ∧ path.Nodup ∧
      List.Chain' (fun a b => a ≠ b) path ∧ path.length ≤ g.nodes.length ∧
      (path = [] ∨ path.head? = some (findId g startName))) := by
  by_cases hr : Reachable g (findId g startName) (findId g goalName)
  · obtain ⟨pa, sa, _, a1, a2, _, _, a4, a5, _⟩ :=
      a_star_reachable g startName goalName hmap stats hv hs hg.1 hr
    obtain ⟨pd, sd, _, d1, d2, _, _, d4, d5, _⟩ :=
      dijkstra_reachable g startName goalName stats hv hs hg.1 hr
    exact ⟨⟨pa, sa, a1, a4, nodup_chain_ne pa a4, a5, Or.inr a2⟩,
      ⟨pd, sd, d1, d4, nodup_chain_ne pd d4, d5, Or.inr d2⟩⟩
  · obtain ⟨sa, a1, _⟩ := a_star_unreachable g startName goalName hmap stats hv hs hg.1 hr
    obtain ⟨sd, d1, _⟩ := dijkstra_unreachable g startName goalName stats hv hs hg.1 hr
    exact ⟨⟨[], sa, a1, List.nodup_nil, List.chain'_nil, Nat.zero_le _, Or.inl rfl⟩,
      ⟨[], sd, d1, List.nodup_nil, List.chain'_nil, Nat.zero_le _, Or.inl rfl⟩⟩

/-- Instance of C14: the A,B,C,D graph with the self-loop A->A of weight 3, from A to D
with the inadmissible entry h(C) = 100. -/
theorem C14_witness :
    ValidArcs loopy ∧
    InRange loopy.nodes.length (findId loopy "A") ∧
    InRange loopy.nodes.length (findId loopy "D") ∧
    ((∃ path st, a_star loopy "A" "D" [("C", 100)] Stats.fresh = some (path, st) ∧
      path.Nodup ∧ List.Chain' (fun a b => a ≠ b) path ∧
      path.length ≤ loopy.nodes.length ∧
      (path = [] ∨ path.head? = some (findId loopy "A"))) ∧
    (∃ path st, dijkstra loopy "A" "D" Stats.fresh = some (path, st) ∧ path.Nodup ∧
      List.Chain' (fun a b => a ≠ b) path ∧ path.length ≤ loopy.nodes.length ∧
      (path = [] ∨ path.head? = some (findId loopy "A")))) :=
  ⟨by decide!, by decide!, by decide!,
    C14_no_repeated_node loopy "A" "D" [("C", 100)] Stats.fresh (by decide!) (by decide!)
      (by decide!)⟩


/-! ## The graph store -/

theorem lookup_mapSet_eq {κ α : Type} [DecidableEq κ] (m : List (κ × α)) (k : κ) (a : α) :
    (mapSet m k a).lookup k = some a := by
  induction m with
  | nil => simp [mapSet, List.lookup]
  | cons p rest ih =>
    obtain ⟨k0, a0⟩ := p
    unfold mapSet
    by_cases hk : k0 = k
    · simp [hk, List.lookup]
    · have hb : (k == k0) = false := by simpa using fun h => hk h.symm
      simp only [hk, ↓reduceIte, List.lookup, hb]
      exact ih

theorem lookup_mapSet_ne {κ α : Type} [DecidableEq κ] (m : List (κ × α)) (k k' : κ) (a : α)
    (hne : k' ≠ k) : (mapSet m k a).lookup k' = m.lookup k' := by
  induction m with
  | nil =>
    have hb : (k' == k) = false := by simpa using hne
    simp [mapSet, List.lookup, hb]
  | cons p rest ih =>
    obtain ⟨k0, a0⟩ := p
    unfold mapSet
    by_cases hk : k0 = k
    · have hb : (k' == k0) = false := by simpa [hk] using hne
      simp only [hk, ↓reduceIte, List.lookup]
      rw [← hk] at *
      simp [hb]
    · simp only [hk, ↓reduceIte, List.lookup]
      cases (k' == k0)
      · exact ih
      · rfl

theorem lookup_adjPush (adj : List (Int × List Edge)) (u x : Int) (e : Edge) :
    (adjPush adj u e).lookup x =
      if x = u then some ((adj.lookup u).getD [] ++ [e]) else adj.lookup x := by
  unfold adjPush
  split
  · rename_i hx
    rw [hx]
    exact lookup_mapSet_eq _ _ _
  · rename_i hx
    exact lookup_mapSet_ne _ _ _ _ hx

theorem getD_lookup_adjPush (adj : List (Int × List Edge)) (u x : Int) (e : Edge) :
    ((adjPush adj u e).lookup x).getD [] =
      (adj.lookup x).getD [] ++ (if x = u then [e] else []) := by
  rw [lookup_adjPush]
  split
  · rename_i hx
    rw [hx]
    simp
  · simp

/-- C15: `addEdge(u, v, w, directed)` appends the arc to `v` at the end of the list of
`u` and, when `directed` is false, the arc to `u` at the end of the list of `v`; every
list keeps the arcs it had, in order; the keys other than `u` (and `v` when undirected)
keep their entry; `nodes` and `nameToId` are unchanged. -/
theorem C15_addEdge_appends (g : Graph) (u v : Int) (w : ℚ) (directed : Bool) :
    (∀ x, arcsOf (g.addEdge u v w directed) x =
      arcsOf g x ++ (if x = u then [⟨v, w, directed⟩] else []) ++
        (if directed = false ∧ x = v then [⟨u, w, directed⟩] else [])) ∧
    (∀ x, x ≠ u → (directed = true ∨ x ≠ v) →
      (g.addEdge u v w directed).adj.lookup x = g.adj.lookup x) ∧
    (g.addEdge u v w directed).nodes = g.nodes ∧
    (g.addEdge u v w directed).nameToId = g.nameToId := by
  refine ⟨?_, ?_, rfl, rfl⟩
  · intro x
    unfold arcsOf Graph.addEdge
    cases directed with
    | true => simp [getD_lookup_adjPush]
    | false =>
      simp only [Bool.not_false, ↓reduceIte, getD_lookup_adjPush, true_and]
  · intro x hxu hxv
    unfold Graph.addEdge
    cases directed with
    | true =>
      simp only [Bool.not_true, Bool.false_eq_true, ↓reduceIte, lookup_adjPush, hxu]
    | false =>
      have hxv' : x ≠ v := by
        rcases hxv with h | h
        · cases h
        · exact h
      simp only [Bool.not_false, ↓reduceIte, lookup_adjPush, hxu, hxv']

theorem addNode_length (g : Graph) (id : Int) (name : String) (x y : ℚ) (h0 : 0 ≤ id) :
    (g.addNode id name x y).nodes.length = max g.nodes.length (id + 1).toNat := by
  unfold Graph.addNode
  simp only [length_vset]
  split
  · simp only [List.length_append, List.length_replicate]
    omega
  · omega

theorem addNode_at (g : Graph) (id : Int) (name : String) (x y : ℚ) (h0 : 0 ≤ id) :
    (g.addNode id name x y).nodes[id.toNat]? = some ⟨id, name, x, y⟩ := by
  unfold Graph.addNode vset
  have hn : ¬ id < 0 := by omega
  simp only [hn, ↓reduceIte]
  split
  · rw [List.getElem?_set]
    simp only [List.length_append, List.length_replicate, ↓reduceIte]
    split
    · rfl
    · omega
  · rw [List.getElem?_set]
    simp only [↓reduceIte]
    split
    · rfl
    · omega

theorem vset_getElem_ne {α : Type} (v : List α) (id : Int) (a : α) (i : Nat)
    (hne : i ≠ id.toNat) : (vset v id a)[i]? = v[i]? := by
  unfold vset
  split
  · rfl
  · rw [List.getElem?_set]
    simp [Ne.symm hne]

theorem addNode_other (g : Graph) (id : Int) (name : String) (x y : ℚ) (i : Nat)
    (hi : i < g.nodes.length) (hne : i ≠ id.toNat) :
    (g.addNode id name x y).nodes[i]? = g.nodes[i]? := by
  unfold Graph.addNode
  simp only
  rw [vset_getElem_ne _ _ _ _ hne]
  split
  · exact List.getElem?_append_left hi
  · rfl

theorem addNode_lookup (g : Graph) (id : Int) (name : String) (x y : ℚ) (name' : String) :
    (g.addNode id name x y).nameToId.lookup name' =
      if name' = name then some id else g.nameToId.lookup name' := by
  unfold Graph.addNode
  simp only
  split
  · rename_i hn
    rw [hn]
    exact lookup_mapSet_eq _ _ _
  · rename_i hn
    exact lookup_mapSet_ne _ _ _ _ hn

theorem addNodes_length (l : List (Int × String × ℚ × ℚ)) :
    ∀ g : Graph, (∀ p ∈ l, 0 ≤ p.1) → (addNodes g l).nodes.length = sizeAfter g.nodes.length l := by
  induction l with
  | nil => intro g _; rfl
  | cons p rest ih =>
    intro g hp
    unfold addNodes sizeAfter
    rw [ih _ (fun q hq => hp q (List.mem_cons_of_mem _ hq))]
    rw [addNode_length g _ _ _ _ (hp p (List.mem_cons_self _ _))]
    rfl

theorem sizeAfter_spec (l : List (Int × String × ℚ × ℚ)) :
    ∀ n : Nat, n ≤ sizeAfter n l ∧ (∀ q ∈ l, (q.1 + 1).toNat ≤ sizeAfter n l) ∧
      (sizeAfter n l = n ∨ ∃ p ∈ l, sizeAfter n l = (p.1 + 1).toNat) := by
  induction l with
  | nil => intro n; simp [sizeAfter]
  | cons p rest ih =>
    intro n
    have hstep : sizeAfter n (p :: rest) = sizeAfter (max n (p.1 + 1).toNat) rest := rfl
    obtain ⟨h1, h2, h3⟩ := ih (max n (p.1 + 1).toNat)
    rw [hstep]
    refine ⟨by omega, ?_, ?_⟩
    · intro q hq
      rcases List.mem_cons.mp hq with rfl | hq
      · omega
      · exact h2 q hq
    · rcases h3 with h3 | ⟨p', hp', h3⟩
      · rcases le_total n (p.1 + 1).toNat with hle | hle
        · right
          exact ⟨p, List.mem_cons_self _ _, by rw [h3]; exact max_eq_right hle⟩
        · left
          rw [h3]; exact max_eq_left hle
      · right
        exact ⟨p', List.mem_cons_of_mem _ hp', h3⟩

/-- C16: `addNode(id, name, x, y)` with `id >= 0` makes `nodes.size()` the larger of the
old size and `id + 1`, stores `(id, name, x, y)` in slot `id`, keeps every other slot
that existed, maps `name` to `id` and keeps the other names of `nameToId`, and keeps
`adj`; after a non-empty sequence of such calls on the empty graph `nodes.size()` is
one more than the largest id of the sequence. -/
theorem C16_addNode (g : Graph) (id : Int) (name : String) (x y : ℚ) (h0 : 0 ≤ id) :
    (g.addNode id name x y).nodes.length = max g.nodes.length (id + 1).toNat ∧
    (g.addNode id name x y).nodes[id.toNat]? = some ⟨id, name, x, y⟩ ∧
    (∀ i, i < g.nodes.length → i ≠ id.toNat →
      (g.addNode id name x y).nodes[i]? = g.nodes[i]?) ∧
    (g.addNode id name x y).nameToId.lookup name = some id ∧
    (∀ name', name' ≠ name →
      (g.addNode id name x y).nameToId.lookup name' = g.nameToId.lookup name') ∧
    (g.addNode id name x y).adj = g.adj ∧
    (∀ l : List (Int × String × ℚ × ℚ), l ≠ [] → (∀ p ∈ l, 0 ≤ p.1) →
      ∃ p ∈ l, (∀ q ∈ l, q.1 ≤ p.1) ∧
        ((addNodes Graph.empty l).nodes.length : Int) = p.1 + 1) := by
  refine ⟨addNode_length g id name x y h0, addNode_at g id name x y h0,
    fun i hi hne => addNode_other g id name x y i hi hne, ?_, ?_, rfl, ?_⟩
  · rw [addNode_lookup]; simp
  · intro name' hne
    rw [addNode_lookup]; simp [hne]
  · intro l hl hpos
    have hlen := addNodes_length l Graph.empty hpos
    obtain ⟨_, h2, h3⟩ := sizeAfter_spec l Graph.empty.nodes.length
    have hempty : Graph.empty.nodes.length = 0 := rfl
    rw [hempty] at hlen h2 h3
    obtain ⟨q0, hq0⟩ := List.exists_mem_of_ne_nil l hl
    have hq0' := h2 q0 hq0
    have hq0pos := hpos q0 hq0
    rcases h3 with h3 | ⟨p, hp, h3⟩
    · omega
    · refine ⟨p, hp, ?_, ?_⟩
      · intro q hq
        have := h2 q hq
        have := hpos q hq
        have := hpos p hp
        omega
      · have := hpos p hp
        omega

/-- Instance of C16: inserting id 5 into the four-node graph, and a sequence of calls
with ids 2, 0, 4. -/
theorem C16_witness :
    (0 : Int) ≤ 5 ∧
    (abcd.addNode 5 "F" 1 2).nodes.length = max abcd.nodes.length ((5 : Int) + 1).toNat ∧
    (abcd.addNode 5 "F" 1 2).nodes[(5 : Int).toNat]? = some ⟨5, "F", 1, 2⟩ ∧
    (∀ i, i < abcd.nodes.length → i ≠ (5 : Int).toNat →
      (abcd.addNode 5 "F" 1 2).nodes[i]? = abcd.nodes[i]?) ∧
    (abcd.addNode 5 "F" 1 2).nameToId.lookup "F" = some 5 ∧
    (∀ name', name' ≠ "F" →
      (abcd.addNode 5 "F" 1 2).nameToId.lookup name' = abcd.nameToId.lookup name') ∧
    (abcd.addNode 5 "F" 1 2).adj = abcd.adj ∧
    (∀ l : List (Int × String × ℚ × ℚ), l ≠ [] → (∀ p ∈ l, 0 ≤ p.1) →
      ∃ p ∈ l, (∀ q ∈ l, q.1 ≤ p.1) ∧
        ((addNodes Graph.empty l).nodes.length : Int) = p.1 + 1) :=
  ⟨by decide, C16_addNode abcd 5 "F" 1 2 (by decide)⟩


/-! ## Name lookup against the node table -/

/-- Every name of `nameToId` points to a slot of `nodes` that bears this name. -/
theorem addNodes_names (l : List (Int × String × ℚ × ℚ)) :
    ∀ g : Graph, (∀ p ∈ l, 0 ≤ p.1) → (l.map (fun p => p.1)).Nodup →
      (∀ name i, g.nameToId.lookup name = some i → i ∉ l.map (fun p => p.1)) →
      (∀ name i, g.nameToId.lookup name = some i →
        0 ≤ i ∧ ∃ n, g.nodes[i.toNat]? = some n ∧ n.name = name) →
      ∀ name i, (addNodes g l).nameToId.lookup name = some i →
        0 ≤ i ∧ ∃ n, (addNodes g l).nodes[i.toNat]? = some n ∧ n.name = name := by
  induction l with
  | nil => intro g _ _ _ hP; exact hP
  | cons p rest ih =>
    intro g hpos hnd hfresh hP
    have hp0 : 0 ≤ p.1 := hpos p (List.mem_cons_self _ _)
    have hnd' : p.1 ∉ rest.map (fun q => q.1) ∧ (rest.map (fun q => q.1)).Nodup := by
      simpa using hnd
    unfold addNodes
    apply ih (g.addNode p.1 p.2.1 p.2.2.1 p.2.2.2)
      (fun q hq => hpos q (List.mem_cons_of_mem _ hq)) hnd'.2
    · intro name i hlk
      rw [addNode_lookup] at hlk
      split at hlk
      · simp only [Option.some.injEq] at hlk
        rw [← hlk]; exact hnd'.1
      · intro hin
        exact hfresh name i hlk (by simp only [List.map_cons, List.mem_cons]; exact Or.inr hin)
    · intro name i hlk
      rw [addNode_lookup] at hlk
      split at hlk
      · rename_i hname
        simp only [Option.some.injEq] at hlk
        rw [← hlk]
        exact ⟨hp0, _, addNode_at g p.1 p.2.1 p.2.2.1 p.2.2.2 hp0, hname.symm⟩
      · obtain ⟨hi0, n, hn, hname⟩ := hP name i hlk
        refine ⟨hi0, n, ?_, hname⟩
        have hne : i ≠ p.1 := by
          intro heq
          exact hfresh name i hlk (by simp [heq])
        have hlt : i.toNat < g.nodes.length := by
          by_contra hge
          rw [List.getElem?_eq_none (by omega)] at hn
          cases hn
        rw [addNode_other g _ _ _ _ _ hlt (by omega)]
        exact hn

/-- C17 (as stated, refuted): after `addNode(0, "A")` and `addNode(0, "B")` the lookup
of "A" still returns id 0, although `nodes[0].name` is "B" and no stored node bears the
name "A". -/
theorem C17_stale_name :
    findId ((Graph.empty.addNode 0 "A" 0 0).addNode 0 "B" 0 0) "A" = 0 ∧
    ((Graph.empty.addNode 0 "A" 0 0).addNode 0 "B" 0 0).nodes[0]? = some ⟨0, "B", 0, 0⟩ ∧
    (∀ n ∈ ((Graph.empty.addNode 0 "A" 0 0).addNode 0 "B" 0 0).nodes, n.name ≠ "A") ∧
    findId ((Graph.empty.addNode 0 "A" 0 0).addNode 0 "B" 0 0) "A" ≠ -1 := by
  decide!

/-- C17 (amended): for the graph produced from the empty graph by `addNode` calls with
non-negative, pairwise distinct ids (names may repeat), `findId` returns an id other
than -1 only if the node in that slot bears the looked-up name, and returns -1 whenever
no stored node bears that name. -/
theorem C17_lookup_agrees (l : List (Int × String × ℚ × ℚ)) (name : String)
    (hpos : ∀ p ∈ l, 0 ≤ p.1) (hnd : (l.map (fun p => p.1)).Nodup) :
    (findId (addNodes Graph.empty l) name ≠ -1 →
      0 ≤ findId (addNodes Graph.empty l) name ∧
      ∃ n, (addNodes Graph.empty l).nodes[(findId (addNodes Graph.empty l) name).toNat]? =
        some n ∧ n.name = name) ∧
    ((∀ n ∈ (addNodes Graph.empty l).nodes, n.name ≠ name) →
      findId (addNodes Graph.empty l) name = -1) := by
  have hkey := addNodes_names l Graph.empty hpos hnd
    (fun _ _ h => by simp [Graph.empty, List.lookup] at h)
    (fun _ _ h => by simp [Graph.empty, List.lookup] at h)
  constructor
  · intro hne
    unfold findId at hne ⊢
    cases hlk : (addNodes Graph.empty l).nameToId.lookup name with
    | none => rw [hlk] at hne; exact absurd rfl hne
    | some i => exact hkey name i hlk
  · intro hnone
    unfold findId
    cases hlk : (addNodes Graph.empty l).nameToId.lookup name with
    | none => rfl
    | some i =>
      obtain ⟨_, n, hn, hname⟩ := hkey name i hlk
      exact absurd hname (hnone n (List.getElem?_mem hn))

/-- Instance of the amended C17: ids 2, 0, 4 with the name "A" used twice; "A" is found
in a slot that bears it, and "Z", borne by no node, is not found. -/
theorem C17_witness :
    (∀ p ∈ [((2 : Int), "A", (0 : ℚ), (0 : ℚ)), (0, "B", 0, 0), (4, "A", 0, 0)], 0 ≤ p.1) ∧
    ([((2 : Int), "A", (0 : ℚ), (0 : ℚ)), (0, "B", 0, 0), (4, "A", 0, 0)].map
      (fun p => p.1)).Nodup ∧
    findId (addNodes Graph.empty [(2, "A", 0, 0), (0, "B", 0, 0), (4, "A", 0, 0)]) "A" ≠ -1 ∧
    (0 ≤ findId (addNodes Graph.empty [(2, "A", 0, 0), (0, "B", 0, 0), (4, "A", 0, 0)]) "A" ∧
      ∃ n, (addNodes Graph.empty [(2, "A", 0, 0), (0, "B", 0, 0), (4, "A", 0, 0)]).nodes[
        (findId (addNodes Graph.empty
          [(2, "A", 0, 0), (0, "B", 0, 0), (4, "A", 0, 0)]) "A").toNat]? =
        some n ∧ n.name = "A") ∧
    (∀ n ∈ (addNodes Graph.empty [(2, "A", 0, 0), (0, "B", 0, 0), (4, "A", 0, 0)]).nodes,
        n.name ≠ "Z") ∧
    findId (addNodes Graph.empty [(2, "A", 0, 0), (0, "B", 0, 0), (4, "A", 0, 0)]) "Z" = -1 :=
  ⟨by decide, by decide, by decide!,
    (C17_lookup_agrees [(2, "A", 0, 0), (0, "B", 0, 0), (4, "A", 0, 0)] "A" (by decide)
      (by decide)).1 (by decide!),
    by decide!,
    (C17_lookup_agrees [(2, "A", 0, 0), (0, "B", 0, 0), (4, "A", 0, 0)] "Z" (by decide)
      (by decide)).2 (by decide!)⟩


/-! ## The map-based solvers on concrete inputs -/

theorem hapart_walk {u v : Int} (hw : HWalk hapart u v) (hu : u = 0) : v = 0 := by
  induction hw with
  | nil => exact hu
  | snoc e hw he ih =>
    rw [ih] at he
    have hl : (hapart.adj.lookup 0).getD [] = [((0 : Int), (1 : ℚ))] := by decide!
    rw [hl] at he
    simp only [List.mem_singleton] at he
    rw [he]

/-- C12 (failing input): on the arcs 0->1 (1), 0->2 (3), 1->2 (1), 2->3 (10), 3->0 (1)
with heuristic 5 at node 1 and 0 elsewhere, from 0 to 3, both map-based solvers close
node 2 in the second pass with cost 3 and parent 0, and the third pass, which expands
node 1, overwrites the cost of the closed node 2 with 2 and its parent with 1. -/
theorem C12_closed_node_rewritten :
    (lSteps ldetour [(0, 0), (1, 5), (2, 0), (3, 0)] 3 2 (lInit ldetour 0 0)).map (lView 2) =
      .ok (true, ((3 : ℚ) : Cost), 0) ∧
    (lSteps ldetour [(0, 0), (1, 5), (2, 0), (3, 0)] 3 3 (lInit ldetour 0 0)).map (lView 2) =
      .ok (true, ((2 : ℚ) : Cost), 1) ∧
    (hSteps hdetour hFive 3 2 (hInit hdetour hFive 0 3)).map (hView 2) =
      .ok (true, ((3 : ℚ) : Cost), 0) ∧
    (hSteps hdetour hFive 3 3 (hInit hdetour hFive 0 3)).map (hView 2) =
      .ok (true, ((2 : ℚ) : Cost), 1) := by
  decide!

/-- C18 (failing input): on the arcs 0->1 (1), 1->0 (1), from 0 to 1, `astar` raises
`std::out_of_range` when `H` has no entry for the relaxed node 1 and when `H` has no
entry for start, while with the entries filled with 0 it returns the path `[0, 1]`. -/
theorem C18_missing_entry_raises :
    astar lpair 0 1 [(0, 0)] = .outOfRange ∧
    astar lpair 0 1 [] = .outOfRange ∧
    astar lpair 0 1 [(0, 0), (1, 0)] = .ok [0, 1] := by
  decide!

/-- C19 (failing input): on the map with the single arc 0->1 of weight 1, with `H`
holding an entry for 0 and for 1, the goal 1 is reachable from the start 0 and `astar`
returns the empty path: node 1 is not a key of the map, so `g[1]` starts at 0. -/
theorem C19_sink_goal_missed :
    (∀ p ∈ lsink, ∀ e ∈ p.2, 0 < e.w) ∧
    (∀ p ∈ lsink, ([(0, 0), (1, 0)] : List (Int × ℚ)).lookup p.1 ≠ none ∧
      ∀ e ∈ p.2, ([(0, 0), (1, 0)] : List (Int × ℚ)).lookup e.to_ ≠ none) ∧
    LWalk lsink 0 1 ∧
    mget (lInit lsink 0 0).g 1 0 = 0 ∧
    astar lsink 0 1 [(0, 0), (1, 0)] = .ok [] := by
  refine ⟨by decide!, by decide!, ?_, by decide!, by decide!⟩
  exact LWalk.snoc ⟨1, 1⟩ (LWalk.nil 0) (by decide!)

/-- C20 (failing input): on the graph with nodes 0 and 1 (`nodes[i].id = i`, an
adjacency entry for each) and the arcs 0->0 and 1->0, the node 1 is not reachable from
node 0 and `aStar` from 0 to 1 returns the one-node path `[0]` with cost `1e18`. -/
theorem C20_unreachable_returns_start :
    hapart.nodes.map (fun n => n.id) = [0, 1] ∧
    (∀ n ∈ hapart.nodes, hapart.adj.lookup n.id ≠ none) ∧
    ¬ HWalk hapart 0 1 ∧
    aStar hapart 0 1 hZero = .ok ([0], hInf, 1) := by
  refine ⟨by decide!, by decide!, ?_, by decide!⟩
  intro hw
  have := hapart_walk hw rfl
  omega


/-! ## Statistics of a run -/

theorem aBody_maxFringe (g : Graph) (h : Int → ℚ) (goal : Int) (s : AState) (top : PQItem) :
    (aBody g h goal s top).1.stats.maxFringe = max s.stats.maxFringe s.openQ.length := by
  rw [aBody_eq]
  split
  · rfl
  · split
    · rfl
    · simp only
      rw [fold_stats]
      rfl

theorem maxOf_cons (n : Nat) (l : List Nat) : maxOf (n :: l) = max n (maxOf l) := rfl

theorem maxOf_le (B : Nat) (l : List Nat) (hl : ∀ n ∈ l, n ≤ B) : maxOf l ≤ B := by
  induction l with
  | nil => exact Nat.zero_le _
  | cons a l ih =>
    rw [maxOf_cons]
    exact max_le (hl a (List.mem_cons_self _ _))
      (ih (fun n hn => hl n (List.mem_cons_of_mem _ hn)))

theorem aFringes_succ (g : Graph) (h : Int → ℚ) (goal : Int) (fuel : Nat) (s : AState)
    (top : PQItem) (ht : pqTop s.openQ = some top) :
    aFringes g h goal (fuel + 1) s =
      s.openQ.length :: (if (aBody g h goal s top).2 then []
        else aFringes g h goal fuel (aBody g h goal s top).1) := by
  rw [aFringes, ht]

theorem aFringes_none (g : Graph) (h : Int → ℚ) (goal : Int) (fuel : Nat) (s : AState)
    (ht : pqTop s.openQ = none) : aFringes g h goal fuel s = [] := by
  cases fuel with
  | zero => rfl
  | succ fuel =>
    unfold aFringes
    rw [ht]

theorem aLoop_succ (g : Graph) (h : Int → ℚ) (goal : Int) (fuel : Nat) (s : AState)
    (top : PQItem) (ht : pqTop s.openQ = some top) :
    aLoop g h goal (fuel + 1) s =
      if (aBody g h goal s top).2 then some (aBody g h goal s top).1
      else aLoop g h goal fuel (aBody g h goal s top).1 := by
  rw [aLoop, ht]

theorem aLoop_none (g : Graph) (h : Int → ℚ) (goal : Int) (fuel : Nat) (s : AState)
    (ht : pqTop s.openQ = none) : aLoop g h goal (fuel + 1) s = some s := by
  unfold aLoop
  rw [ht]

/-- The final value of `stats.maxFringe` is the largest of its value on entry and of the
frontier sizes met at the head of the passes. -/
theorem aLoop_fringe (g : Graph) (h : Int → ℚ) (goal : Int) :
    ∀ (fuel : Nat) (s sf : AState), aLoop g h goal fuel s = some sf →
      sf.stats.maxFringe = max s.stats.maxFringe (maxOf (aFringes g h goal fuel s)) := by
  intro fuel
  induction fuel with
  | zero => intro s sf hl; simp [aLoop] at hl
  | succ fuel ih =>
    intro s sf hl
    cases ht : pqTop s.openQ with
    | none =>
      rw [aLoop_none g h goal fuel s ht] at hl
      simp only [Option.some.injEq] at hl
      rw [← hl, aFringes_none g h goal _ s ht]
      simp [maxOf]
    | some top =>
      rw [aLoop_succ g h goal fuel s top ht] at hl
      rw [aFringes_succ g h goal fuel s top ht, maxOf_cons]
      cases hb : (aBody g h goal s top).2 with
      | true =>
        rw [hb] at hl
        simp only [↓reduceIte, Option.some.injEq] at hl
        rw [← hl, aBody_maxFringe]
        simp [maxOf]
      | false =>
        rw [hb] at hl
        simp only [Bool.false_eq_true, ↓reduceIte] at hl ⊢
        rw [ih _ _ hl, aBody_maxFringe, Nat.max_assoc]

/-- Every pass pops one entry and lowers the potential `phi`: the passes made and the
entries left in the frontier are together at most `phi`, and so is every frontier size
met at the head of a pass. -/
theorem aLoop_passes {g : Graph} {h : Int → ℚ} {start goal : Int} {e0 : Nat}
    (hv : ValidArcs g) :
    ∀ (fuel : Nat) (s : AState), Inv g h start goal e0 none s → phi g s < fuel →
      ∃ sf, aLoop g h goal fuel s = some sf ∧
        (aFringes g h goal fuel s).length + sf.openQ.length ≤ phi g s ∧
        ∀ n ∈ aFringes g h goal fuel s, n ≤ phi g s := by
  intro fuel
  induction fuel with
  | zero => intro s _ hlt; omega
  | succ fuel ih =>
    intro s hI hlt
    have hlen : s.openQ.length ≤ phi g s := by unfold phi; omega
    cases ht : pqTop s.openQ with
    | none =>
      refine ⟨s, aLoop_none g h goal fuel s ht, ?_, ?_⟩
      · rw [aFringes_none g h goal _ s ht]
        simpa using hlen
      · rw [aFringes_none g h goal _ s ht]
        intro n hn
        cases hn
    | some top =>
      have htm : top ∈ s.openQ := pqTop_mem _ _ ht
      have hpop : (s.openQ.erase top).length + 1 = s.openQ.length := by
        rw [List.length_erase_of_mem htm]
        have : 0 < s.openQ.length := List.length_pos_of_mem htm
        omega
      rw [aLoop_succ g h goal fuel s top ht, aFringes_succ g h goal fuel s top ht]
      cases hb : (aBody g h goal s top).2 with
      | true =>
        simp only [↓reduceIte]
        refine ⟨_, rfl, ?_, ?_⟩
        · have hq : (aBody g h goal s top).1.openQ = s.openQ.erase top := by
            rw [aBody_eq] at hb ⊢
            by_cases hcl : vget s.closed top.2 false = true
            · rw [if_pos hcl] at hb
              cases hb
            · by_cases hg : top.2 = goal
              · rw [if_neg hcl, if_pos hg]
                rfl
              · rw [if_neg hcl, if_neg hg] at hb
                cases hb
          rw [hq]
          simp only [List.length_singleton]
          omega
        · intro n hn
          simp only [List.mem_singleton] at hn
          omega
      | false =>
        simp only [Bool.false_eq_true, ↓reduceIte]
        have hphi := phi_pass hI ht hb
        obtain ⟨sf, hrun, h1, h2⟩ := ih _ (hI.pass hv ht hb) (by omega)
        refine ⟨sf, hrun, ?_, ?_⟩
        · simp only [List.length_cons]
          omega
        · intro n hn
          rcases List.mem_cons.mp hn with hn | hn
          · omega
          · have := h2 n hn
            omega

theorem aFinish_stats (g : Graph) (start goal : Int) (s : AState) (r : List Int × Stats)
    (h : aFinish g start goal s = some r) :
    r.2.expansions = s.stats.expansions ∧ r.2.maxFringe = s.stats.maxFringe := by
  unfold aFinish at h
  split at h
  · cases h
    exact ⟨rfl, rfl⟩
  · split at h
    · cases h
    · cases h
      exact ⟨rfl, rfl⟩

theorem dFinish_stats (g : Graph) (start goal : Int) (s : DState) (r : List Int × Stats)
    (h : dFinish g start goal s = some r) :
    r.2.expansions = s.stats.expansions ∧ r.2.maxFringe = s.stats.maxFringe := by
  unfold dFinish at h
  simp only at h
  split at h
  · cases h
    exact ⟨rfl, rfl⟩
  · split at h
    · cases h
    · cases h
      exact ⟨rfl, rfl⟩

theorem dFringes_toD (g : Graph) (h : Int → ℚ) (h0 : ∀ v, h v = 0) (goal : Int) :
    ∀ (fuel : Nat) (s : AState), dFringes g goal fuel s.toD = aFringes g h goal fuel s := by
  intro fuel
  induction fuel with
  | zero => intro s; rfl
  | succ fuel ih =>
    intro s
    unfold dFringes aFringes
    have hq : s.toD.openQ = s.openQ := rfl
    rw [hq]
    cases pqTop s.openQ with
    | none => rfl
    | some top =>
      simp only
      rw [dBody_toD g h h0 goal s top]
      simp only
      cases (aBody g h goal s top).2 with
      | true => rfl
      | false =>
        simp only [Bool.false_eq_true, ↓reduceIte]
        rw [ih]

theorem aHead_toD {g : Graph} {h : Int → ℚ} (h0 : ∀ v, h v = 0) {goal : Int}
    {s0 s : AState} (hh : AHead g h goal s0 s) : DHead g goal s0.toD s.toD := by
  induction hh with
  | start => exact DHead.start
  | @pass s' top _ ht hb ih =>
    have hq : pqTop s'.toD.openQ = some top := ht
    have hbd := dBody_toD g h h0 goal s' top
    have h2 : (dBody g goal s'.toD top).2 = false := by rw [hbd]; exact hb
    have h1 : (dBody g goal s'.toD top).1 = (aBody g h goal s' top).1.toD := by rw [hbd]
    rw [← h1]
    exact DHead.pass ih hq h2

/-- The run of the search loop on a graph with valid arcs from a start inside the node
vector, with fresh `stats`: the loop and both epilogues return; `maxFringe` is the
largest frontier size met at the head of a pass; `expansions` is the number of closed
nodes; a closed goal was closed by the last pass, which leaves through `break`; the
passes and the entries left are together at most `1 + arcCount g`. -/
theorem run_summary (g : Graph) (h : Int → ℚ) (start goal : Int)
    (hv : ValidArcs g) (hs : InRange g.nodes.length start) :
    ∃ sf ra rd, aLoop g h goal (searchFuel g) (aInit g h start Stats.fresh) = some sf ∧
      aFinish g start goal sf = some ra ∧ dFinish g start goal sf.toD = some rd ∧
      sf.stats.maxFringe =
        maxOf (aFringes g h goal (searchFuel g) (aInit g h start Stats.fresh)) ∧
      sf.stats.expansions = Set.ncard {v : Int | sf.cl v} ∧
      sf.stats.expansions ≤ g.nodes.length ∧
      (sf.cl goal → ∃ s1 top, AHead g h goal (aInit g h start Stats.fresh) s1 ∧
        pqTop s1.openQ = some top ∧ top.2 = goal ∧ ¬ s1.cl goal ∧
        sf = closeS (popS s1 top) goal) ∧
      (aFringes g h goal (searchFuel g) (aInit g h start Stats.fresh)).length +
        sf.openQ.length ≤ 1 + arcCount g ∧
      1 ≤ sf.stats.maxFringe ∧ sf.stats.maxFringe ≤ 1 + arcCount g := by
  have hI0 := Inv.init g h start goal Stats.fresh hs
  have hphi0 := phi_init g h start Stats.fresh
  have hphi1 : phi g (aInit g h start Stats.fresh) ≤ 1 + arcCount g := by
    unfold searchFuel at hphi0
    omega
  obtain ⟨sf, hrun, hpost⟩ := aLoop_exit (J := AHead g h goal (aInit g h start Stats.fresh))
    hv (fun s top _ hh ht hb => AHead.pass hh ht hb) (searchFuel g)
    (aInit g h start Stats.fresh) hI0 AHead.start hphi0
  obtain ⟨sf2, hrun2, hp1, hp2⟩ := aLoop_passes hv (searchFuel g)
    (aInit g h start Stats.fresh) hI0 hphi0
  have hsf : sf2 = sf := by
    rw [hrun] at hrun2
    exact (Option.some.inj hrun2).symm
  subst hsf
  have hfr := aLoop_fringe g h goal _ _ _ hrun
  have hfr0 : sf2.stats.maxFringe =
      maxOf (aFringes g h goal (searchFuel g) (aInit g h start Stats.fresh)) := by
    rw [hfr]
    exact Nat.max_eq_right (Nat.zero_le _)
  have hone : 1 ≤ sf2.stats.maxFringe := by
    rw [hfr0]
    have ht : pqTop (aInit g h start Stats.fresh).openQ = some ((h start : Cost), start) := rfl
    have hsfuel : searchFuel g = (arcCount g + 1) + 1 := rfl
    rw [hsfuel, aFringes_succ g h goal _ _ _ ht, maxOf_cons]
    exact le_max_left _ _
  have hmax : sf2.stats.maxFringe ≤ 1 + arcCount g := by
    rw [hfr0]
    exact maxOf_le _ _ (fun n hn => le_trans (hp2 n hn) hphi1)
  -- the closing order of the final state
  have hord : ∃ ord : List Int, ord.Nodup ∧ (∀ v, v ∈ ord ↔ sf2.cl v) ∧
      sf2.stats.expansions = ord.length ∧ ∀ v ∈ ord, InRange g.nodes.length v := by
    rcases hpost with ⟨hI, _, _⟩ | ⟨s1, top, hI, _, ht, hncl, hg, hs'⟩
    · obtain ⟨ord, h1, h2, h3⟩ := hI.order
      refine ⟨ord, h1, h2, by simpa [Stats.fresh] using h3, ?_⟩
      intro v hvo
      have := cl_inRange sf2 v ((h2 v).mp hvo)
      rwa [hI.len_c] at this
    · obtain ⟨ord, h1, h2, h3⟩ := hI.order
      have htm : top ∈ s1.openQ := pqTop_mem _ _ ht
      have hur : InRange g.nodes.length top.2 := (hI.open_ok top htm).1
      have hur2 : InRange (popS s1 top).closed.length top.2 := by
        have : (popS s1 top).closed = s1.closed := rfl
        rw [this, hI.len_c]
        exact hur
      have hcl : ∀ v, sf2.cl v ↔ v = top.2 ∨ s1.cl v := by
        intro v
        rw [hs']
        exact closeS_cl (popS s1 top) top.2 v hur2
      refine ⟨top.2 :: ord, ?_, ?_, ?_, ?_⟩
      · exact List.nodup_cons.mpr ⟨fun hm => hncl ((h2 _).mp hm), h1⟩
      · intro v
        rw [List.mem_cons, hcl v, h2 v]
      · rw [hs']
        have : (closeS (popS s1 top) top.2).stats.expansions = s1.stats.expansions + 1 := rfl
        rw [this, h3]
        simp [Stats.fresh]
      · intro v hvo
        rcases List.mem_cons.mp hvo with hvo | hvo
        · rw [hvo]; exact hur
        · have := cl_inRange s1 v ((h2 v).mp hvo)
          rwa [hI.len_c] at this
  obtain ⟨ord, ho1, ho2, ho3, ho4⟩ := hord
  have hcount : sf2.stats.expansions = Set.ncard {v : Int | sf2.cl v} := by
    have hset : {v : Int | sf2.cl v} = ↑ord.toFinset := by
      ext v
      simp [ho2 v]
    rw [hset, Set.ncard_coe_Finset, List.toFinset_card_of_nodup ho1]
    exact ho3
  have hbound : sf2.stats.expansions ≤ g.nodes.length := by
    rw [ho3]
    exact length_le_of_inRange _ ord ho1 ho4
  have hlast : sf2.cl goal → ∃ s1 top, AHead g h goal (aInit g h start Stats.fresh) s1 ∧
      pqTop s1.openQ = some top ∧ top.2 = goal ∧ ¬ s1.cl goal ∧
      sf2 = closeS (popS s1 top) goal := by
    intro hclg
    rcases hpost with ⟨hI, _, _⟩ | ⟨s1, top, _, hh, ht, hncl, hg, hs'⟩
    · exact absurd hclg hI.goal_open
    · refine ⟨s1, top, hh, ht, hg, ?_, ?_⟩
      · rw [← hg]; exact hncl
      · rw [← hg]; exact hs'
  have hfin : ∃ ra rd, aFinish g start goal sf2 = some ra ∧
      dFinish g start goal sf2.toD = some rd := by
    rcases hpost with ⟨hI, _, hq⟩ | ⟨s1, top, hI, _, ht, hncl, hg, hs'⟩
    · have hnr : ¬ Reachable g start goal :=
        fun hr => hI.goal_open ((hI.exhausted hq goal).mpr hr)
      have hu := hI.unreached goal hnr
      have hne : start ≠ goal := by
        intro heq
        exact hnr (heq ▸ ⟨0, Walk.nil start⟩)
      refine ⟨([], sf2.stats), ([], { sf2.stats with pathCost := sf2.g goal }), ?_, ?_⟩
      · unfold aFinish
        rw [if_pos ⟨hu.2, hne⟩]
      · rw [dFinish_eq, if_pos ⟨hu.2, hne⟩]
    · obtain ⟨_, path, hfinish, _⟩ := hI.found ht hg
      refine ⟨(path, { (closeS (popS s1 top) top.2).stats with pathCost := s1.g goal }),
        (path, { (closeS (popS s1 top) top.2).stats with pathCost := s1.g goal }), ?_, ?_⟩
      · rw [hs']
        exact hfinish
      · rw [hs', hI.found_d ht hg]
        exact hfinish
  obtain ⟨ra, rd, hfa, hfd⟩ := hfin
  have hp1b : (aFringes g h goal (searchFuel g) (aInit g h start Stats.fresh)).length +
      sf2.openQ.length ≤ 1 + arcCount g := le_trans hp1 hphi1
  exact ⟨sf2, ra, rd, hrun, hfa, hfd, hfr0, hcount, hbound, hlast, hp1b, hone, hmax⟩

/-! ## Statements on the statistics -/

/-- C23 (counterexample): on the graph `stale` from S to D with the empty heuristic
table, `a_star` and `dijkstra` leave `stats.maxFringe = 4`, the frontier size met by the
fourth pass, which pops the stale entry of the closed node A and is discarded; the
passes that expand a node meet the sizes 1, 2, 2, 3, 2, 1, whose maximum is 3. -/
theorem C23_discarded_pop_counts :
    findId stale "S" = 0 ∧ findId stale "D" = 5 ∧
    (a_star stale "S" "D" [] Stats.fresh).map (fun r => r.2.maxFringe) = some 4 ∧
    aFringes stale (heur stale []) 5 (searchFuel stale)
      (aInit stale (heur stale []) 0 Stats.fresh) = [1, 2, 2, 4, 3, 2, 1] ∧
    aExpFringes stale (heur stale []) 5 (searchFuel stale)
      (aInit stale (heur stale []) 0 Stats.fresh) = [1, 2, 2, 3, 2, 1] ∧
    maxOf (aExpFringes stale (heur stale []) 5 (searchFuel stale)
      (aInit stale (heur stale []) 0 Stats.fresh)) = 3 ∧
    (dijkstra stale "S" "D" Stats.fresh).map (fun r => r.2.maxFringe) = some 4 ∧
    dFringes stale 5 (searchFuel stale) (dInit stale 0 Stats.fresh) =
      [1, 2, 2, 4, 3, 2, 1] ∧
    maxOf (dExpFringes stale 5 (searchFuel stale) (dInit stale 0 Stats.fresh)) = 3 := by
  decide!

/-- C23 (amended): on a graph with valid arc endpoints, for a known start and goal and
any heuristic table, `a_star` and `dijkstra` run with fresh `stats` return, and
`stats.maxFringe` is the largest frontier size met at the head of a pass of the search
loop, over all passes: the passes whose pop is discarded count as well. -/
theorem C23_peak_over_all_pops (g : Graph) (startName goalName : String)
    (hmap : List (String × ℚ)) (hv : ValidArcs g)
    (hs : InRange g.nodes.length (findId g startName))
    (hg : InRange g.nodes.length (findId g goalName)) :
    (∃ path st, a_star g startName goalName hmap Stats.fresh = some (path, st) ∧
      st.maxFringe = maxOf (aFringes g (heur g hmap) (findId g goalName) (searchFuel g)
        (aInit g (heur g hmap) (findId g startName) Stats.fresh))) ∧
    (∃ path st, dijkstra g startName goalName Stats.fresh = some (path, st) ∧
      st.maxFringe = maxOf (dFringes g (findId g goalName) (searchFuel g)
        (dInit g (findId g startName) Stats.fresh))) := by
  constructor
  · obtain ⟨sf, ra, _, hrun, hfa, _, hfr, _⟩ :=
      run_summary g (heur g hmap) (findId g startName) (findId g goalName) hv hs
    refine ⟨ra.1, ra.2, ?_, ?_⟩
    · rw [a_star_unfold g _ _ _ _ hs.1 hg.1, hrun]
      exact hfa
    · rw [(aFinish_stats _ _ _ _ _ hfa).2]
      exact hfr
  · obtain ⟨sf, _, rd, hrun, _, hfd, hfr, _⟩ :=
      run_summary g (fun _ => 0) (findId g startName) (findId g goalName) hv hs
    refine ⟨rd.1, rd.2, ?_, ?_⟩
    · rw [dijkstra_unfold g _ _ _ hs.1 hg.1, hrun]
      exact hfd
    · rw [(dFinish_stats _ _ _ _ _ hfd).2, dInit_toD g (fun _ => 0) (fun _ => rfl),
        dFringes_toD g (fun _ => 0) (fun _ => rfl)]
      exact hfr

/-- Instance of C23 (amended): the graph `stale` from S to D with the empty table. -/
theorem C23_witness :
    ValidArcs stale ∧
    InRange stale.nodes.length (findId stale "S") ∧
    InRange stale.nodes.length (findId stale "D") ∧
    ((∃ path st, a_star stale "S" "D" [] Stats.fresh = some (path, st) ∧
      st.maxFringe = maxOf (aFringes stale (heur stale []) (findId stale "D")
        (searchFuel stale) (aInit stale (heur stale []) (findId stale "S") Stats.fresh))) ∧
    (∃ path st, dijkstra stale "S" "D" Stats.fresh = some (path, st) ∧
      st.maxFringe = maxOf (dFringes stale (findId stale "D") (searchFuel stale)
        (dInit stale (findId stale "S") Stats.fresh)))) :=
  ⟨by decide!, by decide!, by decide!,
    C23_peak_over_all_pops stale "S" "D" [] (by decide!) (by decide!) (by decide!)⟩

/-- C24: on a graph with valid arc endpoints, for a known start and goal and any
heuristic table, `a_star` and `dijkstra` run with fresh `stats` return with
`stats.expansions` equal to the number of closed nodes, which is at most `nodes.size()`;
and when the goal is closed at the end of the loop, the final state is the state left by
popping the goal at a head state of the loop and closing it: the costs and parents are
those of that head state, and the goal is the only node closed since. -/
theorem C24_expanded_once (g : Graph) (startName goalName : String)
    (hmap : List (String × ℚ)) (hv : ValidArcs g)
    (hs : InRange g.nodes.length (findId g startName))
    (hg : InRange g.nodes.length (findId g goalName)) :
    (∃ path st sf, a_star g startName goalName hmap Stats.fresh = some (path, st) ∧
      aLoop g (heur g hmap) (findId g goalName) (searchFuel g)
        (aInit g (heur g hmap) (findId g startName) Stats.fresh) = some sf ∧
      st.expansions = Set.ncard {v : Int | vget sf.closed v false = true} ∧
      st.expansions ≤ g.nodes.length ∧
      (vget sf.closed (findId g goalName) false = true →
        ∃ s1 top, AHead g (heur g hmap) (findId g goalName)
            (aInit g (heur g hmap) (findId g startName) Stats.fresh) s1 ∧
          pqTop s1.openQ = some top ∧ top.2 = findId g goalName ∧
          vget s1.closed (findId g goalName) false = false ∧
          sf.gCost = s1.gCost ∧ sf.parent = s1.parent ∧ sf.fCost = s1.fCost ∧
          sf.openQ = s1.openQ.erase top ∧
          sf.closed = vset s1.closed (findId g goalName) true ∧
          sf.stats.expansions = s1.stats.expansions + 1)) ∧
    (∃ path st sf, dijkstra g startName goalName Stats.fresh = some (path, st) ∧
      dLoop g (findId g goalName) (searchFuel g)
        (dInit g (findId g startName) Stats.fresh) = some sf ∧
      st.expansions = Set.ncard {v : Int | vget sf.closed v false = true} ∧
      st.expansions ≤ g.nodes.length ∧
      (vget sf.closed (findId g goalName) false = true →
        ∃ s1 top, DHead g (findId g goalName)
            (dInit g (findId g startName) Stats.fresh) s1 ∧
          pqTop s1.openQ = some top ∧ top.2 = findId g goalName ∧
          vget s1.closed (findId g goalName) false = false ∧
          sf.dist = s1.dist ∧ sf.parent = s1.parent ∧
          sf.openQ = s1.openQ.erase top ∧
          sf.closed = vset s1.closed (findId g goalName) true ∧
          sf.stats.expansions = s1.stats.expansions + 1)) := by
  constructor
  · obtain ⟨sf, ra, _, hrun, hfa, _, _, hcount, hbound, hlast, _⟩ :=
      run_summary g (heur g hmap) (findId g startName) (findId g goalName) hv hs
    have hst := (aFinish_stats _ _ _ _ _ hfa).1
    refine ⟨ra.1, ra.2, sf, ?_, hrun, ?_, ?_, ?_⟩
    · rw [a_star_unfold g _ _ _ _ hs.1 hg.1, hrun]
      exact hfa
    · rw [hst]; exact hcount
    · rw [hst]; exact hbound
    · intro hclg
      obtain ⟨s1, top, hh, ht, hgo, hncl, hsf⟩ := hlast hclg
      refine ⟨s1, top, hh, ht, hgo, ?_, ?_, ?_, ?_, ?_, ?_, ?_⟩
      · unfold AState.cl at hncl
        simpa using hncl
      all_goals rw [hsf]; rfl
  · obtain ⟨sf, _, rd, hrun, _, hfd, _, hcount, hbound, hlast, _⟩ :=
      run_summary g (fun _ => 0) (findId g startName) (findId g goalName) hv hs
    have hst := (dFinish_stats _ _ _ _ _ hfd).1
    have hrd : dLoop g (findId g goalName) (searchFuel g)
        (dInit g (findId g startName) Stats.fresh) = some sf.toD := by
      rw [dInit_toD g (fun _ => 0) (fun _ => rfl), dLoop_toD g (fun _ => 0) (fun _ => rfl),
        hrun]
      rfl
    refine ⟨rd.1, rd.2, sf.toD, ?_, hrd, ?_, ?_, ?_⟩
    · rw [dijkstra_unfold g _ _ _ hs.1 hg.1, hrun]
      exact hfd
    · rw [hst]; exact hcount
    · rw [hst]; exact hbound
    · intro hclg
      obtain ⟨s1, top, hh, ht, hgo, hncl, hsf⟩ := hlast hclg
      have hhd := aHead_toD (fun _ => rfl) hh
      rw [← dInit_toD g (fun _ => 0) (fun _ => rfl)] at hhd
      refine ⟨s1.toD, top, hhd, ht, hgo, ?_, ?_, ?_, ?_, ?_, ?_⟩
      · unfold AState.cl at hncl
        have : s1.toD.closed = s1.closed := rfl
        rw [this]
        simpa using hncl
      all_goals rw [hsf]; rfl

/-- Instance of C24: the graph `stale` from S to D with the empty table. -/
theorem C24_witness :
    ValidArcs stale ∧
    InRange stale.nodes.length (findId stale "S") ∧
    InRange stale.nodes.length (findId stale "D") ∧
    (∃ path st sf, a_star stale "S" "D" [] Stats.fresh = some (path, st) ∧
      aLoop stale (heur stale []) (findId stale "D") (searchFuel stale)
        (aInit stale (heur stale []) (findId stale "S") Stats.fresh) = some sf ∧
      st.expansions = Set.ncard {v : Int | vget sf.closed v false = true} ∧
      st.expansions ≤ stale.nodes.length) :=
  ⟨by decide!, by decide!, by decide!, by
    obtain ⟨path, st, sf, h1, h2, h3, h4, _⟩ :=
      (C24_expanded_once stale "S" "D" [] (by decide!) (by decide!) (by decide!)).1
    exact ⟨path, st, sf, h1, h2, h3, h4⟩⟩

/-- C29: on a graph with valid arc endpoints, for a known start and goal and any
heuristic table, the search loops of `a_star` and `dijkstra` return within the passes
granted; the number of passes (one pop each) plus the number of entries left in the
frontier, which is the number of pushes, is at most `1 + arcCount g`; and with fresh
`stats`, `1 <= stats.maxFringe <= 1 + arcCount g`. -/
theorem C29_termination_bound (g : Graph) (startName goalName : String)
    (hmap : List (String × ℚ)) (hv : ValidArcs g)
    (hs : InRange g.nodes.length (findId g startName))
    (hg : InRange g.nodes.length (findId g goalName)) :
    (∃ path st sf, a_star g startName goalName hmap Stats.fresh = some (path, st) ∧
      aLoop g (heur g hmap) (findId g goalName) (searchFuel g)
        (aInit g (heur g hmap) (findId g startName) Stats.fresh) = some sf ∧
      (aFringes g (heur g hmap) (findId g goalName) (searchFuel g)
        (aInit g (heur g hmap) (findId g startName) Stats.fresh)).length +
          sf.openQ.length ≤ 1 + arcCount g ∧
      1 ≤ st.maxFringe ∧ st.maxFringe ≤ 1 + arcCount g) ∧
    (∃ path st sf, dijkstra g startName goalName Stats.fresh = some (path, st) ∧
      dLoop g (findId g goalName) (searchFuel g)
        (dInit g (findId g startName) Stats.fresh) = some sf ∧
      (dFringes g (findId g goalName) (searchFuel g)
        (dInit g (findId g startName) Stats.fresh)).length +
          sf.openQ.length ≤ 1 + arcCount g ∧
      1 ≤ st.maxFringe ∧ st.maxFringe ≤ 1 + arcCount g) := by
  constructor
  · obtain ⟨sf, ra, _, hrun, hfa, _, _, _, _, _, hpass, hone, hmax⟩ :=
      run_summary g (heur g hmap) (findId g startName) (findId g goalName) hv hs
    have hst := (aFinish_stats _ _ _ _ _ hfa).2
    refine ⟨ra.1, ra.2, sf, ?_, hrun, hpass, ?_, ?_⟩
    · rw [a_star_unfold g _ _ _ _ hs.1 hg.1, hrun]
      exact hfa
    · rw [hst]; exact hone
    · rw [hst]; exact hmax
  · obtain ⟨sf, _, rd, hrun, _, hfd, _, _, _, _, hpass, hone, hmax⟩ :=
      run_summary g (fun _ => 0) (findId g startName) (findId g goalName) hv hs
    have hst := (dFinish_stats _ _ _ _ _ hfd).2
    have hrd : dLoop g (findId g goalName) (searchFuel g)
        (dInit g (findId g startName) Stats.fresh) = some sf.toD := by
      rw [dInit_toD g (fun _ => 0) (fun _ => rfl), dLoop_toD g (fun _ => 0) (fun _ => rfl),
        hrun]
      rfl
    refine ⟨rd.1, rd.2, sf.toD, ?_, hrd, ?_, ?_, ?_⟩
    · rw [dijkstra_unfold g _ _ _ hs.1 hg.1, hrun]
      exact hfd
    · rw [dInit_toD g (fun _ => 0) (fun _ => rfl), dFringes_toD g (fun _ => 0) (fun _ => rfl)]
      exact hpass
    · rw [hst]; exact hone
    · rw [hst]; exact hmax

/-- Instance of C29: the graph `stale`, which stores 6 arcs, from S to D with the empty
table. -/
theorem C29_witness :
    ValidArcs stale ∧
    InRange stale.nodes.length (findId stale "S") ∧
    InRange stale.nodes.length (findId stale "D") ∧
    arcCount stale = 6 ∧
    (∃ path st sf, a_star stale "S" "D" [] Stats.fresh = some (path, st) ∧
      aLoop stale (heur stale []) (findId stale "D") (searchFuel stale)
        (aInit stale (heur stale []) (findId stale "S") Stats.fresh) = some sf ∧
      (aFringes stale (heur stale []) (findId stale "D") (searchFuel stale)
        (aInit stale (heur stale []) (findId stale "S") Stats.fresh)).length +
          sf.openQ.length ≤ 1 + arcCount stale ∧
      1 ≤ st.maxFringe ∧ st.maxFringe ≤ 1 + arcCount stale) :=
  ⟨by decide!, by decide!, by decide!, by decide!,
    (C29_termination_bound stale "S" "D" [] (by decide!) (by decide!) (by decide!)).1⟩

/-! ## The cost of a path -/

theorem pathCostLoop_cons (g : Graph) (c : Cost) (u v : Int) (rest : List Int) :
    pathCostLoop g c (u :: v :: rest) =
      match firstArc g u v with
      | none => ⊤
      | some e => pathCostLoop g (c + (e.w : Cost)) (v :: rest) := rfl

theorem pathCostSum_cons (g : Graph) (u v : Int) (rest : List Int) :
    pathCostSum g (u :: v :: rest) =
      match firstArc g u v with
      | none => ⊤
      | some e => (e.w : Cost) + pathCostSum g (v :: rest) := rfl

/-- The running sum of the loop of `path_cost` is added to the sum over the pairs. -/
theorem pathCostLoop_eq (g : Graph) (l : List Int) :
    ∀ c : Cost, pathCostLoop g c l = c + pathCostSum g l := by
  induction l with
  | nil => intro c; simp [pathCostLoop, pathCostSum]
  | cons u t ih =>
    intro c
    cases t with
    | nil => simp [pathCostLoop, pathCostSum]
    | cons v rest =>
      rw [pathCostLoop_cons, pathCostSum_cons]
      cases firstArc g u v with
      | none => simp
      | some e =>
        simp only
        rw [ih, add_assoc]

theorem path_cost_eq (g : Graph) (path : List Int) : path_cost g path = pathCostSum g path := by
  unfold path_cost
  rw [pathCostLoop_eq, zero_add]

theorem pairsOf_cons (u v : Int) (rest : List Int) :
    pairsOf (u :: v :: rest) = (u, v) :: pairsOf (v :: rest) := rfl

theorem pathCostSum_top (g : Graph) (path : List Int)
    (h : ∃ p ∈ pairsOf path, firstArc g p.1 p.2 = none) : pathCostSum g path = ⊤ := by
  induction path with
  | nil =>
    obtain ⟨p, hp, _⟩ := h
    simp [pairsOf] at hp
  | cons u t ih =>
    cases t with
    | nil =>
      obtain ⟨p, hp, _⟩ := h
      simp [pairsOf] at hp
    | cons v rest =>
      rw [pathCostSum_cons]
      obtain ⟨p, hp, hnone⟩ := h
      rw [pairsOf_cons] at hp
      cases hfa : firstArc g u v with
      | none => rfl
      | some e =>
        simp only
        rcases List.mem_cons.mp hp with hp | hp
        · rw [hp] at hnone
          rw [hfa] at hnone
          cases hnone
        · rw [ih ⟨p, hp, hnone⟩]
          exact WithTop.add_top _

theorem pathCostSum_fin (g : Graph) (path : List Int)
    (h : ∀ p ∈ pairsOf path, firstArc g p.1 p.2 ≠ none) :
    pathCostSum g path = ((((pairsOf path).map (pairWeight g)).sum : ℚ) : Cost) := by
  induction path with
  | nil => simp [pairsOf, pathCostSum]
  | cons u t ih =>
    cases t with
    | nil => simp [pairsOf, pathCostSum]
    | cons v rest =>
      rw [pathCostSum_cons, pairsOf_cons]
      have h1 := h (u, v) (by rw [pairsOf_cons]; exact List.mem_cons_self _ _)
      have h2 : ∀ p ∈ pairsOf (v :: rest), firstArc g p.1 p.2 ≠ none := by
        intro p hp
        exact h p (by rw [pairsOf_cons]; exact List.mem_cons_of_mem _ hp)
      cases hfa : firstArc g u v with
      | none => exact absurd hfa h1
      | some e =>
        simp only [List.map_cons, List.sum_cons]
        rw [ih h2]
        have hw : pairWeight g (u, v) = e.w := by
          unfold pairWeight
          rw [hfa]
        rw [hw, WithTop.coe_add]

theorem pathCostSum_snoc (g : Graph) (p v : Int) (e : Edge) (hfa : firstArc g p v = some e)
    (l : List Int) (hl : l.getLast? = some p) :
    pathCostSum g (l ++ [v]) = pathCostSum g l + (e.w : Cost) := by
  induction l with
  | nil => simp at hl
  | cons a t ih =>
    cases t with
    | nil =>
      simp only [List.getLast?_singleton, Option.some.injEq] at hl
      subst hl
      simp only [List.singleton_append]
      rw [pathCostSum_cons, hfa]
      simp [pathCostSum]
    | cons b rest =>
      rw [List.getLast?_cons_cons] at hl
      have ih2 := ih hl
      simp only [List.cons_append] at ih2 ⊢
      rw [pathCostSum_cons, pathCostSum_cons]
      cases firstArc g a b with
      | none => simp
      | some e1 =>
        simp only
        rw [ih2, add_assoc]

/-- Without parallel arcs an arc `u -> v` of the graph is the first one. -/
theorem firstArc_of_mem (g : Graph) (hnp : NoParallel g) (u : Int) (e : Edge)
    (he : e ∈ arcsOf g u) : firstArc g u e.to_ = some e := by
  obtain ⟨p, hp, hpu, hep⟩ := arcsOf_mem g u e he
  unfold firstArc
  cases hf : (arcsOf g u).find? (fun x => decide (x.to_ = e.to_)) with
  | none =>
    rw [List.find?_eq_none] at hf
    have := hf e he
    simp at this
  | some e1 =>
    have h1 : e1 ∈ arcsOf g u := List.mem_of_find?_eq_some hf
    have h2 : e1.to_ = e.to_ := by
      have := List.find?_some hf
      simpa using this
    obtain ⟨p1, hp1, hp1u, he1⟩ := arcsOf_mem g u e1 h1
    -- both arcs are stored under the key `u`, in the list that `lookup` returns
    have hsame : ∃ es, g.adj.lookup u = some es ∧ e ∈ es ∧ e1 ∈ es := by
      unfold arcsOf at he h1
      cases hl : g.adj.lookup u with
      | none => simp [hl] at he
      | some es =>
        simp only [hl, Option.getD_some] at he h1
        exact ⟨es, rfl, he, h1⟩
    obtain ⟨es, hl, hes, he1s⟩ := hsame
    have hnd := hnp (u, es) (lookup_mem _ _ _ hl)
    have := List.inj_on_of_nodup_map hnd he1s hes h2
    rw [this]

/-- The sum over the pairs of a chain of parent links, read from start, is the tentative
cost of its last node. -/
theorem ppath_cost {g : Graph} {s : AState} {start v : Int} {l : List Int}
    (hnp : NoParallel g) (h0 : s.g start = 0) (hl : IsPPath g s start v l) :
    pathCostSum g l.reverse = s.g v := by
  induction hl with
  | base => rw [h0]; rfl
  | @step v l e hne harc hto hg hrest ih =>
    rw [List.reverse_cons]
    have hfa : firstArc g (s.par v) v = some e := by
      have := firstArc_of_mem g hnp (s.par v) e harc
      rwa [hto] at this
    have hlast : l.reverse.getLast? = some (s.par v) := by
      rw [List.getLast?_reverse]
      exact hrest.head
    rw [pathCostSum_snoc g (s.par v) v e hfa l.reverse hlast, ih, hg]

/-- The state left by the pass that pops the goal, on a graph without parallel arcs:
the path that `aFinish` returns is not empty and the sum over its pairs is the
`gCost[goal]` stored in `stats.pathCost`. -/
theorem Inv.found_cost {g : Graph} {h : Int → ℚ} {start goal : Int} {e0 : Nat} {s : AState}
    {top : PQItem} (hI : Inv g h start goal e0 none s) (ht : pqTop s.openQ = some top)
    (hg : top.2 = goal) (hnp : NoParallel g) :
    s.g goal ≠ ⊤ ∧
    ∃ path, aFinish g start goal (closeS (popS s top) top.2) =
        some (path, { (closeS (popS s top) top.2).stats with pathCost := s.g goal }) ∧
      pathCostSum g path = s.g goal := by
  have htm : top ∈ s.openQ := pqTop_mem _ _ ht
  have hfin : s.g goal ≠ ⊤ := by rw [← hg]; exact (hI.open_ok top htm).2
  refine ⟨hfin, ?_⟩
  obtain ⟨l, hl, _, hnd, hrg⟩ := hI.chain goal hfin
  have hlen := length_le_of_inRange _ l hnd hrg
  refine ⟨l.reverse, ?_, ppath_cost hnp hI.start_ok.2.1 hl⟩
  unfold aFinish
  have hpar : vget (closeS (popS s top) top.2).parent goal (-1) = s.par goal := rfl
  have hcond : ¬ (vget (closeS (popS s top) top.2).parent goal (-1) = -1 ∧ start ≠ goal) := by
    rintro ⟨h1, h2⟩
    rw [hpar] at h1
    exact hl.par_ne hrg (Ne.symm h2) h1
  rw [if_neg hcond]
  have hwb : walkBack (closeS (popS s top) top.2).parent start (g.nodes.length + 1) goal =
      some l := walkBack_of_isPPath hl hrg _ (by omega)
  rw [hwb]
  rfl

/-! ## The order of the frontier -/

theorem lexLe_refl (a : PQItem) : lexLe a a := Or.inr ⟨rfl, le_refl _⟩

theorem lexLe_trans {a b c : PQItem} (h1 : lexLe a b) (h2 : lexLe b c) : lexLe a c := by
  unfold lexLe at *
  rcases h1 with h1 | ⟨h1, h1'⟩
  · rcases h2 with h2 | ⟨h2, _⟩
    · exact Or.inl (lt_trans h1 h2)
    · exact Or.inl (h2 ▸ h1)
  · rcases h2 with h2 | ⟨h2, h2'⟩
    · exact Or.inl (h1 ▸ h2)
    · exact Or.inr ⟨h1.trans h2, le_trans h1' h2'⟩

theorem lexLe_of_pqLess (a b : PQItem) (h : pqLess a b = true) : lexLe a b := by
  unfold pqLess at h
  simp only [Bool.or_eq_true, Bool.and_eq_true, decide_eq_true_eq, Bool.not_eq_true',
    decide_eq_false_iff_not] at h
  rcases h with h | ⟨h, h'⟩
  · exact Or.inl h
  · rcases lt_or_eq_of_le (not_lt.mp h) with h3 | h3
    · exact Or.inl h3
    · exact Or.inr ⟨h3, le_of_lt h'⟩

theorem lexLe_of_not_pqLess (a b : PQItem) (h : pqLess a b = false) : lexLe b a := by
  unfold pqLess at h
  simp only [Bool.or_eq_false_iff, decide_eq_false_iff_not, Bool.and_eq_false_imp,
    Bool.not_eq_true', decide_eq_false_iff_not, decide_eq_true_eq] at h
  obtain ⟨h1, h2⟩ := h
  rcases lt_or_eq_of_le (not_lt.mp h1) with h3 | h3
  · exact Or.inl h3
  · refine Or.inr ⟨h3, ?_⟩
    have := h2 (by rw [h3]; exact lt_irrefl _)
    exact not_lt.mp this

theorem pqMin_lex (m : PQItem) (xs : List PQItem) :
    ∀ x ∈ m :: xs, lexLe (pqMin m xs) x := by
  induction xs generalizing m with
  | nil =>
    intro x hx
    simp only [List.mem_singleton] at hx
    rw [hx]
    exact lexLe_refl _
  | cons y ys ih =>
    intro x hx
    simp only [pqMin]
    have key := ih (if pqLess y m then y else m)
    have hsel : lexLe (if pqLess y m then y else m) m ∧
        lexLe (if pqLess y m then y else m) y := by
      cases hlt : pqLess y m
      · simp only [Bool.false_eq_true, ↓reduceIte]
        exact ⟨lexLe_refl _, lexLe_of_not_pqLess _ _ hlt⟩
      · simp only [↓reduceIte]
        exact ⟨lexLe_of_pqLess _ _ hlt, lexLe_refl _⟩
    have h0 := key _ (List.mem_cons_self _ _)
    simp only [List.mem_cons] at hx
    rcases hx with rfl | rfl | hx
    · exact lexLe_trans h0 hsel.1
    · exact lexLe_trans h0 hsel.2
    · exact key x (List.mem_cons_of_mem _ hx)

theorem pqTop_lex (q : List PQItem) (t : PQItem) (h : pqTop q = some t) :
    ∀ x ∈ q, lexLe t x := by
  cases q with
  | nil => simp [pqTop] at h
  | cons x xs =>
    simp only [pqTop, Option.some.injEq] at h
    subst h
    exact pqMin_lex x xs

theorem dLoop_succ (g : Graph) (goal : Int) (fuel : Nat) (s : DState)
    (top : PQItem) (ht : pqTop s.openQ = some top) :
    dLoop g goal (fuel + 1) s =
      if (dBody g goal s top).2 then some (dBody g goal s top).1
      else dLoop g goal fuel (dBody g goal s top).1 := by
  rw [dLoop, ht]

theorem pqTop_some (q : List PQItem) (hq : q ≠ []) : ∃ t, pqTop q = some t := by
  cases q with
  | nil => exact absurd rfl hq
  | cons x xs => exact ⟨_, rfl⟩

/-! ## Statements on the cost of a path and on ties -/

/-- C27: on a graph with valid arc endpoints and at most one arc for each ordered pair
of nodes, for a known start and goal and any heuristic table, `a_star` returns, and
when the returned path is not empty, every consecutive pair of the path has an arc,
`stats.pathCost` is the sum of the weights of these arcs, and it equals
`path_cost g path`. -/
theorem C27_cost_matches_path (g : Graph) (startName goalName : String)
    (hmap : List (String × ℚ)) (stats : Stats) (hv : ValidArcs g)
    (hs : InRange g.nodes.length (findId g startName))
    (hg : InRange g.nodes.length (findId g goalName)) (hnp : NoParallel g) :
    ∃ path st, a_star g startName goalName hmap stats = some (path, st) ∧
      (path ≠ [] →
        (∀ p ∈ pairsOf path, ∃ e, firstArc g p.1 p.2 = some e ∧
          ∀ e2 ∈ arcsOf g p.1, e2.to_ = p.2 → e2 = e) ∧
        st.pathCost = ((((pairsOf path).map (pairWeight g)).sum : ℚ) : Cost) ∧
        st.pathCost = path_cost g path) := by
  obtain ⟨s', hrun, _, hcase⟩ := search_core g (heur g hmap) (findId g startName)
    (findId g goalName) stats (fun _ => True) hv hs
    (fun _ _ _ _ _ _ => trivial) trivial
  rcases hcase with ⟨_, hpar, _, hne, _⟩ | ⟨_, s1, top, hI, _, ht, _, hgoal, hs'⟩
  · refine ⟨[], s'.stats, ?_, fun hp => absurd rfl hp⟩
    rw [a_star_unfold g _ _ _ _ hs.1 hg.1, hrun]
    simp only
    unfold aFinish
    rw [if_pos ⟨hpar, hne⟩]
  · obtain ⟨hfin, path, hfinish, hsum⟩ := hI.found_cost ht hgoal hnp
    refine ⟨path, { (closeS (popS s1 top) top.2).stats with
      pathCost := s1.g (findId g goalName) }, ?_, ?_⟩
    · rw [a_star_unfold g _ _ _ _ hs.1 hg.1, hrun]
      simp only
      rw [hs', hfinish]
    · intro _
      have hall : ∀ p ∈ pairsOf path, firstArc g p.1 p.2 ≠ none := by
        intro p hp hnone
        have := pathCostSum_top g path ⟨p, hp, hnone⟩
        rw [hsum] at this
        exact hfin this
      refine ⟨?_, ?_, ?_⟩
      · intro p hp
        cases hfa : firstArc g p.1 p.2 with
        | none => exact absurd hfa (hall p hp)
        | some e =>
          refine ⟨e, rfl, ?_⟩
          intro e2 he2 hto
          have h2 := firstArc_of_mem g hnp p.1 e2 he2
          rw [hto, hfa] at h2
          exact (Option.some.inj h2).symm
      · show s1.g (findId g goalName) = _
        rw [← hsum]
        exact pathCostSum_fin g path hall
      · show s1.g (findId g goalName) = _
        rw [path_cost_eq, hsum]

/-- Instance of C27: the A,B,C,D graph from A to D with the inadmissible entry
h(C) = 100. -/
theorem C27_witness :
    ValidArcs abcd ∧
    InRange abcd.nodes.length (findId abcd "A") ∧
    InRange abcd.nodes.length (findId abcd "D") ∧
    NoParallel abcd ∧
    (∃ path st, a_star abcd "A" "D" [("C", 100)] Stats.fresh = some (path, st) ∧
      (path ≠ [] →
        (∀ p ∈ pairsOf path, ∃ e, firstArc abcd p.1 p.2 = some e ∧
          ∀ e2 ∈ arcsOf abcd p.1, e2.to_ = p.2 → e2 = e) ∧
        st.pathCost = ((((pairsOf path).map (pairWeight abcd)).sum : ℚ) : Cost) ∧
        st.pathCost = path_cost abcd path)) :=
  ⟨by decide!, by decide!, by decide!, by decide!,
    C27_cost_matches_path abcd "A" "D" [("C", 100)] Stats.fresh (by decide!) (by decide!)
      (by decide!) (by decide!)⟩

/-- C30: at a state with a non-empty frontier the loops of `a_star` and `dijkstra` run
their body on an entry `top` of the frontier that is least in the lexicographic order of
the pairs `(f, node id)`, so that no entry with the same `f` has a smaller node id; and
a relaxation that does not find a strictly smaller tentative cost leaves the state as
it is, so that a parent is only replaced together with a strictly smaller cost. -/
theorem C30_tie_break :
    (∀ (q : List PQItem) (top : PQItem), pqTop q = some top →
      top ∈ q ∧ (∀ x ∈ q, lexLe top x) ∧ ∀ x ∈ q, x.1 = top.1 → top.2 ≤ x.2) ∧
    (∀ (g : Graph) (h : Int → ℚ) (goal : Int) (fuel : Nat) (s : AState), s.openQ ≠ [] →
      ∃ top, pqTop s.openQ = some top ∧
        aLoop g h goal (fuel + 1) s =
          if (aBody g h goal s top).2 then some (aBody g h goal s top).1
          else aLoop g h goal fuel (aBody g h goal s top).1) ∧
    (∀ (g : Graph) (goal : Int) (fuel : Nat) (s : DState), s.openQ ≠ [] →
      ∃ top, pqTop s.openQ = some top ∧
        dLoop g goal (fuel + 1) s =
          if (dBody g goal s top).2 then some (dBody g goal s top).1
          else dLoop g goal fuel (dBody g goal s top).1) ∧
    (∀ (h : Int → ℚ) (u : Int) (s : AState) (e : Edge),
      ¬ (vget s.gCost u ⊤ + (e.w : Cost) < vget s.gCost e.to_ ⊤) → aRelax h u s e = s) ∧
    (∀ (h : Int → ℚ) (u : Int) (s : AState) (e : Edge) (v : Int),
      vget (aRelax h u s e).parent v (-1) ≠ vget s.parent v (-1) →
        v = e.to_ ∧ vget s.gCost u ⊤ + (e.w : Cost) < vget s.gCost v ⊤) ∧
    (∀ (u : Int) (s : DState) (e : Edge),
      ¬ (vget s.dist u ⊤ + (e.w : Cost) < vget s.dist e.to_ ⊤) → dRelax u s e = s) ∧
    (∀ (u : Int) (s : DState) (e : Edge) (v : Int),
      vget (dRelax u s e).parent v (-1) ≠ vget s.parent v (-1) →
        v = e.to_ ∧ vget s.dist u ⊤ + (e.w : Cost) < vget s.dist v ⊤) := by
  refine ⟨?_, ?_, ?_, ?_, ?_, ?_, ?_⟩
  · intro q top ht
    refine ⟨pqTop_mem q top ht, pqTop_lex q top ht, ?_⟩
    intro x hx hf
    rcases pqTop_lex q top ht x hx with h1 | ⟨_, h2⟩
    · rw [hf] at h1
      exact absurd h1 (lt_irrefl _)
    · exact h2
  · intro g h goal fuel s hq
    obtain ⟨top, ht⟩ := pqTop_some s.openQ hq
    exact ⟨top, ht, aLoop_succ g h goal fuel s top ht⟩
  · intro g goal fuel s hq
    obtain ⟨top, ht⟩ := pqTop_some s.openQ hq
    exact ⟨top, ht, dLoop_succ g goal fuel s top ht⟩
  · intro h u s e hn
    unfold aRelax
    split
    · rfl
    · simp only
      rw [if_neg hn]
  · intro h u s e v hne
    unfold aRelax at hne
    split at hne
    · exact absurd rfl hne
    · rename_i hcl
      simp only at hne
      split at hne
      · rename_i hlt
        simp only at hne
        have hv : v = e.to_ := by
          by_contra hc
          exact hne (vget_vset_ne _ _ _ _ _ (fun h => hc h.symm))
        subst hv
        exact ⟨rfl, hlt⟩
      · exact absurd rfl hne
  · intro u s e hn
    unfold dRelax
    split
    · rfl
    · simp only
      rw [if_neg hn]
  · intro u s e v hne
    unfold dRelax at hne
    split at hne
    · exact absurd rfl hne
    · rename_i hcl
      simp only at hne
      split at hne
      · rename_i hlt
        simp only at hne
        have hv : v = e.to_ := by
          by_contra hc
          exact hne (vget_vset_ne _ _ _ _ _ (fun h => hc h.symm))
        subst hv
        exact ⟨rfl, hlt⟩
      · exact absurd rfl hne

/-! ## Binary32 arithmetic -/

theorem pow2_pos (z : Int) : 0 < pow2 z := by
  unfold pow2
  split
  · positivity
  · positivity

theorem roundEven_nonneg (x : ℚ) (hx : 0 ≤ x) : 0 ≤ roundEven x := by
  have hf : 0 ≤ ⌊x⌋ := Int.floor_nonneg.mpr hx
  unfold roundEven
  split
  · exact hf
  · split
    · omega
    · split
      · exact hf
      · omega

theorem roundMag_nonneg (a r : ℚ) (ha : 0 ≤ a) (h : roundMag a = some r) : 0 ≤ r := by
  unfold roundMag at h
  cases hb : binade a with
  | none => rw [hb] at h; cases h
  | some e =>
    rw [hb] at h
    simp only at h
    split at h
    · cases h
      have h1 : 0 ≤ a / pow2 (e - 23) := div_nonneg ha (le_of_lt (pow2_pos _))
      have h2 : (0 : ℚ) ≤ (roundEven (a / pow2 (e - 23)) : ℚ) := by
        exact_mod_cast roundEven_nonneg _ h1
      exact mul_nonneg h2 (le_of_lt (pow2_pos _))
    · cases h

theorem toF32_zero : toF32 0 = .fin 0 := by
  unfold toF32
  rw [if_pos rfl]

theorem toF32_nonneg (x : ℚ) (hx : 0 ≤ x) : (toF32 x).NonNeg := by
  unfold toF32
  split
  · exact le_refl (0 : ℚ)
  · rename_i hne
    have hpos : 0 < x := lt_of_le_of_ne hx (Ne.symm hne)
    rw [if_pos hpos]
    cases hr : roundMag x with
    | none => exact trivial
    | some r => exact roundMag_nonneg x r hx hr

theorem subF_fin (a b : ℚ) : F32.sub (.fin a) (.fin b) = toF32 (a - b) := by
  unfold F32.sub F32.neg F32.add
  rw [sub_eq_add_neg]

theorem toF32_ne_nan (x : ℚ) : toF32 x ≠ .nan := by
  unfold toF32
  split
  · intro h; cases h
  · split
    · cases roundMag x <;> (intro h; cases h)
    · cases roundMag (-x) <;> (intro h; cases h)

theorem mulF_self_nonneg (d : F32) (hd : d ≠ .nan) : (F32.mul d d).NonNeg := by
  cases d with
  | fin a =>
    have : F32.mul (.fin a) (.fin a) = toF32 (a * a) := rfl
    rw [this]
    exact toF32_nonneg _ (mul_self_nonneg a)
  | pinf => exact trivial
  | ninf => exact trivial
  | nan => exact absurd rfl hd

theorem addF_nonneg (a b : F32) (ha : a.NonNeg) (hb : b.NonNeg) :
    (F32.add a b).NonNeg := by
  cases a with
  | fin x =>
    cases b with
    | fin y =>
      have : F32.add (.fin x) (.fin y) = toF32 (x + y) := rfl
      rw [this]
      exact toF32_nonneg _ (add_nonneg ha hb)
    | pinf => exact trivial
    | ninf => exact absurd hb id
    | nan => exact absurd hb id
  | pinf =>
    cases b with
    | fin y => exact trivial
    | pinf => exact trivial
    | ninf => exact absurd hb id
    | nan => exact absurd hb id
  | ninf => exact absurd ha id
  | nan => exact absurd ha id

theorem sqrtF_nonneg (sqrt : ℚ → ℚ) (hnn : ∀ x, 0 ≤ x → 0 ≤ sqrt x) (a : F32)
    (ha : a.NonNeg) : (F32.sqrtWith sqrt a).NonNeg := by
  cases a with
  | fin x =>
    have hx : 0 ≤ x := ha
    have hd : F32.sqrtWith sqrt (.fin x) = if x < 0 then F32.nan else toF32 (sqrt x) := rfl
    rw [hd, if_neg (not_lt.mpr hx)]
    exact toF32_nonneg _ (hnn x hx)
  | pinf => exact trivial
  | ninf => exact absurd ha id
  | nan => exact absurd ha id

theorem divF_nonneg (a : F32) (ha : a.NonNeg) (b : ℚ) (hb : 0 < b) :
    (F32.div a (.fin b)).NonNeg := by
  cases a with
  | fin x =>
    have hx : 0 ≤ x := ha
    have hd : F32.div (.fin x) (.fin b) =
        if b = 0 then (if x = 0 then F32.nan else if 0 < x then F32.pinf else F32.ninf)
        else toF32 (x / b) := rfl
    rw [hd, if_neg (ne_of_gt hb)]
    exact toF32_nonneg _ (div_nonneg hx (le_of_lt hb))
  | pinf =>
    have hd : F32.div .pinf (.fin b) =
        if 0 ≤ F32.sgn .pinf * (if b < 0 then -1 else 1) then F32.pinf else F32.ninf := rfl
    have hs : F32.sgn .pinf = 1 := rfl
    rw [hd, hs, if_neg (not_lt.mpr (le_of_lt hb)), if_pos (by norm_num)]
    exact trivial
  | ninf => exact absurd ha id
  | nan => exact absurd ha id

/-! ## The heuristic producers -/

/-- The value computed for an index is a non-negative number or `+INFINITY`. -/
theorem hValue_nonneg (sqrt : ℚ → ℚ) (hnn : ∀ x, 0 ≤ x → 0 ≤ sqrt x)
    (pos : List (ℚ × ℚ)) (goal i : Int) : (hValue sqrt pos goal i).NonNeg := by
  unfold hValue
  simp only
  rw [subF_fin, subF_fin]
  apply addF_nonneg
  · apply divF_nonneg _ _ _ (by norm_num)
    apply sqrtF_nonneg sqrt hnn
    exact addF_nonneg _ _ (mulF_self_nonneg _ (toF32_ne_nan _))
      (mulF_self_nonneg _ (toF32_ne_nan _))
  · show (0 : ℚ) ≤ 1 / 2
    norm_num

/-- The value computed for the index `goal` is `0.5`. -/
theorem hValue_goal (sqrt : ℚ → ℚ) (h0 : sqrt 0 = 0) (pos : List (ℚ × ℚ)) (goal : Int) :
    hValue sqrt pos goal goal = .fin (1 / 2) := by
  unfold hValue
  simp only
  rw [subF_fin, subF_fin, sub_self, sub_self, toF32_zero]
  have hm : F32.mul (.fin 0) (.fin 0) = .fin 0 := by
    show toF32 (0 * 0) = .fin 0
    rw [mul_zero, toF32_zero]
  have ha : F32.add (.fin 0) (.fin 0) = .fin 0 := by
    show toF32 (0 + 0) = .fin 0
    rw [add_zero, toF32_zero]
  have hs : F32.sqrtWith sqrt (.fin 0) = .fin 0 := by
    show (if (0 : ℚ) < 0 then F32.nan else toF32 (sqrt 0)) = .fin 0
    rw [if_neg (lt_irrefl _), h0, toF32_zero]
  have hd : F32.div (.fin 0) (.fin 100) = .fin 0 := by
    show (if (100 : ℚ) = 0 then
        (if (0 : ℚ) = 0 then F32.nan else if (0 : ℚ) < 0 then F32.pinf else F32.ninf)
      else toF32 (0 / 100)) = .fin 0
    rw [if_neg (by norm_num), zero_div, toF32_zero]
  have hh : F32.add (.fin 0) (.fin (1 / 2)) = .fin (1 / 2) := by decide!
  rw [hm, ha, hs, hd, hh]

theorem castInt_of_nonneg (v : F32) (hv : v.NonNeg)
    (hlt : F32.lt v (.fin (2 ^ 31)) = true) : ∃ c, castInt v = some c ∧ 0 ≤ c := by
  cases v with
  | fin q =>
    have hq : 0 ≤ q := hv
    have hq2 : q < 2 ^ 31 := by
      have : F32.lt (.fin q) (.fin (2 ^ 31)) = decide (q < 2 ^ 31) := rfl
      rw [this] at hlt
      exact of_decide_eq_true hlt
    have hf : 0 ≤ ⌊q⌋ := Int.floor_nonneg.mpr hq
    have hf2 : ⌊q⌋ < (2 : Int) ^ 31 := by
      rw [Int.floor_lt]
      push_cast
      exact hq2
    refine ⟨⌊q⌋, ?_, hf⟩
    unfold castInt
    simp only [if_pos hq]
    rw [if_pos ⟨by omega, hf2⟩]
  | pinf => cases hlt
  | ninf => exact absurd hv id
  | nan => exact absurd hv id

theorem castInt_half : castInt (.fin (1 / 2)) = some 0 := by decide!

/-- The loop that stores `h[i] = f i` for `i = 0, ..., n - 1` turns the first `n`
entries of the vector into `f 0, ..., f (n - 1)`. -/
theorem fold_vset_range {α : Type} (f : Nat → α) (init : List α) :
    ∀ n : Nat, n ≤ init.length →
      (List.range n).foldl (fun (h : List α) (i : Nat) => vset h (i : Int) (f i)) init =
        (List.range n).map f ++ init.drop n := by
  intro n
  induction n with
  | zero => intro _; simp
  | succ n ih =>
    intro hn
    rw [List.range_succ, List.foldl_append, ih (by omega)]
    simp only [List.foldl_cons, List.foldl_nil, List.map_append, List.map_cons, List.map_nil]
    unfold vset
    have hneg : ¬ ((n : Int) < 0) := by omega
    rw [if_neg hneg, Int.toNat_ofNat]
    have hlen : ((List.range n).map f).length = n := by simp
    rw [List.set_append_right _ _ (by rw [hlen]), hlen, Nat.sub_self]
    have hdrop : init.drop n = init[n] :: init.drop (n + 1) := by
      rw [List.drop_eq_getElem_cons (by omega)]
    rw [hdrop, List.set_cons_zero, List.append_assoc]
    rfl

/-- When every conversion is defined, with value `f i` at index `i`, the loop with
conversions is the loop that stores `f i`. -/
theorem fold_cast_range (c : Nat → Option Int) (f : Nat → Int) (init : List Int) :
    ∀ n : Nat, (∀ i, i < n → c i = some (f i)) →
      (List.range n).foldl
        (fun (h : Option (List Int)) (i : Nat) =>
          match h, c i with
          | some v, some x => some (vset v (i : Int) x)
          | _, _ => none) (some init) =
      some ((List.range n).foldl
        (fun (h : List Int) (i : Nat) => vset h (i : Int) (f i)) init) := by
  intro n
  induction n with
  | zero => intro _; rfl
  | succ n ih =>
    intro hc
    rw [List.range_succ, List.foldl_append, List.foldl_append,
      ih (fun i hi => hc i (by omega))]
    simp only [List.foldl_cons, List.foldl_nil]
    rw [hc n (by omega)]

/-- C22 (amended): with a library `sqrt` that returns a non-negative number on a
non-negative argument and `0` at `0`, for nodes and positions with finite coordinates:
`euclideanHeuristic` is non-negative and `0` from a node to itself; `clusterHeuristic` is
`euclideanHeuristic` inside a cluster and `1.5` times it across clusters, hence at least
`euclideanHeuristic` and `0` from a node to itself; and when every value
`sqrt(dx * dx + dy * dy) / 100.0f + 0.5f` that `generateHeuristics` computes is below
`2 ^ 31`, it returns `pos.size()` non-negative integers, the one at index `goal` being
`0`. -/
theorem C22_heuristic_interface (sqrt : ℚ → ℚ) (hnn : ∀ x, 0 ≤ x → 0 ≤ sqrt x)
    (h0 : sqrt 0 = 0) :
    (∀ a b : HNode, 0 ≤ euclideanHeuristic sqrt a b) ∧
    (∀ b : HNode, euclideanHeuristic sqrt b b = 0) ∧
    (∀ a b : HNode, a.cluster = b.cluster →
      clusterHeuristic sqrt a b = euclideanHeuristic sqrt a b) ∧
    (∀ a b : HNode, a.cluster ≠ b.cluster →
      clusterHeuristic sqrt a b = (3 / 2) * euclideanHeuristic sqrt a b) ∧
    (∀ a b : HNode, euclideanHeuristic sqrt a b ≤ clusterHeuristic sqrt a b) ∧
    (∀ b : HNode, clusterHeuristic sqrt b b = 0) ∧
    (∀ (pos : List (ℚ × ℚ)) (goal : Int),
      (∀ i : Nat, i < pos.length →
        F32.lt (hValue sqrt pos goal (i : Int)) (.fin (2 ^ 31)) = true) →
      ∃ h, generateHeuristics sqrt pos goal = some h ∧ h.length = pos.length ∧
        (∀ x ∈ h, 0 ≤ x) ∧ (InRange pos.length goal → h[goal.toNat]? = some 0)) := by
  have hE : ∀ a b : HNode, 0 ≤ euclideanHeuristic sqrt a b := by
    intro a b
    unfold euclideanHeuristic
    exact hnn _ (add_nonneg (mul_self_nonneg _) (mul_self_nonneg _))
  have hE0 : ∀ b : HNode, euclideanHeuristic sqrt b b = 0 := by
    intro b
    unfold euclideanHeuristic
    simp [h0]
  refine ⟨hE, hE0, ?_, ?_, ?_, ?_, ?_⟩
  · intro a b hc
    unfold clusterHeuristic
    simp only
    rw [if_pos hc]
  · intro a b hc
    unfold clusterHeuristic
    simp only
    rw [if_neg hc]
  · intro a b
    unfold clusterHeuristic
    simp only
    split
    · exact le_refl _
    · have := hE a b
      linarith
  · intro b
    unfold clusterHeuristic
    simp [hE0]
  · intro pos goal hb
    have hcast : ∀ i : Nat, i < pos.length →
        ∃ c, castInt (hValue sqrt pos goal (i : Int)) = some c ∧ 0 ≤ c :=
      fun i hi => castInt_of_nonneg _ (hValue_nonneg sqrt hnn pos goal i) (hb i hi)
    have hf : ∀ i : Nat, i < pos.length →
        castInt (hValue sqrt pos goal (i : Int)) =
          some ((castInt (hValue sqrt pos goal (i : Int))).getD 0) := by
      intro i hi
      obtain ⟨c, hc, _⟩ := hcast i hi
      rw [hc]
      rfl
    have hgen : generateHeuristics sqrt pos goal =
        some ((List.range pos.length).map
          (fun (i : Nat) => (castInt (hValue sqrt pos goal (i : Int))).getD 0)) := by
      unfold generateHeuristics
      refine (fold_cast_range (fun (i : Nat) => castInt (hValue sqrt pos goal (i : Int)))
        (fun (i : Nat) => (castInt (hValue sqrt pos goal (i : Int))).getD 0) _ pos.length
        hf).trans ?_
      rw [fold_vset_range _ _ pos.length (by simp)]
      simp
    refine ⟨_, hgen, by simp, ?_, ?_⟩
    · intro x hx
      simp only [List.mem_map, List.mem_range] at hx
      obtain ⟨i, hi, rfl⟩ := hx
      obtain ⟨c, hc, hc0⟩ := hcast i hi
      rw [hc]
      exact hc0
    · intro hr
      have hlt : goal.toNat < pos.length := by
        unfold InRange at hr
        omega
      have hcg : ((goal.toNat : Nat) : Int) = goal := Int.toNat_of_nonneg hr.1
      rw [List.getElem?_map, List.getElem?_range hlt]
      simp only [Option.map_some', hcg]
      rw [hValue_goal sqrt h0, castInt_half]
      rfl

theorem floorSqrt_nonneg (x : ℚ) : 0 ≤ floorSqrt x := by
  unfold floorSqrt
  split
  · exact le_refl _
  · exact Nat.cast_nonneg _

/-- C22 (counterexample): with positions `(0,0)`, `(2^37,0)`, `(2^38,0)` (values of
`float`) and goal 0, where `sqrt` is exact (`sqrt(2^74) = 2^37`, `sqrt(2^76) = 2^38`),
the value computed for index 2 is `2748779008`, which is `2 ^ 31` or more: the
conversion `static_cast<int>` is outside the range of `int`, its behaviour is undefined,
and `generateHeuristics` has no defined result; without the third position the result is
`[0, 1374389504]`. -/
theorem C22_cast_out_of_range :
    isF32 (2 ^ 37) ∧ isF32 (2 ^ 38) ∧
    floorSqrt (2 ^ 74) = 2 ^ 37 ∧ floorSqrt (2 ^ 76) = 2 ^ 38 ∧
    hValue floorSqrt [(0, 0), (2 ^ 37, 0), (2 ^ 38, 0)] 0 2 = .fin 2748779008 ∧
    (2 : ℚ) ^ 31 ≤ 2748779008 ∧
    castInt (.fin 2748779008) = none ∧
    generateHeuristics floorSqrt [(0, 0), (2 ^ 37, 0), (2 ^ 38, 0)] 0 = none ∧
    generateHeuristics floorSqrt [(0, 0), (2 ^ 37, 0)] 0 = some [0, 1374389504] := by
  decide!

/-- Instance of C22 (amended): the square root that rounds down to a whole number, and
positions at distances 0, 500 and 1000 from the goal. -/
theorem C22_witness :
    (∀ x : ℚ, 0 ≤ x → 0 ≤ floorSqrt x) ∧ floorSqrt 0 = 0 ∧
    (∀ i : Nat, i < ([(0, 0), (300, 400), (1000, 0)] : List (ℚ × ℚ)).length →
      F32.lt (hValue floorSqrt [(0, 0), (300, 400), (1000, 0)] 0 (i : Int))
        (.fin (2 ^ 31)) = true) ∧
    ((∀ a b : HNode, 0 ≤ euclideanHeuristic floorSqrt a b) ∧
     (∀ b : HNode, euclideanHeuristic floorSqrt b b = 0)) ∧
    (∃ h, generateHeuristics floorSqrt [(0, 0), (300, 400), (1000, 0)] 0 = some h ∧
      h.length = ([(0, 0), (300, 400), (1000, 0)] : List (ℚ × ℚ)).length ∧
      (∀ x ∈ h, 0 ≤ x) ∧
      (InRange ([(0, 0), (300, 400), (1000, 0)] : List (ℚ × ℚ)).length 0 →
        h[(0 : Int).toNat]? = some 0)) ∧
    generateHeuristics floorSqrt [(0, 0), (300, 400), (1000, 0)] 0 = some [0, 5, 10] :=
  ⟨fun x _ => floorSqrt_nonneg x, by decide!, by decide!,
    ⟨(C22_heuristic_interface floorSqrt (fun x _ => floorSqrt_nonneg x) (by decide!)).1,
     (C22_heuristic_interface floorSqrt (fun x _ => floorSqrt_nonneg x) (by decide!)).2.1⟩,
    (C22_heuristic_interface floorSqrt (fun x _ => floorSqrt_nonneg x)
      (by decide!)).2.2.2.2.2.2 [(0, 0), (300, 400), (1000, 0)] 0 (by decide!),
    by decide!⟩

/-! ## The map-based and the grid solvers on concrete inputs -/

/-- C21 (failing input): on the graph with nodes 0, 1, 2 and the arcs 0->1 (1) and
0->2 (5), from 0 to 2 with the zero heuristic, the first pass of `aStar` leaves the
entries of the nodes 2 and 1 in the frontier, and the second pass, which expands node 1,
raises `std::out_of_range` at `g.adj.at(1)`; with an empty list stored for the nodes 1
and 2 the call returns the path `[0, 2]` of cost 5.  A pass of the loop that expands a
node other than the goal without a key in `adj` always raises. -/
theorem C21_missing_key_raises :
    hfork.nodes.map (fun n => n.id) = [0, 1, 2] ∧ hfork.adj.lookup 1 = none ∧
    (hSteps hfork hZero 2 1 (hInit hfork hZero 0 2)).map (fun s => (s.openQ, s.visited)) =
      .ok ([(((5 : ℚ) : Cost), 2), (((1 : ℚ) : Cost), 1)], [0]) ∧
    aStar hfork 0 2 hZero = .outOfRange ∧
    aStar hforkFull 0 2 hZero = .ok ([0, 2], ((5 : ℚ) : Cost), 3) ∧
    (∀ (g : HGraph) (heuristic : HNode → HNode → ℚ) (goal : Int) (s : HState)
      (top : PQItem), top.2 ∉ s.visited → top.2 ≠ goal → g.adj.lookup top.2 = none →
        hBody g heuristic goal s top = .outOfRange) := by
  refine ⟨by decide!, by decide!, by decide!, by decide!, by decide!, ?_⟩
  intro g heuristic goal s top hvis hgoal hnone
  unfold hBody
  simp only
  rw [if_neg hvis, if_neg hgoal, hnone]

/-- C28 (failing input): on the graph `hdetour` (ids 0..3 in order, an adjacency entry
for every node, no parallel arcs, non-negative weights) with heuristic 5 at node 1 and 0
elsewhere, the goal 3 is reachable from 0 and `aStar` returns the path `[0, 1, 2, 3]`
with the cost 13, while the arcs of that path weigh 1 + 1 + 10 = 12; 13 is the weight of
the path `[0, 2, 3]`. -/
theorem C28_cost_of_other_route :
    hdetour.nodes.map (fun n => n.id) = [0, 1, 2, 3] ∧
    (∀ n ∈ hdetour.nodes, hdetour.adj.lookup n.id ≠ none) ∧
    (∀ p ∈ hdetour.adj, (p.2.map (fun e => e.1)).Nodup) ∧
    (∀ p ∈ hdetour.adj, ∀ e ∈ p.2, 0 ≤ e.2) ∧
    HWalk hdetour 0 3 ∧
    aStar hdetour 0 3 hFive = .ok ([0, 1, 2, 3], ((13 : ℚ) : Cost), 4) ∧
    hPathWeight hdetour [0, 1, 2, 3] = some 12 ∧
    hPathWeight hdetour [0, 2, 3] = some 13 := by
  refine ⟨by decide!, by decide!, by decide!, by decide!, ?_, by decide!, by decide!,
    by decide!⟩
  have h1 : HWalk hdetour 0 2 := HWalk.snoc (2, 3) (HWalk.nil 0) (by decide!)
  exact HWalk.snoc (3, 10) h1 (by decide!)

/-- C26 (failing input): for every grid, every cell `c`, every library `sqrt` and every
heap whose `top()` returns the only entry of a one-entry heap, the call `a_star(c, c)`
of `pathfollow.cpp` returns the empty path: the first pass pops `c` and leaves through
`break`, `came` has no entry, and `if (!came.count(goal)) return path;` returns. -/
theorem C26_same_cell_empty (sqrt : ℚ → ℚ) (top : List (Nat × ℚ) → List Nat → Nat)
    (htop : ∀ (f : List (Nat × ℚ)) (c : Nat), top f [c] = c)
    (grid : List PathFollow.Node) (fuel : Nat) (c : Nat) :
    PathFollow.a_star sqrt top grid (fuel + 1) c c = some [] := by
  unfold PathFollow.a_star
  simp only
  unfold PathFollow.loop
  simp only [List.cons_ne_nil, ↓reduceIte, htop]
  rfl

/-- Instance of C26: the grid of two cells side by side, with the heap that returns an
entry of least `f`; from a cell to itself the result is empty, from the cell 0 to the
cell 1 it is the path `[0, 1]`. -/
theorem C26_witness :
    (∀ (f : List (Nat × ℚ)) (c : Nat), PathFollow.leastF f [c] = c) ∧
    PathFollow.a_star floorSqrt PathFollow.leastF PathFollow.pairGrid 5 0 0 = some [] ∧
    PathFollow.a_star floorSqrt PathFollow.leastF PathFollow.pairGrid 5 1 1 = some [] ∧
    PathFollow.a_star floorSqrt PathFollow.leastF PathFollow.pairGrid 5 0 1 = some [0, 1] :=
  ⟨fun _ _ => rfl,
    C26_same_cell_empty floorSqrt PathFollow.leastF (fun _ _ => rfl) PathFollow.pairGrid 4 0,
    by decide!, by decide!⟩

/-! ## Runs in binary32 -/

/-- C13 (counterexample): on the graph `tied` with the table `2 ^ 24` at V and at U
(non-negative weights, consistent table, all of them values of `float`), from S to G in
binary32: the keys `1 + 2^24` of V and `0.25 + 2^24` of U both round to `2 ^ 24`, so the
second pass pops V (the smaller id) and closes it with `gCost[V] = 1`; the third pass
expands U and meets the arc U->V of weight `0.25` whose target V is closed, with
`gCost[U] + 0.25 = 0.5 < 1 = gCost[V]`: the skipped relaxation would improve, and
`gCost[V]` stays 1. -/
theorem C13_rounding_closes_early :
    ValidArcs tied ∧ NonNegWeights tied ∧ Consistent tied (heur tied tiedTable) ∧
    (∀ p ∈ tied.adj, ∀ e ∈ p.2, isF32 e.w) ∧ (∀ p ∈ tiedTable, isF32 p.2) ∧
    findId tied "S" = 0 ∧ findId tied "V" = 1 ∧ findId tied "U" = 2 ∧
    findId tied "G" = 3 ∧
    F32.add (.fin 1) (.fin 16777216) = .fin 16777216 ∧
    F32.add (.fin (1 / 4)) (.fin 16777216) = .fin 16777216 ∧
    (Bin32.aSteps tied (Bin32.heur tied tiedTable) 3 2
      (Bin32.aInit tied (Bin32.heur tied tiedTable) 0 Bin32.Stats.fresh)).closed =
        [true, true, false, false] ∧
    (Bin32.aSteps tied (Bin32.heur tied tiedTable) 3 2
      (Bin32.aInit tied (Bin32.heur tied tiedTable) 0 Bin32.Stats.fresh)).gCost =
        [.fin 0, .fin 1, .fin (1 / 4), .fin 16777220] ∧
    Bin32.pqTop (Bin32.aSteps tied (Bin32.heur tied tiedTable) 3 2
      (Bin32.aInit tied (Bin32.heur tied tiedTable) 0 Bin32.Stats.fresh)).openQ =
        some (.fin 16777216, 2) ∧
    arcsOf tied 2 = [⟨1, 1 / 4, true⟩] ∧
    F32.add (.fin (1 / 4)) (.fin (1 / 4)) = .fin (1 / 2) ∧
    F32.lt (.fin (1 / 2)) (.fin 1) = true ∧
    (Bin32.aSteps tied (Bin32.heur tied tiedTable) 3 3
      (Bin32.aInit tied (Bin32.heur tied tiedTable) 0 Bin32.Stats.fresh)).closed =
        [true, true, true, false] ∧
    (Bin32.aSteps tied (Bin32.heur tied tiedTable) 3 3
      (Bin32.aInit tied (Bin32.heur tied tiedTable) 0 Bin32.Stats.fresh)).gCost =
        [.fin 0, .fin 1, .fin (1 / 4), .fin 16777220] := by
  decide!

theorem tied_admissible : Admissible tied (heur tied tiedTable) (findId tied "G") := by
  have hc : Consistent tied (heur tied tiedTable) := by decide!
  have hN : tied.nodes.length = 4 := by decide!
  intro v hv
  unfold InRange at hv
  rw [hN] at hv
  have hcases : v = 0 ∨ v = 1 ∨ v = 2 ∨ v = 3 := by omega
  have h0 : 0 ≤ heur tied tiedTable v := by
    rcases hcases with rfl | rfl | rfl | rfl <;> decide!
  refine ⟨h0, fun c hw => ?_⟩
  have h1 := consistent_walk hc hw
  have h2 : heur tied tiedTable (findId tied "G") = 0 := by decide!
  rw [h2] at h1
  linarith

/-- On the graph `tied` with its admissible and consistent table, from S to G: in
binary32 `a_star` reports the cost 16777220 along S, V, G and `dijkstra` the cost
16777218 along S, U, V, G, while in exact arithmetic both report 16777218.5. -/
theorem tied_costs_differ :
    ValidArcs tied ∧ NonNegWeights tied ∧
    Admissible tied (heur tied tiedTable) (findId tied "G") ∧
    Consistent tied (heur tied tiedTable) ∧
    Bin32.a_star tied "S" "G" tiedTable Bin32.Stats.fresh =
      some ([0, 1, 3], ⟨4, 2, .fin 16777220⟩) ∧
    Bin32.dijkstra tied "S" "G" Bin32.Stats.fresh =
      some ([0, 2, 1, 3], ⟨4, 2, .fin 16777218⟩) ∧
    a_star tied "S" "G" tiedTable Stats.fresh =
      some ([0, 2, 1, 3], ⟨4, 2, ((33554437 / 2 : ℚ) : Cost)⟩) ∧
    dijkstra tied "S" "G" Stats.fresh =
      some ([0, 2, 1, 3], ⟨4, 2, ((33554437 / 2 : ℚ) : Cost)⟩) :=
  ⟨by decide!, by decide!, tied_admissible, by decide!, by decide!, by decide!, by decide!,
    by decide!⟩
end HW3
